import Mathlib

/-!
# The synthetic type-checker workload: embedding and properties

A shallow embedding of `performance-comparison/go-test.go` and
`performance-comparison/large-scale-test.go`, with `formatNumber` of
`memory-test/memoryTest.go` and `isPrime` of `cpu-intensive-test/cpuTest.go`.

Conventions of the embedding.

* Go `int` values are `Int`; a loop counter that starts at `0` and only grows is a `Nat`.
  Node counts stay far below `2 ^ 63` on any tree that fits in memory, so no wrap-around
  is modelled for them.
* A Go `map[string]V` is an association list with pairwise distinct keys (`AList`);
  `m[k] = v` replaces the entry of `k` or adds one, `v, ok := m[k]` is a lookup and
  `len(m)` is the number of entries.
* A pointer to a tree node is the node itself; the `Parent` back-reference of a node holds
  the address (allocation index) of the parent node, and every node records its own address.
* `math/rand` is a stream of outcomes that is consumed value by value.
* A mutex-protected critical section is one atomic step of a goroutine.
* `fmt.Printf` output is not part of the state; the wall clock is a stream of readings.
* The monitor's read of `processed` returns the value the counter has at that moment.
-/

namespace TechShare

/-! ## Runtime pieces -/

/-- Go map with string keys. -/
abbrev GoMap (V : Type) := AList (fun _ : String => V)

namespace GoMap

/-- The map built by `make(map[string]V)`. -/
def make {V : Type} : GoMap V := ∅

/-- The lookup `v, exists := m[k]`; `none` stands for `exists == false`. -/
def get {V : Type} (m : GoMap V) (k : String) : Option V := m.lookup k

/-- The assignment `m[k] = v`. -/
def set {V : Type} (m : GoMap V) (k : String) (v : V) : GoMap V := m.insert k v

/-- The builtin `len(m)`. -/
def len {V : Type} (m : GoMap V) : Nat := m.entries.length

end GoMap

/-- The counted loop `for i := 0; i < n; i++ { s = body i s }`. -/
def forLoop {σ : Type} (n : Nat) (body : Nat → σ → σ) (s : σ) : σ :=
  (List.range n).foldl (fun acc i => body i acc) s

/-- The verb `%d` of `fmt.Sprintf` on a non-negative integer. -/
def fmtD (n : Nat) : String := Nat.repr n

/-- The part of the process state that `generateAST` consumes: the outcomes of the global
`math/rand` source in the order they are drawn, how many of them were drawn, and how many
tree nodes were allocated (the address of the next one). -/
structure Runtime where
  outcomes : Nat → Nat
  drawn : Nat
  allocated : Nat

namespace Runtime

/-- The call `rand.Intn(n)`: the next outcome, reduced to `[0, n)`. -/
def Intn (rt : Runtime) (n : Nat) : Nat × Runtime :=
  (rt.outcomes rt.drawn % n, { rt with drawn := rt.drawn + 1 })

/-- The call `rand.Int()`: the next outcome, a non-negative 63-bit integer. -/
def Int63 (rt : Runtime) : Nat × Runtime :=
  (rt.outcomes rt.drawn % 2 ^ 63, { rt with drawn := rt.drawn + 1 })

/-- Allocation of one `ASTNode`: its address, and the runtime after it. -/
def newNode (rt : Runtime) : Nat × Runtime :=
  (rt.allocated, { rt with allocated := rt.allocated + 1 })

end Runtime

/-! ## Data model -/

/-- The type `NodeKind` of the source, an `int`. -/
abbrev NodeKind := Int

def FunctionDeclaration : NodeKind := 1
def VariableDeclaration : NodeKind := 2
def CallExpression : NodeKind := 3
def BinaryExpression : NodeKind := 4
def Identifier : NodeKind := 5

/-- The struct `ASTNode`. `Addr` is the address of the node, `Parent` the address held by
its parent back-reference (`none` for a nil pointer). -/
inductive ASTNode where
  | mk (Addr : Nat) (Kind : NodeKind) (Name : String) (Children : List ASTNode)
      (Parent : Option Nat)

namespace ASTNode

def Addr : ASTNode → Nat
  | mk a _ _ _ _ => a

def Kind : ASTNode → NodeKind
  | mk _ k _ _ _ => k

def Name : ASTNode → String
  | mk _ _ n _ _ => n

def Children : ASTNode → List ASTNode
  | mk _ _ _ cs _ => cs

def Parent : ASTNode → Option Nat
  | mk _ _ _ _ p => p

/-- The assignment `node.Parent = p`. -/
def setParent : ASTNode → Option Nat → ASTNode
  | mk a k n cs _, p => mk a k n cs p

end ASTNode

/-- The struct `Symbol`. -/
structure Symbol where
  Name : String
  Type_ : String
  Scope : Int
  deriving DecidableEq

/-- The struct `SymbolTable`: a map and a pointer to the enclosing table. -/
inductive SymbolTable where
  | mk (symbols : GoMap Symbol) (parent : Option SymbolTable)

namespace SymbolTable

def symbols : SymbolTable → GoMap Symbol
  | mk s _ => s

def parent : SymbolTable → Option SymbolTable
  | mk _ p => p

end SymbolTable

/-- The struct `TypeChecker`; its lock carries no data. The table pointer is never nil:
`NewTypeChecker` is the only constructor and nothing reassigns the field. -/
structure TypeChecker where
  symbolTable : SymbolTable

/-- The function `NewTypeChecker`. -/
def NewTypeChecker : TypeChecker :=
  { symbolTable := SymbolTable.mk GoMap.make none }

/-! ## `go-test.go`: traversal -/

/-- The body of `checkFunctionDeclaration`: 100 formatted strings, all discarded. -/
def checkFunctionDeclaration (node : ASTNode) : List String :=
  forLoop 100 (fun i acc => acc ++ [node.Name ++ fmtD i]) []

/-- The body of `checkVariableDeclaration`: 50 formatted strings, all discarded. -/
def checkVariableDeclaration (node : ASTNode) : List String :=
  forLoop 50 (fun i acc => acc ++ [node.Name ++ fmtD i]) []

/-- The body of `checkCallExpression`: 75 formatted strings, all discarded. -/
def checkCallExpression (node : ASTNode) : List String :=
  forLoop 75 (fun i acc => acc ++ [node.Name ++ fmtD i]) []

/-- The `switch node.Kind` of `visitNode`; its result is not used by the caller. -/
def checkByKind (node : ASTNode) : List String :=
  if node.Kind = FunctionDeclaration then checkFunctionDeclaration node
  else if node.Kind = VariableDeclaration then checkVariableDeclaration node
  else if node.Kind = CallExpression then checkCallExpression node
  else []

mutual
/-- The method `TypeChecker.visitNode` (the receiver is not read). -/
def visitNode : ASTNode → Int
  | ASTNode.mk addr kind name children parent =>
    let _unused := checkByKind (ASTNode.mk addr kind name children parent)
    visitChildren children 1
/-- The loop `for _, child := range node.Children { count += tc.visitNode(child) }`. -/
def visitChildren : List ASTNode → Int → Int
  | [], count => count
  | child :: rest, count => visitChildren rest (count + visitNode child)
end

/-! ## `go-test.go`: the symbol table -/

/-- The loop of `resolveSymbol`, started at the table `current`. -/
def resolveFrom : SymbolTable → String → Option Symbol
  | SymbolTable.mk symbols parent, name =>
    match symbols.get name with
    | some symbol => some symbol
    | none =>
      match parent with
      | none => none
      | some p => resolveFrom p name

/-- The method `TypeChecker.resolveSymbol`; `none` is the nil result. -/
def resolveSymbol (tc : TypeChecker) (name : String) : Option Symbol :=
  resolveFrom tc.symbolTable name

/-- The method `TypeChecker.addSymbol`. -/
def addSymbol (tc : TypeChecker) (name symbolType : String) (scope : Int) : TypeChecker :=
  { symbolTable :=
      SymbolTable.mk
        (tc.symbolTable.symbols.set name { Name := name, Type_ := symbolType, Scope := scope })
        tc.symbolTable.parent }

/-! ## `go-test.go`: batch processing -/

/-- The method `TypeChecker.processFiles`. -/
def processFiles (files : List ASTNode) : Int :=
  files.foldl (fun totalNodes file => totalNodes + visitNode file) 0

/-! ## Test data generators -/

/-- The slice `kinds` of `generateAST`. -/
def kinds : List NodeKind :=
  [FunctionDeclaration, VariableDeclaration, CallExpression, BinaryExpression, Identifier]

/-- The function `generateAST` (the two source files hold the same text). -/
def generateAST (depth breadth : Int) (rt : Runtime) : ASTNode × Runtime :=
  let pick := rt.Intn kinds.length
  let draw := pick.2.Int63
  let cell := draw.2.newNode
  let kind := kinds.getD pick.1 0
  let name := "node_" ++ fmtD draw.1
  if _h : depth > 0 then
    let built := forLoop breadth.toNat
      (fun _ (st : List ASTNode × Runtime) =>
        let sub := generateAST (depth - 1) breadth st.2
        (st.1 ++ [sub.1.setParent (some cell.1)], sub.2))
      ([], cell.2)
    (ASTNode.mk cell.1 kind name built.1 none, built.2)
  else
    (ASTNode.mk cell.1 kind name [] none, cell.2)
termination_by depth.toNat
decreasing_by omega

/-- The function `generateSymbols`; `none` is the panic of `make` on a negative length. -/
def generateSymbols (count : Int) : Option (List Symbol) :=
  if count < 0 then none
  else
    some (forLoop count.toNat
      (fun i symbols =>
        symbols ++
          [{ Name := "symbol_" ++ fmtD i
             Type_ := if i % 2 = 0 then "function" else "variable"
             Scope := ((i / 100 : Nat) : Int) }])
      [])

/-- The loop `for _, symbol := range symbols { checker.addSymbol(...) }` of
`runPerformanceTest`. -/
def addSymbols (checker : TypeChecker) (symbols : List Symbol) : TypeChecker :=
  symbols.foldl (fun c symbol => addSymbol c symbol.Name symbol.Type_ symbol.Scope) checker

/-! ## `go-test.go`: concurrent batch processing

Every file gets one goroutine. A goroutine waits for a slot of the semaphore (a channel
of capacity `runtime.NumCPU()`), visits its file and adds the count to `totalNodes` under
the mutex, gives the slot back and signals the wait group. A schedule names, step by step,
the goroutine that moves next. -/

/-- Where a goroutine of `processFilesConcurrent` stands. -/
inductive Phase where
  | waiting
  | running
  | counted
  | finished
  deriving DecidableEq

/-- One goroutine and the file it was started with. -/
structure Worker where
  file : ASTNode
  phase : Phase

/-- The shared state of `processFilesConcurrent`. -/
structure PoolState where
  workers : List Worker
  totalNodes : Int

namespace PoolState

/-- How many slots of the semaphore are taken. -/
def slotsHeld (s : PoolState) : Nat :=
  (s.workers.filter (fun w => w.phase = Phase.running ∨ w.phase = Phase.counted)).length

/-- Whether every goroutine has called `wg.Done()`. -/
def allFinished (s : PoolState) : Bool :=
  s.workers.all (fun w => w.phase = Phase.finished)

/-- The state after the spawning loop: one waiting goroutine per file. -/
def start (files : List ASTNode) : PoolState :=
  { workers := files.map (fun f => { file := f, phase := Phase.waiting }), totalNodes := 0 }

/-- One step of goroutine `i`; `none` when it cannot move (it waits for a slot while all
`numCPU` slots are taken, it has finished, or there is no such goroutine). -/
def advance (numCPU : Nat) (s : PoolState) (i : Nat) : Option PoolState :=
  match s.workers[i]? with
  | none => none
  | some w =>
    match w.phase with
    | Phase.waiting =>
      if s.slotsHeld < numCPU then
        some { s with workers := s.workers.set i { w with phase := Phase.running } }
      else none
    | Phase.running =>
      some { workers := s.workers.set i { w with phase := Phase.counted }
             totalNodes := s.totalNodes + visitNode w.file }
    | Phase.counted =>
      some { s with workers := s.workers.set i { w with phase := Phase.finished } }
    | Phase.finished => none

/-- The run of a whole schedule. -/
def run (numCPU : Nat) : PoolState → List Nat → Option PoolState
  | s, [] => some s
  | s, i :: rest =>
    match advance numCPU s i with
    | none => none
    | some t => run numCPU t rest

end PoolState

/-- The method `TypeChecker.processFilesConcurrent` under a schedule: the value returned
once `wg.Wait()` is over, `none` when the schedule is not a complete run. -/
def processFilesConcurrent (files : List ASTNode) (numCPU : Nat) (schedule : List Nat) :
    Option Int :=
  match PoolState.run numCPU (PoolState.start files) schedule with
  | none => none
  | some s => if s.allFinished then some s.totalNodes else none

/-! ## `large-scale-test.go` -/

/-- The struct `TypeInfo`. -/
structure TypeInfo where
  Name : String
  Properties : GoMap String
  Methods : List String

/-- The struct `SourceFile`; `AST` is a pointer that may be nil. -/
structure SourceFile where
  Path : String
  Content : List Nat
  AST : Option ASTNode
  Symbols : List Symbol
  Size : Int

/-- The struct `GlobalSymbolTable`; its lock carries no data. -/
structure GlobalSymbolTable where
  symbols : GoMap Symbol
  types : GoMap TypeInfo

/-- The struct `LargeProject`. -/
structure LargeProject where
  Files : List SourceFile
  GlobalSymbols : GlobalSymbolTable
  Dependencies : GoMap (List String)

mutual
/-- The function `visitNodeComplex` on a non-nil node. -/
def visitNodeComplexAt : ASTNode → Int
  | ASTNode.mk _ _ name children _ =>
    let _unused : List String :=
      forLoop 50 (fun i acc => acc ++ ["op_" ++ name ++ "_" ++ fmtD i]) []
    visitChildrenComplex children 1
/-- The loop `for _, child := range node.Children { count += visitNodeComplex(child) }`. -/
def visitChildrenComplex : List ASTNode → Int → Int
  | [], count => count
  | child :: rest, count => visitChildrenComplex rest (count + visitNodeComplexAt child)
end

/-- The function `visitNodeComplex`; `none` is the nil pointer. -/
def visitNodeComplex : Option ASTNode → Int
  | none => 0
  | some node => visitNodeComplexAt node

/-- The function `resolveSymbolWithGlobal`; `none` is the nil result. -/
def resolveSymbolWithGlobal (name : String) (globalSymbols : GlobalSymbolTable) :
    Option Symbol :=
  match globalSymbols.symbols.get name with
  | some symbol => some symbol
  | none => none

/-- The inner loop of `performTypeCheck` over the properties of one type: the counter
after it, and whether the function returned from inside. -/
def scanProperties : List (Σ _ : String, String) → Int → Int × Bool
  | [], count => (count, false)
  | _ :: rest, count => if count + 1 > 5 then (count + 1, true) else scanProperties rest (count + 1)

/-- The outer loop of `performTypeCheck` over the types, in iteration order. -/
def scanTypes : List (Σ _ : String, TypeInfo) → Int → Int
  | [], count => count
  | t :: rest, count =>
    let inner := scanProperties t.2.Properties.entries count
    if inner.2 then inner.1 else scanTypes rest inner.1

/-- The function `performTypeCheck`, as a transformer of the registry it is given. -/
def performTypeCheck (globalSymbols : GlobalSymbolTable) : GlobalSymbolTable :=
  let _count := scanTypes globalSymbols.types.entries 0
  globalSymbols

/-- The function `processFile`, as a transformer of the two objects it is given. -/
def processFile (file : SourceFile) (globalSymbols : GlobalSymbolTable) :
    SourceFile × GlobalSymbolTable :=
  let nodeCount := visitNodeComplex file.AST
  let resolved := file.Symbols.foldl
    (fun (st : SourceFile × GlobalSymbolTable) symbol =>
      let _found := resolveSymbolWithGlobal symbol.Name st.2
      st)
    (file, globalSymbols)
  forLoop (nodeCount.tdiv 10).toNat (fun _ st => (st.1, performTypeCheck st.2)) resolved

/-- The function `checkIncrementalChanges`, as a transformer of the two objects it is
given. -/
def checkIncrementalChanges (file : SourceFile) (globalSymbols : GlobalSymbolTable) :
    SourceFile × GlobalSymbolTable :=
  forLoop 10
    (fun i st =>
      let symbolName := "inc_" ++ fmtD i
      let _found := resolveSymbolWithGlobal symbolName st.2
      st)
    (file, globalSymbols)

/-- The function `processFileWithDependencies`, as a transformer of the three objects it
is given. -/
def processFileWithDependencies (file : SourceFile) (globalSymbols : GlobalSymbolTable)
    (deps : GoMap (List String)) : SourceFile × GlobalSymbolTable × GoMap (List String) :=
  let basic := processFile file globalSymbols
  let resolved : SourceFile × GlobalSymbolTable × GoMap (List String) :=
    match deps.get basic.1.Path with
    | some dependencies =>
      dependencies.foldl
        (fun st dep =>
          let _found := resolveSymbolWithGlobal dep st.2.1
          st)
        (basic.1, basic.2, deps)
    | none => (basic.1, basic.2, deps)
  let checked := checkIncrementalChanges resolved.1 resolved.2.1
  (checked.1, checked.2, resolved.2.2)

/-- The symbol `symbol_i_j` that `createLargeProject` makes for file `i`, slot `j`. -/
def fileSymbol (i j : Nat) : Symbol :=
  { Name := "symbol_" ++ fmtD i ++ "_" ++ fmtD j
    Type_ := "function"
    Scope := ((j / 10 : Nat) : Int) }

/-- The `TypeInfo` that `createLargeProject` makes for file `i`. -/
def fileTypeInfo (i : Nat) : TypeInfo :=
  forLoop 10
    (fun k (typeInfo : TypeInfo) =>
      { typeInfo with
        Properties := typeInfo.Properties.set ("prop_" ++ fmtD k) "string"
        Methods := typeInfo.Methods ++ ["method_" ++ fmtD k] })
    { Name := "Type_" ++ fmtD i, Properties := GoMap.make, Methods := [] }

/-- One iteration of the file loop of `createLargeProject`. The slots of `Files` and of
`Symbols` are filled in index order, which the embedding writes as appending. -/
def createFile (i : Nat) (st : LargeProject × Runtime) : LargeProject × Runtime :=
  let ast := generateAST 6 3 st.2
  let file : SourceFile :=
    { Path := "src/file_" ++ fmtD i ++ ".ts"
      Content := List.replicate 10000 0
      AST := some ast.1
      Symbols := []
      Size := 10000 }
  let filled := forLoop 50
    (fun j (acc : SourceFile × GlobalSymbolTable) =>
      let symbol := fileSymbol i j
      ({ acc.1 with Symbols := acc.1.Symbols ++ [symbol] },
        { acc.2 with symbols := acc.2.symbols.set symbol.Name symbol }))
    (file, st.1.GlobalSymbols)
  let typeInfo := fileTypeInfo i
  ({ Files := st.1.Files ++ [filled.1]
     GlobalSymbols := { filled.2 with types := filled.2.types.set typeInfo.Name typeInfo }
     Dependencies := st.1.Dependencies },
    ast.2)

/-- The function `createLargeProject`; `none` is the panic of `make` on a negative
length, which happens before anything is built. -/
def createLargeProject (fileCount : Int) (rt : Runtime) : Option (LargeProject × Runtime) :=
  if fileCount < 0 then none
  else
    some (forLoop fileCount.toNat createFile
      ({ Files := []
         GlobalSymbols := { symbols := GoMap.make, types := GoMap.make }
         Dependencies := GoMap.make },
        rt))

/-! ## Notions used to state the properties -/

/-- The closed form `1 + b + b ^ 2 + ... + b ^ d`. -/
def geometricSum (b : Int) (d : Nat) : Int := ∑ k in Finset.range (d + 1), b ^ k

mutual
/-- The nodes of a tree: the root, then the nodes of each subtree. -/
def ASTNode.nodes : ASTNode → List ASTNode
  | ASTNode.mk addr kind name children parent =>
    ASTNode.mk addr kind name children parent :: ASTNode.nodesOfList children
/-- The nodes of a list of trees. -/
def ASTNode.nodesOfList : List ASTNode → List ASTNode
  | [] => []
  | child :: rest => ASTNode.nodes child ++ ASTNode.nodesOfList rest
end

mutual
/-- The tree with every kind and name replaced through `f`. -/
def ASTNode.relabel (f : NodeKind → String → NodeKind × String) : ASTNode → ASTNode
  | ASTNode.mk addr kind name children parent =>
    ASTNode.mk addr (f kind name).1 (f kind name).2 (ASTNode.relabelList f children) parent
/-- The trees of a list, relabelled. -/
def ASTNode.relabelList (f : NodeKind → String → NodeKind × String) :
    List ASTNode → List ASTNode
  | [] => []
  | child :: rest => ASTNode.relabel f child :: ASTNode.relabelList f rest
end

/-- Two trees that differ only in the order of the children of some of their nodes. -/
inductive Reordered : ASTNode → ASTNode → Prop where
  | same (t : ASTNode) : Reordered t t
  | children (addr : Nat) (kind : NodeKind) (name : String) (parent : Option Nat)
      (cs ds : List ASTNode) : cs.Perm ds →
      Reordered (ASTNode.mk addr kind name cs parent) (ASTNode.mk addr kind name ds parent)
  | inside (addr : Nat) (kind : NodeKind) (name : String) (parent : Option Nat)
      (before after : List ASTNode) (c d : ASTNode) : Reordered c d →
      Reordered (ASTNode.mk addr kind name (before ++ c :: after) parent)
        (ASTNode.mk addr kind name (before ++ d :: after) parent)
  | step (t u v : ASTNode) : Reordered t u → Reordered u v → Reordered t v

/-- The tables of a chain, walking outward from the given one. -/
def SymbolTable.chain : SymbolTable → List (GoMap Symbol)
  | SymbolTable.mk symbols none => [symbols]
  | SymbolTable.mk symbols (some p) => symbols :: SymbolTable.chain p

/-- The value of a decimal digit character. -/
def digitValue (c : Char) : Nat := c.toNat - 48

/-- The number that a list of decimal digits writes. -/
def decimalValue (l : List Char) : Nat := l.foldl (fun acc c => 10 * acc + digitValue c) 0

/-- How many steps a goroutine in the given phase still has to make. -/
def Phase.stepsLeft : Phase → Nat
  | Phase.waiting => 3
  | Phase.running => 2
  | Phase.counted => 1
  | Phase.finished => 0

/-- How many steps are left in a state of `processFilesConcurrent`. -/
def PoolState.stepsLeft (s : PoolState) : Nat :=
  (s.workers.map (fun w => w.phase.stepsLeft)).sum

/-- What the goroutines that passed the critical section have added to `totalNodes`. -/
def PoolState.added (s : PoolState) : Int :=
  (s.workers.map (fun w =>
    if w.phase = Phase.counted ∨ w.phase = Phase.finished then visitNode w.file else 0)).sum

/-- The assignments `m[k] = v` for the pairs of a list, first to last. -/
def GoMap.setAll {V : Type} (m : GoMap V) (l : List (String × V)) : GoMap V :=
  l.foldl (fun acc e => acc.set e.1 e.2) m

/-- The symbols that `createLargeProject` makes for file `i`, in slot order. -/
def fileSymbols (i : Nat) : List Symbol := (List.range 50).map (fileSymbol i)

/-- The registry entries that `createLargeProject` writes for file `i`, in slot order. -/
def fileEntries (i : Nat) : List (String × Symbol) :=
  (fileSymbols i).map (fun symbol => (symbol.Name, symbol))

/-- The registry entries written for the files `0, ..., n - 1`, in the order of writing. -/
def projectEntries : Nat → List (String × Symbol)
  | 0 => []
  | n + 1 => projectEntries n ++ fileEntries n

/-- The type entries written for the files `0, ..., n - 1`, in the order of writing. -/
def projectTypes (n : Nat) : List (String × TypeInfo) :=
  (List.range n).map (fun i => ((fileTypeInfo i).Name, fileTypeInfo i))

/-! ## `cpu-intensive-test/cpuTest.go` -/

/-- The bound `int(math.Sqrt(float64(n)))` of `isPrime`, taken to be the integer square
root of `n`. -/
def intSqrt (n : Int) : Int := ((Nat.sqrt n.toNat : Nat) : Int)

/-- The loop `for i := 3; i <= sqrt; i += 2` of `isPrime`, from the current `i` on. -/
def isPrimeLoop (n sqrt i : Int) : Bool :=
  if i ≤ sqrt then
    if n.tmod i = 0 then false else isPrimeLoop n sqrt (i + 2)
  else true
termination_by (sqrt + 1 - i).toNat
decreasing_by omega

/-- The function `isPrime`. -/
def isPrime (n : Int) : Bool :=
  if n ≤ 1 then false
  else if n ≤ 3 then true
  else if n.tmod 2 = 0 then false
  else isPrimeLoop n (intSqrt n) 3

/-! ## `memory-test/memoryTest.go` -/

/-- The verb `%d` of `fmt.Sprintf` on an integer of either sign. -/
def fmtInt (n : Int) : String :=
  if n < 0 then "-" ++ fmtD n.natAbs else fmtD n.toNat

/-- The loop `for i, char := range str` of `formatNumber`, from index `i` on; `len` is
`len(str)`. The characters of `str` are ASCII, so byte and character indices agree. -/
def formatNumberLoop (len : Nat) : List Char → Nat → String → String
  | [], _, result => result
  | char :: rest, i, result =>
    formatNumberLoop len rest (i + 1)
      ((if i > 0 ∧ (len - i) % 3 = 0 then result ++ "," else result) ++ String.singleton char)

/-- The function `formatNumber`. -/
def formatNumber (n : Int) : String :=
  if (fmtInt n).length ≤ 3 then fmtInt n
  else formatNumberLoop (fmtInt n).length (fmtInt n).data 0 ""

/-! ## `large-scale-test.go`: the work of `performTypeCheck` -/

/-- How many property entries the inner loop of `performTypeCheck` iterates over, entered
with the counter at `count`. -/
def scanPropertiesSteps : List (Σ _ : String, String) → Int → Nat
  | [], _ => 0
  | _ :: rest, count =>
    if count + 1 > 5 then 1 else 1 + scanPropertiesSteps rest (count + 1)

/-- How many type entries and how many property entries `performTypeCheck` iterates over
before it returns, for the types in iteration order. -/
def scanTypesSteps : List (Σ _ : String, TypeInfo) → Int → Nat × Nat
  | [], _ => (0, 0)
  | t :: rest, count =>
    if (scanProperties t.2.Properties.entries count).2 then
      (1, scanPropertiesSteps t.2.Properties.entries count)
    else
      (1 + (scanTypesSteps rest (scanProperties t.2.Properties.entries count).1).1,
        scanPropertiesSteps t.2.Properties.entries count +
          (scanTypesSteps rest (scanProperties t.2.Properties.entries count).1).2)

/-! ## `large-scale-test.go`: the three strategies

The wall clock is a stream of readings. In the two concurrent strategies every file gets
one goroutine, which waits for a slot of the semaphore, processes its file and adds one to
`processed` atomically, then gives the slot back and signals the wait group. The monitor
goroutine reads `processed` at every tick until it receives the `done` signal, which the
main goroutine sends after `wg.Wait()`. A schedule names, step by step, what happens next. -/

/-- The wall clock: the readings of `time.Now()` in the order they are taken, in
nanoseconds, and how many were taken. -/
structure Clock where
  readings : Nat → Int
  taken : Nat

/-- The call `time.Now()`. -/
def Clock.now (c : Clock) : Int × Clock :=
  (c.readings c.taken, { c with taken := c.taken + 1 })

/-- The function `processProjectSingleThread`: the duration it returns, the project and
the clock after it, and the files that `processFile` was called on, in the order of the
calls. -/
def processProjectSingleThread (project : LargeProject) (clock : Clock) :
    Int × LargeProject × Clock × List SourceFile :=
  let start := clock.now
  let swept := project.Files.foldl
    (fun (st : List SourceFile × GlobalSymbolTable × List SourceFile) file =>
      ((st.1 ++ [(processFile file st.2.1).1]), (processFile file st.2.1).2,
        st.2.2 ++ [file]))
    ([], project.GlobalSymbols, [])
  let stop := start.2.now
  (stop.1 - start.1, { project with Files := swept.1, GlobalSymbols := swept.2.1 }, stop.2,
    swept.2.2)

/-- What can happen next in a concurrent strategy: goroutine `i` moves, the ticker of the
monitor fires, or the monitor receives the `done` signal. -/
inductive Event where
  | worker (i : Nat)
  | tick
  | done
  deriving DecidableEq

/-- One goroutine of a concurrent strategy and the file it was started with. -/
structure FileWorker where
  file : SourceFile
  phase : Phase

/-- The state of a concurrent strategy: the goroutines, the counter `processed`, the
registry and the dependency map, the values of `current` that the monitor has read so far,
whether the monitor has received `done`, and the files that the work was called on so far,
in the order of the calls. -/
structure ProjectRun where
  workers : List FileWorker
  processed : Int
  globalSymbols : GlobalSymbolTable
  dependencies : GoMap (List String)
  samples : List Int
  stopped : Bool
  calls : List SourceFile

namespace ProjectRun

/-- How many slots of the semaphore are taken. -/
def slotsHeld (s : ProjectRun) : Nat :=
  (s.workers.filter (fun w => w.phase = Phase.running ∨ w.phase = Phase.counted)).length

/-- Whether every goroutine has called `wg.Done()`. -/
def allFinished (s : ProjectRun) : Bool :=
  s.workers.all (fun w => w.phase = Phase.finished)

/-- The state after the spawning loop: one waiting goroutine per file, `processed` at 0. -/
def start (project : LargeProject) : ProjectRun :=
  { workers := project.Files.map (fun f => { file := f, phase := Phase.waiting })
    processed := 0
    globalSymbols := project.GlobalSymbols
    dependencies := project.Dependencies
    samples := []
    stopped := false
    calls := [] }

/-- One event; `none` when it cannot happen. A goroutine waiting for a slot moves only
while fewer than `slots` are taken; a running goroutine does its `work` on the file, which
is followed at once by `atomic.AddInt64(&processed, 1)`; the monitor reads the counter
until it has received `done`; `done` is sent only after `wg.Wait()` has returned. -/
def step (slots : Nat)
    (work : SourceFile → GlobalSymbolTable → GoMap (List String) →
      SourceFile × GlobalSymbolTable × GoMap (List String))
    (s : ProjectRun) : Event → Option ProjectRun
  | Event.worker i =>
    match s.workers[i]? with
    | none => none
    | some w =>
      match w.phase with
      | Phase.waiting =>
        if s.slotsHeld < slots then
          some { s with workers := s.workers.set i { w with phase := Phase.running } }
        else none
      | Phase.running =>
        some { s with
          workers := s.workers.set i
            { file := (work w.file s.globalSymbols s.dependencies).1, phase := Phase.counted }
          processed := s.processed + 1
          globalSymbols := (work w.file s.globalSymbols s.dependencies).2.1
          dependencies := (work w.file s.globalSymbols s.dependencies).2.2
          calls := s.calls ++ [w.file] }
      | Phase.counted =>
        some { s with workers := s.workers.set i { w with phase := Phase.finished } }
      | Phase.finished => none
  | Event.tick =>
    if s.stopped then none else some { s with samples := s.samples ++ [s.processed] }
  | Event.done =>
    if s.allFinished ∧ ¬ s.stopped then some { s with stopped := true } else none

/-- The run of a whole schedule. -/
def run (slots : Nat)
    (work : SourceFile → GlobalSymbolTable → GoMap (List String) →
      SourceFile × GlobalSymbolTable × GoMap (List String)) :
    ProjectRun → List Event → Option ProjectRun
  | s, [] => some s
  | s, e :: rest =>
    match step slots work s e with
    | none => none
    | some t => run slots work t rest

end ProjectRun

/-- The work of one goroutine of `processProjectConcurrent`: `processFile`. -/
def basicWork (file : SourceFile) (globalSymbols : GlobalSymbolTable)
    (deps : GoMap (List String)) : SourceFile × GlobalSymbolTable × GoMap (List String) :=
  ((processFile file globalSymbols).1, (processFile file globalSymbols).2, deps)

/-- The function `processProjectConcurrent` under a schedule: the duration it returns, and
the state and the clock at that moment; `none` when the schedule is not a complete run. -/
def processProjectConcurrent (project : LargeProject) (numCPU : Nat) (clock : Clock)
    (schedule : List Event) : Option (Int × ProjectRun × Clock) :=
  match ProjectRun.run numCPU basicWork (ProjectRun.start project) schedule with
  | none => none
  | some s =>
    if s.stopped then
      some ((clock.now.2.now.1 - clock.now.1), s, clock.now.2.now.2)
    else none

/-- The function `processProjectHighConcurrency` under a schedule, likewise. -/
def processProjectHighConcurrency (project : LargeProject) (numCPU : Nat) (clock : Clock)
    (schedule : List Event) : Option (Int × ProjectRun × Clock) :=
  match ProjectRun.run (numCPU * 4) processFileWithDependencies (ProjectRun.start project)
    schedule with
  | none => none
  | some s =>
    if s.stopped then
      some ((clock.now.2.now.1 - clock.now.1), s, clock.now.2.now.2)
    else none

/-! ## More notions used to state the properties -/

mutual
/-- The nodes at level `k` of a tree, the root being at level 0. -/
def ASTNode.level : ASTNode → Nat → List ASTNode
  | ASTNode.mk addr kind name children parent, 0 =>
    [ASTNode.mk addr kind name children parent]
  | ASTNode.mk _ _ _ children _, k + 1 => ASTNode.levelOfList children k
/-- The nodes at level `k` of the trees of a list. -/
def ASTNode.levelOfList : List ASTNode → Nat → List ASTNode
  | [], _ => []
  | child :: rest, k => ASTNode.level child k ++ ASTNode.levelOfList rest k
end

/-- The runtime from which the child with index `i` of `generateAST(depth + 1, breadth)`
is generated, `first` being the runtime after the node itself was made. -/
def childRuntime (depth breadth : Int) (first : Runtime) : Nat → Runtime
  | 0 => first
  | i + 1 => (generateAST depth breadth (childRuntime depth breadth first i)).2

/-- How many goroutines have added their one to `processed`. -/
def ProjectRun.completed (s : ProjectRun) : Int :=
  (s.workers.map (fun w =>
    if w.phase = Phase.counted ∨ w.phase = Phase.finished then (1 : Int) else 0)).sum

/-- How many steps are left in a state of a concurrent strategy. -/
def ProjectRun.stepsLeft (s : ProjectRun) : Nat :=
  (s.workers.map (fun w => w.phase.stepsLeft)).sum + (if s.stopped then 0 else 1)

/-- A table of `n` types without properties. -/
def bareTypes (n : Nat) : GoMap TypeInfo :=
  (GoMap.make : GoMap TypeInfo).setAll
    ((List.range n).map (fun i =>
      ("Type_" ++ fmtD i, { Name := "Type_" ++ fmtD i, Properties := GoMap.make, Methods := [] })))

/-- The runtime after `generateAST` has drawn the kind and the name of a node and has
allocated it. -/
def nodeRuntime (rt : Runtime) : Runtime :=
  (rt.Intn kinds.length).2.Int63.2.newNode.2

/-- How many steps goroutine `i` still has to make, 0 when there is no such goroutine. -/
def ProjectRun.phaseLeft (s : ProjectRun) (i : Nat) : Nat :=
  match s.workers[i]? with
  | some w => w.phase.stepsLeft
  | none => 0

/-- The digits with a comma between every two adjacent groups of three, the groups being
counted from the right. -/
def groupThousands (digits : List Char) : List Char :=
  if digits.length ≤ 3 then digits
  else
    groupThousands (digits.take (digits.length - 3)) ++ ',' :: digits.drop (digits.length - 3)
termination_by digits.length
decreasing_by simp only [List.length_take]; omega

/-- What the loop of `formatNumber` appends for the rest of the string; `later` says that
the rest does not start at index 0. -/
def renderRest (later : Bool) : List Char → List Char
  | [] => []
  | c :: rest =>
    (if later = true ∧ (rest.length + 1) % 3 = 0 then [','] else []) ++
      c :: renderRest true rest

/-- The files of the goroutines that have not called their work yet. -/
def ProjectRun.pending (s : ProjectRun) : List SourceFile :=
  (s.workers.filter (fun w => w.phase = Phase.waiting ∨ w.phase = Phase.running)).map
    FileWorker.file

/-! # Properties -/

/-! ## Traversal and generation -/

theorem forLoop_zero {σ : Type} (body : Nat → σ → σ) (s : σ) : forLoop 0 body s = s := rfl

theorem forLoop_succ {σ : Type} (n : Nat) (body : Nat → σ → σ) (s : σ) :
    forLoop (n + 1) body s = body n (forLoop n body s) := by
  simp [forLoop, List.range_succ]

/-- A loop whose body keeps a property keeps it. -/
theorem forLoop_induct {σ : Type} (P : σ → Prop) (body : Nat → σ → σ)
    (hbody : ∀ i s, P s → P (body i s)) (n : Nat) (s : σ) (hs : P s) :
    P (forLoop n body s) := by
  induction n with
  | zero => simpa [forLoop_zero] using hs
  | succ n ih => rw [forLoop_succ]; exact hbody n _ ih

theorem visitChildren_eq (cs : List ASTNode) (count : Int) :
    visitChildren cs count = count + (cs.map visitNode).sum := by
  induction cs generalizing count with
  | nil => simp [visitChildren]
  | cons c cs ih => simp [visitChildren, ih, add_assoc]

theorem visitNode_eq (n : ASTNode) :
    visitNode n = 1 + (n.Children.map visitNode).sum := by
  cases n with
  | mk a k nm cs p => simp [visitNode, visitChildren_eq, ASTNode.Children]

theorem visitNode_setParent (n : ASTNode) (p : Option Nat) :
    visitNode (n.setParent p) = visitNode n := by
  cases n with
  | mk a k nm cs q => simp [ASTNode.setParent, visitNode]

theorem geometricSum_succ (b : Int) (d : Nat) :
    geometricSum b (d + 1) = 1 + b * geometricSum b d := by
  unfold geometricSum
  rw [Finset.sum_range_succ', Finset.mul_sum]
  simp [pow_succ, add_comm, mul_comm]

theorem generateAST_count (n : Nat) : ∀ (depth : Int), depth.toNat = n → 0 ≤ depth →
    ∀ (breadth : Nat) (rt : Runtime),
      visitNode (generateAST depth breadth rt).1 = geometricSum breadth n := by
  induction n with
  | zero =>
    intro depth hd h0 breadth rt
    have : ¬ depth > 0 := by omega
    rw [generateAST]
    simp [this, visitNode, visitChildren, geometricSum]
  | succ n ih =>
    intro depth hd h0 breadth rt
    have hpos : depth > 0 := by omega
    rw [generateAST]
    simp only [hpos, dite_true]
    rw [visitNode_eq]
    simp only [ASTNode.Children, Int.toNat_ofNat]
    rw [geometricSum_succ]
    congr 1
    have key : ∀ (m : Nat) (st : List ASTNode × Runtime),
        ((forLoop m (fun _ (st : List ASTNode × Runtime) =>
            ((st.1 ++ [(generateAST (depth - 1) breadth st.2).1.setParent
                (some (rt.Intn kinds.length).2.Int63.2.newNode.1)],
              (generateAST (depth - 1) breadth st.2).2) : List ASTNode × Runtime)) st).1.map
          visitNode).sum = (st.1.map visitNode).sum + m * geometricSum breadth n := by
      intro m
      induction m with
      | zero => intro st; simp [forLoop_zero]
      | succ m ihm =>
        intro st
        rw [forLoop_succ]
        simp only [List.map_append, List.sum_append, List.map_cons, List.map_nil,
          List.sum_cons, List.sum_nil, visitNode_setParent, add_zero]
        rw [ihm st, ih (depth - 1) (by omega) (by omega)]
        push_cast
        ring
    have := key breadth ([], (rt.Intn kinds.length).2.Int63.2.newNode.2)
    simpa using this

mutual
theorem visitNodeComplexAt_eq : ∀ t : ASTNode, visitNodeComplexAt t = visitNode t
  | ASTNode.mk a k n cs p => by
    simp only [visitNodeComplexAt, visitNode]
    exact visitChildrenComplex_eq cs 1
theorem visitChildrenComplex_eq : ∀ (cs : List ASTNode) (count : Int),
    visitChildrenComplex cs count = visitChildren cs count
  | [], count => by simp [visitChildrenComplex, visitChildren]
  | c :: cs, count => by
    simp only [visitChildrenComplex, visitChildren]
    rw [visitNodeComplexAt_eq c]
    exact visitChildrenComplex_eq cs _
end

mutual
theorem visitNode_eq_length : ∀ t : ASTNode, visitNode t = (t.nodes.length : Int)
  | ASTNode.mk a k n cs p => by
    rw [visitNode_eq]
    simp only [ASTNode.Children, ASTNode.nodes, List.length_cons]
    rw [visitList_eq_length cs]
    push_cast
    ring
theorem visitList_eq_length : ∀ cs : List ASTNode,
    (cs.map visitNode).sum = ((ASTNode.nodesOfList cs).length : Int)
  | [] => by simp [ASTNode.nodesOfList]
  | c :: cs => by
    simp only [List.map_cons, List.sum_cons, ASTNode.nodesOfList, List.length_append]
    rw [visitNode_eq_length c, visitList_eq_length cs]
    push_cast
    ring
end

mutual
theorem visitNode_relabel (f : NodeKind → String → NodeKind × String) :
    ∀ t : ASTNode, visitNode (t.relabel f) = visitNode t
  | ASTNode.mk a k n cs p => by
    rw [ASTNode.relabel, visitNode_eq, visitNode_eq]
    simp only [ASTNode.Children]
    rw [visitList_relabel f cs]
theorem visitList_relabel (f : NodeKind → String → NodeKind × String) :
    ∀ cs : List ASTNode,
      ((ASTNode.relabelList f cs).map visitNode).sum = (cs.map visitNode).sum
  | [] => by simp [ASTNode.relabelList]
  | c :: cs => by
    simp only [ASTNode.relabelList, List.map_cons, List.sum_cons]
    rw [visitNode_relabel f c, visitList_relabel f cs]
end

theorem visitNode_reordered {t u : ASTNode} (h : Reordered t u) :
    visitNode u = visitNode t := by
  induction h with
  | same t => rfl
  | children a k n p cs ds hperm =>
    rw [visitNode_eq, visitNode_eq]
    simp only [ASTNode.Children]
    rw [(hperm.map visitNode).sum_eq]
  | inside a k n p before after c d _ ih =>
    rw [visitNode_eq, visitNode_eq]
    simp only [ASTNode.Children, List.map_append, List.map_cons, List.sum_append,
      List.sum_cons, ih]
  | step t u v _ _ ih1 ih2 => rw [ih2, ih1]

/-- C1: for every depth and breadth that are not negative and every outcome of the
randomness source, the tree built by `generateAST(depth, breadth)` has
`1 + breadth + ... + breadth ^ depth` nodes, as counted by `visitNode` and by
`visitNodeComplex`; `generateAST(3, 2)` has 15 nodes, `generateAST(5, 3)` has 364 and
`generateAST(6, 4)` has 5461. -/
theorem generateAST_node_count (depth breadth : Nat) (rt : Runtime) :
    visitNode (generateAST depth breadth rt).1 = geometricSum breadth depth ∧
    visitNodeComplex (some (generateAST depth breadth rt).1) = geometricSum breadth depth ∧
    visitNode (generateAST 3 2 rt).1 = 15 ∧
    visitNode (generateAST 5 3 rt).1 = 364 ∧
    visitNode (generateAST 6 4 rt).1 = 5461 := by
  have h := generateAST_count depth (depth : Int) (by simp) (by simp) breadth rt
  refine ⟨h, ?_, ?_, ?_, ?_⟩
  · rw [visitNodeComplex, visitNodeComplexAt_eq]; exact h
  · have := generateAST_count 3 3 (by decide) (by decide) 2 rt
    rw [show ((2 : Nat) : Int) = 2 from rfl] at this
    rw [this]; decide
  · have := generateAST_count 5 5 (by decide) (by decide) 3 rt
    rw [show ((3 : Nat) : Int) = 3 from rfl] at this
    rw [this]; decide
  · have := generateAST_count 6 6 (by decide) (by decide) 4 rt
    rw [show ((4 : Nat) : Int) = 4 from rfl] at this
    rw [this]; decide

/-- C6: on every finite tree `visitNode` returns the number of nodes of the tree, each
node counted once; the number does not depend on the kinds and names of the nodes nor on
the order of the children; `visitNodeComplex` returns the same number on the tree and 0 on
a nil root. -/
theorem visitNode_counts_nodes (t : ASTNode) :
    visitNode t = (t.nodes.length : Int) ∧
    (∀ f : NodeKind → String → NodeKind × String, visitNode (t.relabel f) = visitNode t) ∧
    (∀ u : ASTNode, Reordered t u → visitNode u = visitNode t) ∧
    visitNodeComplex (some t) = visitNode t ∧
    visitNodeComplex none = 0 :=
  ⟨visitNode_eq_length t, fun f => visitNode_relabel f t,
    fun _ h => visitNode_reordered h, visitNodeComplexAt_eq t, rfl⟩

/-- An instance of `visitNode_counts_nodes`: swapping the two children of a root. -/
theorem visitNode_counts_nodes_witness :
    visitNode (ASTNode.mk 0 1 "r"
        [ASTNode.mk 2 5 "b" [] (some 0), ASTNode.mk 1 2 "a" [ASTNode.mk 3 3 "c" [] (some 1)] (some 0)]
        none) =
      visitNode (ASTNode.mk 0 1 "r"
        [ASTNode.mk 1 2 "a" [ASTNode.mk 3 3 "c" [] (some 1)] (some 0), ASTNode.mk 2 5 "b" [] (some 0)]
        none) :=
  (visitNode_counts_nodes _).2.2.1 _
    (Reordered.children 0 1 "r" none _ _ (List.Perm.swap _ _ []))

/-! ## Formatted names -/

theorem digitValue_digitChar (k : Nat) (hk : k < 10) : digitValue (Nat.digitChar k) = k := by
  interval_cases k <;> rfl

theorem digitChar_ne_underscore (k : Nat) (hk : k < 10) : Nat.digitChar k ≠ '_' := by
  interval_cases k <;> decide

theorem toDigitsCore_append (fuel : Nat) : ∀ (n : Nat) (ds : List Char),
    Nat.toDigitsCore 10 fuel n ds = Nat.toDigitsCore 10 fuel n [] ++ ds := by
  induction fuel with
  | zero => intro n ds; simp [Nat.toDigitsCore]
  | succ fuel ih =>
    intro n ds
    simp only [Nat.toDigitsCore]
    split
    · simp
    · rw [ih (n / 10) (Nat.digitChar (n % 10) :: ds), ih (n / 10) [Nat.digitChar (n % 10)]]
      simp

theorem decimalValue_append_singleton (l : List Char) (c : Char) :
    decimalValue (l ++ [c]) = 10 * decimalValue l + digitValue c := by
  simp [decimalValue, List.foldl_append]

theorem decimalValue_toDigitsCore (fuel : Nat) : ∀ n : Nat, n < fuel →
    decimalValue (Nat.toDigitsCore 10 fuel n []) = n := by
  induction fuel with
  | zero => intro n h; omega
  | succ fuel ih =>
    intro n h
    simp only [Nat.toDigitsCore]
    split
    · rename_i h0
      have hn : n < 10 := by omega
      simp [decimalValue, digitValue_digitChar n hn, Nat.mod_eq_of_lt hn]
    · rename_i h0
      rw [toDigitsCore_append, decimalValue_append_singleton, ih (n / 10) (by omega),
        digitValue_digitChar (n % 10) (Nat.mod_lt _ (by decide))]
      omega

theorem toDigitsCore_no_underscore (fuel : Nat) : ∀ n : Nat,
    '_' ∉ Nat.toDigitsCore 10 fuel n [] := by
  induction fuel with
  | zero => intro n; simp [Nat.toDigitsCore]
  | succ fuel ih =>
    intro n
    have hd := digitChar_ne_underscore (n % 10) (Nat.mod_lt _ (by decide))
    simp only [Nat.toDigitsCore]
    split
    · simpa using hd.symm
    · rw [toDigitsCore_append]
      simp only [List.mem_append, List.mem_singleton, not_or]
      exact ⟨ih _, hd.symm⟩

theorem fmtD_data (n : Nat) : (fmtD n).data = Nat.toDigitsCore 10 (n + 1) n [] := rfl

theorem fmtD_injective : Function.Injective fmtD := by
  intro a b h
  have h1 : (fmtD a).data = (fmtD b).data := by rw [h]
  rw [fmtD_data, fmtD_data] at h1
  have := congrArg decimalValue h1
  rwa [decimalValue_toDigitsCore _ _ (Nat.lt_succ_self a),
    decimalValue_toDigitsCore _ _ (Nat.lt_succ_self b)] at this

theorem fmtD_no_underscore (n : Nat) : '_' ∉ (fmtD n).data := by
  rw [fmtD_data]; exact toDigitsCore_no_underscore _ _

theorem append_sep_inj (sep : Char) : ∀ (a a' b b' : List Char), sep ∉ a → sep ∉ a' →
    a ++ sep :: b = a' ++ sep :: b' → a = a' ∧ b = b' := by
  intro a
  induction a with
  | nil =>
    intro a' b b' _ ha' h
    cases a' with
    | nil => simpa using h
    | cons x xs =>
      simp only [List.nil_append, List.cons_append, List.cons.injEq] at h
      exact absurd (by simp [h.1]) ha'
  | cons y ys ih =>
    intro a' b b' ha ha' h
    cases a' with
    | nil =>
      simp only [List.nil_append, List.cons_append, List.cons.injEq] at h
      exact absurd (by simp [h.1]) ha
    | cons x xs =>
      simp only [List.cons_append, List.cons.injEq] at h
      have := ih xs b b' (fun hm => ha (List.mem_cons_of_mem _ hm))
        (fun hm => ha' (List.mem_cons_of_mem _ hm)) h.2
      simp [h.1, this.1, this.2]

theorem fmtD_after_injective (pre : String) (a b : Nat)
    (h : pre ++ fmtD a = pre ++ fmtD b) : a = b := by
  have h1 := congrArg String.data h
  simp only [String.data_append] at h1
  have h2 := List.append_cancel_left h1
  exact fmtD_injective (String.ext h2)

theorem symbolName_injective (i j i' j' : Nat)
    (h : "symbol_" ++ fmtD i ++ "_" ++ fmtD j = "symbol_" ++ fmtD i' ++ "_" ++ fmtD j') :
    i = i' ∧ j = j' := by
  have h1 := congrArg String.data h
  simp only [String.data_append, List.append_assoc] at h1
  have h2 := List.append_cancel_left h1
  have h3 := append_sep_inj '_' _ _ _ _ (fmtD_no_underscore i) (fmtD_no_underscore i') h2
  exact ⟨fmtD_injective (String.ext h3.1), fmtD_injective (String.ext h3.2)⟩

/-! ## Maps -/

theorem GoMap.get_make {V : Type} (k : String) : (GoMap.make : GoMap V).get k = none := rfl

theorem GoMap.len_make {V : Type} : (GoMap.make : GoMap V).len = 0 := rfl

theorem GoMap.get_set_self {V : Type} (m : GoMap V) (k : String) (v : V) :
    (m.set k v).get k = some v := by
  simp [GoMap.get, GoMap.set]

theorem GoMap.get_set_of_ne {V : Type} (m : GoMap V) {k k' : String} (v : V) (h : k' ≠ k) :
    (m.set k v).get k' = m.get k' := by
  simp [GoMap.get, GoMap.set, AList.lookup_insert_ne h]

theorem GoMap.get_eq_none {V : Type} (m : GoMap V) (k : String) :
    m.get k = none ↔ k ∉ m := AList.lookup_eq_none

theorem GoMap.len_eq_keys {V : Type} (m : GoMap V) : m.len = m.keys.length := by
  simp [GoMap.len, AList.keys, List.keys]

theorem GoMap.len_set_of_not_mem {V : Type} (m : GoMap V) (k : String) (v : V) (h : k ∉ m) :
    (m.set k v).len = m.len + 1 := by
  rw [GoMap.len, GoMap.set, AList.insert_entries_of_neg h]
  rfl

theorem GoMap.len_set_of_mem {V : Type} (m : GoMap V) (k : String) (v : V) (h : k ∈ m) :
    (m.set k v).len = m.len := by
  rw [GoMap.len_eq_keys, GoMap.len_eq_keys, GoMap.set, AList.keys_insert, List.length_cons,
    List.length_erase_of_mem (AList.mem_keys.1 h)]
  have : 0 < m.keys.length := List.length_pos_of_mem (AList.mem_keys.1 h)
  omega

theorem GoMap.mem_set {V : Type} (m : GoMap V) (k k' : String) (v : V) :
    k' ∈ m.set k v ↔ k' = k ∨ k' ∈ m := AList.mem_insert m

theorem GoMap.count_key_set {V : Type} (m : GoMap V) (k : String) (v : V) :
    (m.set k v).keys.count k = 1 :=
  List.count_eq_one_of_mem (AList.keys_nodup _)
    (AList.mem_keys.1 ((GoMap.mem_set m k k v).2 (Or.inl rfl)))

/-! ## The symbol table -/

theorem resolveFrom_eq_find : ∀ (t : SymbolTable) (name : String),
    resolveFrom t name =
      (t.chain.find? (fun m => (m.get name).isSome)).bind (fun m => m.get name)
  | SymbolTable.mk symbols none, name => by
    cases h : symbols.get name <;> simp [resolveFrom, SymbolTable.chain, h]
  | SymbolTable.mk symbols (some p), name => by
    have ih := resolveFrom_eq_find p name
    cases h : symbols.get name <;> simp [resolveFrom, SymbolTable.chain, h, ih]

theorem resolveFrom_eq_none : ∀ (t : SymbolTable) (name : String),
    resolveFrom t name = none ↔ ∀ m ∈ t.chain, name ∉ m
  | SymbolTable.mk symbols none, name => by
    cases h : symbols.get name <;>
      simp [resolveFrom, SymbolTable.chain, h, ← GoMap.get_eq_none]
  | SymbolTable.mk symbols (some p), name => by
    have ih := resolveFrom_eq_none p name
    cases h : symbols.get name <;>
      simp [resolveFrom, SymbolTable.chain, h, ih, ← GoMap.get_eq_none]

theorem resolveSymbol_addSymbol_self (tc : TypeChecker) (name t : String) (s : Int) :
    resolveSymbol (addSymbol tc name t s) name =
      some { Name := name, Type_ := t, Scope := s } := by
  cases tc with
  | mk table =>
    cases table with
    | mk symbols parent =>
      cases parent <;>
        simp [resolveSymbol, addSymbol, resolveFrom, GoMap.get_set_self,
          SymbolTable.symbols, SymbolTable.parent]

theorem resolveSymbol_addSymbol_of_ne (tc : TypeChecker) (name t : String) (s : Int)
    {other : String} (h : other ≠ name) :
    resolveSymbol (addSymbol tc name t s) other = resolveSymbol tc other := by
  cases tc with
  | mk table =>
    cases table with
    | mk symbols parent =>
      cases parent <;>
        simp [resolveSymbol, addSymbol, resolveFrom, GoMap.get_set_of_ne _ _ h,
          SymbolTable.symbols, SymbolTable.parent]

/-- C2: in every state of the checker, `addSymbol(name, t, s)` followed at once by
`resolveSymbol(name)` returns a symbol, not nil, whose name is `name`, whose type is `t`
and whose scope is `s`. -/
theorem resolveSymbol_after_addSymbol (tc : TypeChecker) (name t : String) (s : Int) :
    ∃ symbol : Symbol, resolveSymbol (addSymbol tc name t s) name = some symbol ∧
      symbol.Name = name ∧ symbol.Type_ = t ∧ symbol.Scope = s :=
  ⟨_, resolveSymbol_addSymbol_self tc name t s, rfl, rfl, rfl⟩

/-- C3: `resolveSymbol(name)` returns the entry of the first table of the chain, walking
outward from the current one, that contains the name, and nil exactly when no table of the
chain contains it; on a chain of three tables a name held only by the outermost one is
found; on a fresh checker the result is nil, and the flat `resolveSymbolWithGlobal` returns
the entry of the map, nil when the name is absent from it. -/
theorem resolveSymbol_walks_chain (tc : TypeChecker) (name : String) :
    resolveSymbol tc name =
        (tc.symbolTable.chain.find? (fun m => (m.get name).isSome)).bind
          (fun m => m.get name) ∧
    (resolveSymbol tc name = none ↔ ∀ m ∈ tc.symbolTable.chain, name ∉ m) ∧
    (∀ (inner middle outer : GoMap Symbol) (symbol : Symbol),
      name ∉ inner → name ∉ middle → outer.get name = some symbol →
      resolveSymbol
          { symbolTable :=
              SymbolTable.mk inner (some (SymbolTable.mk middle
                (some (SymbolTable.mk outer none)))) }
          name = some symbol) ∧
    resolveSymbol NewTypeChecker name = none ∧
    (∀ g : GlobalSymbolTable,
      resolveSymbolWithGlobal name g = g.symbols.get name ∧
      (name ∉ g.symbols → resolveSymbolWithGlobal name g = none)) := by
  refine ⟨resolveFrom_eq_find _ _, resolveFrom_eq_none _ _, ?_, ?_, ?_⟩
  · intro inner middle outer symbol h1 h2 h3
    rw [← GoMap.get_eq_none] at h1 h2
    simp [resolveSymbol, resolveFrom, h1, h2, h3]
  · simp [resolveSymbol, NewTypeChecker, resolveFrom, GoMap.get_make]
  · intro g
    constructor
    · unfold resolveSymbolWithGlobal; cases g.symbols.get name <;> rfl
    · intro h
      rw [← GoMap.get_eq_none] at h
      simp [resolveSymbolWithGlobal, h]

/-- An instance of `resolveSymbol_walks_chain`: a name held only by the outermost of three
tables. -/
theorem resolveSymbol_walks_chain_witness :
    resolveSymbol
        { symbolTable :=
            SymbolTable.mk GoMap.make (some (SymbolTable.mk GoMap.make
              (some (SymbolTable.mk
                ((GoMap.make : GoMap Symbol).set "x" { Name := "x", Type_ := "function", Scope := 0 })
                none)))) }
        "x" = some { Name := "x", Type_ := "function", Scope := 0 } :=
  (resolveSymbol_walks_chain NewTypeChecker "x").2.2.1 GoMap.make GoMap.make _ _
    (AList.not_mem_empty _) (AList.not_mem_empty _) (GoMap.get_set_self _ _ _)

/-- C9: an insert overwrites. After `addSymbol(name, t1, s1)` and then
`addSymbol(name, t2, s2)` the current table holds one entry for `name`, `resolveSymbol(name)`
returns the symbol with type `t2` and scope `s2`, the second insert did not change the
number of entries, and the entries of every other name are the ones from before. -/
theorem addSymbol_overwrites (tc : TypeChecker) (name t1 t2 : String) (s1 s2 : Int) :
    (addSymbol (addSymbol tc name t1 s1) name t2 s2).symbolTable.symbols.keys.count name = 1 ∧
    resolveSymbol (addSymbol (addSymbol tc name t1 s1) name t2 s2) name =
      some { Name := name, Type_ := t2, Scope := s2 } ∧
    (addSymbol (addSymbol tc name t1 s1) name t2 s2).symbolTable.symbols.len =
      (addSymbol tc name t1 s1).symbolTable.symbols.len ∧
    (∀ other : String, other ≠ name →
      (addSymbol (addSymbol tc name t1 s1) name t2 s2).symbolTable.symbols.get other =
          tc.symbolTable.symbols.get other ∧
      resolveSymbol (addSymbol (addSymbol tc name t1 s1) name t2 s2) other =
          resolveSymbol tc other) ∧
    (addSymbol (addSymbol tc name t1 s1) name t2 s2).symbolTable.parent =
      tc.symbolTable.parent := by
  refine ⟨?_, resolveSymbol_addSymbol_self _ _ _ _, ?_, ?_, rfl⟩
  · exact GoMap.count_key_set _ _ _
  · exact GoMap.len_set_of_mem _ _ _ ((GoMap.mem_set _ _ _ _).2 (Or.inl rfl))
  · intro other h
    constructor
    · simp only [addSymbol, SymbolTable.symbols]
      rw [GoMap.get_set_of_ne _ _ h, GoMap.get_set_of_ne _ _ h]
    · rw [resolveSymbol_addSymbol_of_ne _ _ _ _ h, resolveSymbol_addSymbol_of_ne _ _ _ _ h]

/-- An instance of `addSymbol_overwrites`: another name keeps its entry. -/
theorem addSymbol_overwrites_witness :
    resolveSymbol
        (addSymbol (addSymbol (addSymbol NewTypeChecker "y" "variable" 3) "x" "function" 0)
          "x" "variable" 1) "y" =
      resolveSymbol (addSymbol NewTypeChecker "y" "variable" 3) "y" :=
  ((addSymbol_overwrites (addSymbol NewTypeChecker "y" "variable" 3) "x" "function" "variable"
    0 1).2.2.2.1 "y" (by decide)).2

/-! ## Inserting many symbols -/

theorem forLoop_append {α : Type} (f : Nat → α) (n : Nat) (init : List α) :
    forLoop n (fun i acc => acc ++ [f i]) init = init ++ (List.range n).map f := by
  induction n with
  | zero => simp [forLoop_zero]
  | succ n ih => rw [forLoop_succ, ih]; simp [List.range_succ]

theorem addSymbols_cons (tc : TypeChecker) (x : Symbol) (xs : List Symbol) :
    addSymbols tc (x :: xs) = addSymbols (addSymbol tc x.Name x.Type_ x.Scope) xs := rfl

theorem mem_addSymbol (tc : TypeChecker) (name t : String) (s : Int) (other : String) :
    other ∈ (addSymbol tc name t s).symbolTable.symbols ↔
      other = name ∨ other ∈ tc.symbolTable.symbols :=
  GoMap.mem_set _ _ _ _

theorem mem_addSymbols (xs : List Symbol) : ∀ (tc : TypeChecker) (name : String),
    name ∈ (addSymbols tc xs).symbolTable.symbols ↔
      name ∈ tc.symbolTable.symbols ∨ name ∈ xs.map Symbol.Name := by
  induction xs with
  | nil => intro tc name; simp [addSymbols]
  | cons x xs ih =>
    intro tc name
    rw [addSymbols_cons, ih, mem_addSymbol]
    simp only [List.map_cons, List.mem_cons]
    tauto

theorem resolveSymbol_addSymbols_of_not_mem (xs : List Symbol) :
    ∀ (tc : TypeChecker) (name : String), name ∉ xs.map Symbol.Name →
      resolveSymbol (addSymbols tc xs) name = resolveSymbol tc name := by
  induction xs with
  | nil => intro tc name _; rfl
  | cons x xs ih =>
    intro tc name h
    simp only [List.map_cons, List.mem_cons, not_or] at h
    rw [addSymbols_cons, ih _ _ h.2, resolveSymbol_addSymbol_of_ne _ _ _ _ h.1]

theorem resolveSymbol_addSymbols_of_mem (xs : List Symbol) :
    ∀ (tc : TypeChecker), (xs.map Symbol.Name).Nodup →
      ∀ s ∈ xs, resolveSymbol (addSymbols tc xs) s.Name = some s := by
  induction xs with
  | nil => intro tc _ s hs; simp at hs
  | cons x xs ih =>
    intro tc hnd s hs
    simp only [List.map_cons, List.nodup_cons] at hnd
    rw [addSymbols_cons]
    rcases List.mem_cons.1 hs with h | h
    · subst h
      rw [resolveSymbol_addSymbols_of_not_mem _ _ _ hnd.1, resolveSymbol_addSymbol_self]
    · exact ih _ hnd.2 s h

theorem len_addSymbols (xs : List Symbol) :
    ∀ (tc : TypeChecker), (xs.map Symbol.Name).Nodup →
      (∀ s ∈ xs, s.Name ∉ tc.symbolTable.symbols) →
      (addSymbols tc xs).symbolTable.symbols.len = tc.symbolTable.symbols.len + xs.length := by
  induction xs with
  | nil => intro tc _ _; rfl
  | cons x xs ih =>
    intro tc hnd hfresh
    simp only [List.map_cons, List.nodup_cons] at hnd
    rw [addSymbols_cons, ih _ hnd.2]
    · have : (addSymbol tc x.Name x.Type_ x.Scope).symbolTable.symbols.len =
          tc.symbolTable.symbols.len + 1 :=
        GoMap.len_set_of_not_mem _ _ _ (hfresh x (List.mem_cons_self _ _))
      rw [this, List.length_cons]; omega
    · intro s hs hmem
      rcases (mem_addSymbol _ _ _ _ _).1 hmem with h | h
      · exact hnd.1 (h ▸ List.mem_map_of_mem Symbol.Name hs)
      · exact hfresh s (List.mem_cons_of_mem _ hs) h

/-- The symbol that `generateSymbols` puts in slot `i`. -/
theorem generateSymbols_eq (n : Nat) :
    generateSymbols n = some ((List.range n).map (fun i =>
      ({ Name := "symbol_" ++ fmtD i
         Type_ := if i % 2 = 0 then "function" else "variable"
         Scope := ((i / 100 : Nat) : Int) } : Symbol))) := by
  have h : ¬ ((n : Int) < 0) := by omega
  simp only [generateSymbols, h, if_false, Int.toNat_ofNat]
  rw [forLoop_append]
  simp

/-- C8: inserting symbols with pairwise distinct names into the registry of a fresh
checker, one `addSymbol` at a time and in any order, leaves as many entries as symbols, and
every name resolves to the symbol it was inserted with; after inserting every symbol of
`generateSymbols(n)`, `resolveSymbol("symbol_i")` is found for every `i < n`. -/
theorem addSymbols_distinct_names (symbols : List Symbol)
    (hnd : (symbols.map Symbol.Name).Nodup) (n : Nat) :
    (∀ order : List Symbol, order.Perm symbols →
      (addSymbols NewTypeChecker order).symbolTable.symbols.len = symbols.length ∧
      ∀ s ∈ symbols, resolveSymbol (addSymbols NewTypeChecker order) s.Name = some s) ∧
    (∃ generated : List Symbol, generateSymbols n = some generated ∧
      generated.length = n ∧
      (addSymbols NewTypeChecker generated).symbolTable.symbols.len = n ∧
      ∀ i < n, resolveSymbol (addSymbols NewTypeChecker generated) ("symbol_" ++ fmtD i) =
        some { Name := "symbol_" ++ fmtD i
               Type_ := if i % 2 = 0 then "function" else "variable"
               Scope := ((i / 100 : Nat) : Int) }) := by
  constructor
  · intro order hperm
    have hnd2 : (order.map Symbol.Name).Nodup := (hperm.map Symbol.Name).nodup_iff.2 hnd
    constructor
    · rw [len_addSymbols order NewTypeChecker hnd2 (fun _ _ => AList.not_mem_empty _),
        hperm.length_eq]
      simp [NewTypeChecker, SymbolTable.symbols, GoMap.len_make]
    · intro s hs
      exact resolveSymbol_addSymbols_of_mem order NewTypeChecker hnd2 s (hperm.mem_iff.2 hs)
  · refine ⟨_, generateSymbols_eq n, by simp, ?_, ?_⟩
    all_goals
      have hgen : ((List.range n).map (fun i =>
          ({ Name := "symbol_" ++ fmtD i
             Type_ := if i % 2 = 0 then "function" else "variable"
             Scope := ((i / 100 : Nat) : Int) } : Symbol))).map Symbol.Name |>.Nodup := by
        rw [List.map_map]
        exact (List.nodup_range n).map (fun a b h => fmtD_after_injective "symbol_" a b h)
    · rw [len_addSymbols _ NewTypeChecker hgen (fun _ _ => AList.not_mem_empty _)]
      simp [NewTypeChecker, SymbolTable.symbols, GoMap.len_make]
    · intro i hi
      exact resolveSymbol_addSymbols_of_mem _ NewTypeChecker hgen _
        (List.mem_map.2 ⟨i, List.mem_range.2 hi, rfl⟩)

/-- An instance of `addSymbols_distinct_names`: two names, inserted in the other order. -/
theorem addSymbols_distinct_names_witness :
    (addSymbols NewTypeChecker
        [{ Name := "b", Type_ := "variable", Scope := 1 },
         { Name := "a", Type_ := "function", Scope := 0 }]).symbolTable.symbols.len = 2 :=
  ((addSymbols_distinct_names
      [{ Name := "a", Type_ := "function", Scope := 0 },
       { Name := "b", Type_ := "variable", Scope := 1 }]
      (by decide) 2).1 _ (List.Perm.swap _ _ [])).1

/-! ## Concurrent batch processing -/

theorem processFiles_eq_sum (files : List ASTNode) :
    processFiles files = (files.map visitNode).sum := by
  have h : ∀ (l : List ASTNode) (acc : Int),
      l.foldl (fun totalNodes file => totalNodes + visitNode file) acc =
        acc + (l.map visitNode).sum := by
    intro l
    induction l with
    | nil => intro acc; simp
    | cons x xs ih => intro acc; simp [ih, add_assoc]
  simpa using h files 0

theorem sum_map_set {α M : Type} [AddCommMonoid M] (g : α → M) :
    ∀ (l : List α) (i : Nat) (w x : α), l[i]? = some w →
      ((l.set i x).map g).sum + g w = (l.map g).sum + g x := by
  intro l
  induction l with
  | nil => intro i w x h; simp at h
  | cons y ys ih =>
    intro i w x h
    cases i with
    | zero =>
      simp only [List.getElem?_cons_zero, Option.some.injEq] at h
      subst h
      simp only [List.set_cons_zero, List.map_cons, List.sum_cons]
      abel
    | succ i =>
      simp only [List.getElem?_cons_succ] at h
      simp only [List.set_cons_succ, List.map_cons, List.sum_cons]
      rw [add_assoc, ih i w x h, add_assoc]

theorem map_file_set (l : List Worker) (i : Nat) (w : Worker) (ph : Phase)
    (h : l[i]? = some w) :
    (l.set i { w with phase := ph }).map Worker.file = l.map Worker.file := by
  induction l generalizing i with
  | nil => simp
  | cons y ys ih =>
    cases i with
    | zero =>
      simp only [List.getElem?_cons_zero, Option.some.injEq] at h
      subst h
      simp
    | succ i =>
      simp only [List.getElem?_cons_succ] at h
      simp [ih i h]

/-- What moving goroutine `i` to the phase `ph` does to the bookkeeping of a state. -/
theorem PoolState.set_phase_spec (s : PoolState) (i : Nat) (w : Worker) (ph : Phase)
    (total : Int) (hw : s.workers[i]? = some w) :
    PoolState.added { workers := s.workers.set i { w with phase := ph }, totalNodes := total } +
        (if w.phase = Phase.counted ∨ w.phase = Phase.finished then visitNode w.file else 0) =
      s.added + (if ph = Phase.counted ∨ ph = Phase.finished then visitNode w.file else 0) ∧
    PoolState.stepsLeft
        { workers := s.workers.set i { w with phase := ph }, totalNodes := total } +
        w.phase.stepsLeft = s.stepsLeft + ph.stepsLeft ∧
    (s.workers.set i { w with phase := ph }).map Worker.file = s.workers.map Worker.file :=
  ⟨sum_map_set (fun w : Worker =>
      if w.phase = Phase.counted ∨ w.phase = Phase.finished then visitNode w.file else 0)
      s.workers i w { w with phase := ph } hw,
    sum_map_set (fun w : Worker => w.phase.stepsLeft) s.workers i w { w with phase := ph } hw,
    map_file_set _ _ _ _ hw⟩

/-- What one step of a goroutine does to the total, to the files and to the steps left. -/
theorem PoolState.advance_spec (numCPU : Nat) (s t : PoolState) (i : Nat)
    (h : PoolState.advance numCPU s i = some t) :
    t.totalNodes - t.added = s.totalNodes - s.added ∧
    t.workers.map Worker.file = s.workers.map Worker.file ∧
    t.stepsLeft + 1 = s.stepsLeft := by
  unfold PoolState.advance at h
  cases hw : s.workers[i]? with
  | none => rw [hw] at h; simp at h
  | some w =>
    rw [hw] at h
    have e0 : Phase.stepsLeft Phase.waiting = 3 := rfl
    have e1 : Phase.stepsLeft Phase.running = 2 := rfl
    have e2 : Phase.stepsLeft Phase.counted = 1 := rfl
    have e3 : Phase.stepsLeft Phase.finished = 0 := rfl
    cases hp : w.phase with
    | waiting =>
      simp only [hp] at h
      split at h
      · simp only [Option.some.injEq] at h
        subst h
        obtain ⟨h1, h2, h3⟩ := PoolState.set_phase_spec s i w Phase.running s.totalNodes hw
        rw [hp] at h1 h2
        rw [e0, e1] at h2
        simp only [reduceCtorEq, or_self, if_false, add_zero] at h1
        exact ⟨by rw [h1], h3, by omega⟩
      · simp at h
    | running =>
      simp only [hp, Option.some.injEq] at h
      subst h
      obtain ⟨h1, h2, h3⟩ :=
        PoolState.set_phase_spec s i w Phase.counted (s.totalNodes + visitNode w.file) hw
      rw [hp] at h1 h2
      rw [e1, e2] at h2
      simp only [reduceCtorEq, or_self, if_false, add_zero, true_or, if_true] at h1
      exact ⟨by rw [h1]; ring, h3, by omega⟩
    | counted =>
      simp only [hp, Option.some.injEq] at h
      subst h
      obtain ⟨h1, h2, h3⟩ := PoolState.set_phase_spec s i w Phase.finished s.totalNodes hw
      rw [hp] at h1 h2
      rw [e2, e3] at h2
      simp only [reduceCtorEq, or_true, true_or, if_true, add_left_inj] at h1
      exact ⟨by rw [h1], h3, by omega⟩
    | finished => simp [hp] at h

theorem PoolState.run_spec (numCPU : Nat) (schedule : List Nat) :
    ∀ (s t : PoolState), PoolState.run numCPU s schedule = some t →
      t.totalNodes - t.added = s.totalNodes - s.added ∧
      t.workers.map Worker.file = s.workers.map Worker.file := by
  induction schedule with
  | nil =>
    intro s t h
    simp only [PoolState.run, Option.some.injEq] at h
    subst h
    exact ⟨rfl, rfl⟩
  | cons i rest ih =>
    intro s t h
    simp only [PoolState.run] at h
    cases hadv : PoolState.advance numCPU s i with
    | none => simp [hadv] at h
    | some u =>
      simp only [hadv] at h
      have h1 := PoolState.advance_spec numCPU s u i hadv
      have h2 := ih u t h
      exact ⟨h2.1.trans h1.1, h2.2.trans h1.2.1⟩

theorem PoolState.run_append (numCPU : Nat) (a b : List Nat) :
    ∀ s : PoolState, PoolState.run numCPU s (a ++ b) =
      (PoolState.run numCPU s a).bind (fun t => PoolState.run numCPU t b) := by
  induction a with
  | nil => intro s; rfl
  | cons i rest ih =>
    intro s
    simp only [List.cons_append, PoolState.run]
    cases PoolState.advance numCPU s i with
    | none => rfl
    | some u => exact ih u

theorem PoolState.added_of_allFinished (s : PoolState) (h : s.allFinished = true) :
    s.added = ((s.workers.map Worker.file).map visitNode).sum := by
  simp only [PoolState.allFinished, List.all_eq_true, decide_eq_true_eq] at h
  simp only [PoolState.added, List.map_map]
  congr 1
  apply List.map_congr_left
  intro w hw
  simp [h w hw]

theorem PoolState.added_start (files : List ASTNode) : (PoolState.start files).added = 0 := by
  simp only [PoolState.added, PoolState.start, List.map_map]
  apply List.sum_eq_zero
  intro x hx
  simp only [List.mem_map, Function.comp] at hx
  obtain ⟨_, _, rfl⟩ := hx
  simp

/-- While a goroutine has not finished, some goroutine can move. -/
theorem PoolState.progress (numCPU : Nat) (hcpu : 0 < numCPU) (s : PoolState)
    (h : s.allFinished = false) : ∃ i t, PoolState.advance numCPU s i = some t := by
  by_cases hbusy : ∃ w ∈ s.workers, w.phase = Phase.running ∨ w.phase = Phase.counted
  · obtain ⟨w, hmem, hph⟩ := hbusy
    obtain ⟨i, hi⟩ := List.mem_iff_getElem?.1 hmem
    refine ⟨i, ?_⟩
    unfold PoolState.advance
    rw [hi]
    rcases hph with hph | hph <;> simp [hph]
  · have hslots : s.slotsHeld = 0 := by
      simp only [PoolState.slotsHeld, List.length_eq_zero, List.filter_eq_nil_iff,
        decide_eq_true_eq]
      intro w hw hph
      exact hbusy ⟨w, hw, hph⟩
    have hex : ∃ w ∈ s.workers, w.phase ≠ Phase.finished := by
      by_contra hall
      simp only [not_exists, not_and, not_not] at hall
      have : s.allFinished = true := by
        simp only [PoolState.allFinished, List.all_eq_true, decide_eq_true_eq]
        exact hall
      rw [this] at h
      exact Bool.noConfusion h
    obtain ⟨w, hmem, hne⟩ := hex
    have hwait : w.phase = Phase.waiting := by
      cases hp : w.phase with
      | waiting => rfl
      | running => exact absurd ⟨w, hmem, Or.inl hp⟩ hbusy
      | counted => exact absurd ⟨w, hmem, Or.inr hp⟩ hbusy
      | finished => exact absurd hp hne
    obtain ⟨i, hi⟩ := List.mem_iff_getElem?.1 hmem
    refine ⟨i, ?_⟩
    unfold PoolState.advance
    rw [hi]
    simp [hwait, hslots, hcpu]

/-- From every state the goroutines can be run until all of them have finished. -/
theorem PoolState.can_finish (numCPU : Nat) (hcpu : 0 < numCPU) (n : Nat) :
    ∀ s : PoolState, s.stepsLeft = n →
      ∃ rest t, PoolState.run numCPU s rest = some t ∧ t.allFinished = true := by
  induction n with
  | zero =>
    intro s hs
    cases hfin : s.allFinished with
    | true => exact ⟨[], s, rfl, hfin⟩
    | false =>
      obtain ⟨i, t, ht⟩ := PoolState.progress numCPU hcpu s hfin
      have := (PoolState.advance_spec numCPU s t i ht).2.2
      omega
  | succ n ih =>
    intro s hs
    cases hfin : s.allFinished with
    | true => exact ⟨[], s, rfl, hfin⟩
    | false =>
      obtain ⟨i, t, ht⟩ := PoolState.progress numCPU hcpu s hfin
      have hsteps := (PoolState.advance_spec numCPU s t i ht).2.2
      obtain ⟨rest, u, hrun, hu⟩ := ih t (by omega)
      refine ⟨i :: rest, u, ?_, hu⟩
      simp only [PoolState.run, ht]
      exact hrun

theorem PoolState.total_of_run (files : List ASTNode) (numCPU : Nat) (schedule : List Nat)
    (t : PoolState) (hrun : PoolState.run numCPU (PoolState.start files) schedule = some t)
    (hfin : t.allFinished = true) : t.totalNodes = processFiles files := by
  obtain ⟨h1, h2⟩ := PoolState.run_spec numCPU schedule _ t hrun
  rw [PoolState.added_start, PoolState.added_of_allFinished t hfin, h2] at h1
  have hfiles : (PoolState.start files).workers.map Worker.file = files := by
    simp [PoolState.start, Function.comp_def]
  have htot : (PoolState.start files).totalNodes = 0 := rfl
  rw [hfiles, htot] at h1
  rw [processFiles_eq_sum]
  omega

/-- C4: `processFilesConcurrent` returns the total of `processFiles`, the sum of the node
counts of the files, whatever the order in which the goroutines are admitted and complete:
every complete schedule yields that total, and with at least one slot every run that was
begun can be continued to a complete one. -/
theorem processFilesConcurrent_total (files : List ASTNode) (numCPU : Nat)
    (hcpu : 0 < numCPU) :
    (∀ (schedule : List Nat) (total : Int),
      processFilesConcurrent files numCPU schedule = some total →
        total = processFiles files) ∧
    (∀ (begun : List Nat) (s : PoolState),
      PoolState.run numCPU (PoolState.start files) begun = some s →
        ∃ rest, processFilesConcurrent files numCPU (begun ++ rest) =
          some (processFiles files)) ∧
    processFiles files = (files.map visitNode).sum := by
  refine ⟨?_, ?_, processFiles_eq_sum files⟩
  · intro schedule total h
    unfold processFilesConcurrent at h
    cases hrun : PoolState.run numCPU (PoolState.start files) schedule with
    | none => simp [hrun] at h
    | some t =>
      simp only [hrun] at h
      cases hfin : t.allFinished with
      | false => simp [hfin] at h
      | true =>
        simp only [hfin, if_true, Option.some.injEq] at h
        rw [← h]
        exact PoolState.total_of_run files numCPU schedule t hrun hfin
  · intro begun s hs
    obtain ⟨rest, t, hrun, hfin⟩ := PoolState.can_finish numCPU hcpu _ s rfl
    refine ⟨rest, ?_⟩
    have hall : PoolState.run numCPU (PoolState.start files) (begun ++ rest) = some t := by
      rw [PoolState.run_append, hs]
      exact hrun
    unfold processFilesConcurrent
    simp only [hall, hfin, if_true]
    rw [PoolState.total_of_run files numCPU _ t hall hfin]

/-- An instance of `processFilesConcurrent_total`: two files on one slot, the second
goroutine admitted first. -/
theorem processFilesConcurrent_total_witness :
    ∃ rest, processFilesConcurrent
        [ASTNode.mk 0 1 "f" [ASTNode.mk 1 5 "x" [] (some 0)] none, ASTNode.mk 2 2 "g" [] none]
        1 ([1] ++ rest) =
      some (processFiles
        [ASTNode.mk 0 1 "f" [ASTNode.mk 1 5 "x" [] (some 0)] none, ASTNode.mk 2 2 "g" [] none]) :=
  (processFilesConcurrent_total _ 1 (by decide)).2.1 [1] _ rfl

/-! ## The analysis phase -/

theorem foldl_const {α β : Type} (l : List β) (init : α) :
    l.foldl (fun st _ => st) init = init := by
  induction l with
  | nil => rfl
  | cons x xs ih => simp [ih]

theorem performTypeCheck_eq (g : GlobalSymbolTable) : performTypeCheck g = g := rfl

theorem processFile_eq (file : SourceFile) (g : GlobalSymbolTable) :
    processFile file g = (file, g) := by
  unfold processFile
  simp only [foldl_const]
  exact forLoop_induct (fun st => st = (file, g)) _
    (fun _ st hst => by rw [hst, performTypeCheck_eq]) _ _ rfl

theorem checkIncrementalChanges_eq (file : SourceFile) (g : GlobalSymbolTable) :
    checkIncrementalChanges file g = (file, g) := by
  unfold checkIncrementalChanges
  exact forLoop_induct (fun st => st = (file, g)) _ (fun _ st hst => hst) _ _ rfl

/-- C7: the analysis phase only reads. `processFile` and `processFileWithDependencies`
leave the symbol map and the type map of the shared registry as they were, and leave the
file, its AST and its symbol list included, and the dependency map unchanged. -/
theorem analysis_reads_only (file : SourceFile) (g : GlobalSymbolTable)
    (deps : GoMap (List String)) :
    processFile file g = (file, g) ∧
    processFileWithDependencies file g deps = (file, g, deps) ∧
    (processFile file g).2.symbols = g.symbols ∧
    (processFile file g).2.types = g.types ∧
    (processFileWithDependencies file g deps).2.1.symbols = g.symbols ∧
    (processFileWithDependencies file g deps).2.1.types = g.types ∧
    (processFileWithDependencies file g deps).1.AST = file.AST ∧
    (processFileWithDependencies file g deps).1.Symbols = file.Symbols ∧
    performTypeCheck g = g ∧
    checkIncrementalChanges file g = (file, g) := by
  have h1 := processFile_eq file g
  have h2 : processFileWithDependencies file g deps = (file, g, deps) := by
    unfold processFileWithDependencies
    simp only [h1]
    cases deps.get file.Path with
    | none => simp only [checkIncrementalChanges_eq]
    | some dependencies => simp only [foldl_const, checkIncrementalChanges_eq]
  refine ⟨h1, h2, ?_, ?_, ?_, ?_, ?_, ?_, rfl, checkIncrementalChanges_eq file g⟩ <;>
    simp [h1, h2]

/-! ## Filling a map from a list -/

theorem GoMap.setAll_nil {V : Type} (m : GoMap V) : m.setAll [] = m := rfl

theorem GoMap.setAll_cons {V : Type} (m : GoMap V) (e : String × V) (l : List (String × V)) :
    m.setAll (e :: l) = (m.set e.1 e.2).setAll l := rfl

theorem GoMap.setAll_append {V : Type} (m : GoMap V) (l l' : List (String × V)) :
    m.setAll (l ++ l') = (m.setAll l).setAll l' := by
  simp [GoMap.setAll, List.foldl_append]

theorem GoMap.mem_setAll {V : Type} (l : List (String × V)) :
    ∀ (m : GoMap V) (k : String), k ∈ m.setAll l ↔ k ∈ m ∨ k ∈ l.map Prod.fst := by
  induction l with
  | nil => intro m k; simp [GoMap.setAll_nil]
  | cons e l ih =>
    intro m k
    rw [GoMap.setAll_cons, ih, GoMap.mem_set]
    simp only [List.map_cons, List.mem_cons]
    tauto

theorem GoMap.get_setAll_of_not_mem {V : Type} (l : List (String × V)) :
    ∀ (m : GoMap V) (k : String), k ∉ l.map Prod.fst → (m.setAll l).get k = m.get k := by
  induction l with
  | nil => intro m k _; rfl
  | cons e l ih =>
    intro m k h
    simp only [List.map_cons, List.mem_cons, not_or] at h
    rw [GoMap.setAll_cons, ih _ _ h.2, GoMap.get_set_of_ne _ _ h.1]

theorem GoMap.get_setAll_of_mem {V : Type} (l : List (String × V)) :
    ∀ (m : GoMap V), (l.map Prod.fst).Nodup →
      ∀ e ∈ l, (m.setAll l).get e.1 = some e.2 := by
  induction l with
  | nil => intro m _ e he; simp at he
  | cons x l ih =>
    intro m hnd e he
    simp only [List.map_cons, List.nodup_cons] at hnd
    rw [GoMap.setAll_cons]
    rcases List.mem_cons.1 he with h | h
    · subst h
      rw [GoMap.get_setAll_of_not_mem _ _ _ hnd.1, GoMap.get_set_self]
    · exact ih _ hnd.2 e h

theorem GoMap.len_setAll {V : Type} (l : List (String × V)) :
    ∀ (m : GoMap V), (l.map Prod.fst).Nodup → (∀ e ∈ l, e.1 ∉ m) →
      (m.setAll l).len = m.len + l.length := by
  induction l with
  | nil => intro m _ _; rfl
  | cons x l ih =>
    intro m hnd hfresh
    simp only [List.map_cons, List.nodup_cons] at hnd
    rw [GoMap.setAll_cons, ih _ hnd.2]
    · rw [GoMap.len_set_of_not_mem _ _ _ (hfresh x (List.mem_cons_self _ _)),
        List.length_cons]
      omega
    · intro e he hmem
      rcases (GoMap.mem_set _ _ _ _).1 hmem with h | h
      · exact hnd.1 (h ▸ List.mem_map_of_mem Prod.fst he)
      · exact hfresh e (List.mem_cons_of_mem _ he) h

theorem GoMap.of_get_setAll {V : Type} (l : List (String × V)) :
    ∀ (m : GoMap V) (k : String) (v : V), (m.setAll l).get k = some v →
      m.get k = some v ∨ (k, v) ∈ l := by
  induction l with
  | nil => intro m k v h; exact Or.inl h
  | cons x l ih =>
    intro m k v h
    rw [GoMap.setAll_cons] at h
    rcases ih _ _ _ h with h1 | h1
    · by_cases hk : k = x.1
      · subst hk
        rw [GoMap.get_set_self] at h1
        simp only [Option.some.injEq] at h1
        subst h1
        exact Or.inr (List.mem_cons_self _ _)
      · rw [GoMap.get_set_of_ne _ _ hk] at h1
        exact Or.inl h1
    · exact Or.inr (List.mem_cons_of_mem _ h1)

/-! ## Building the project -/

theorem resolveSymbolWithGlobal_eq (name : String) (g : GlobalSymbolTable) :
    resolveSymbolWithGlobal name g = g.symbols.get name := by
  unfold resolveSymbolWithGlobal
  cases g.symbols.get name <;> rfl

theorem fileTypeInfo_shape (i : Nat) :
    (fileTypeInfo i).Name = "Type_" ++ fmtD i ∧
    (fileTypeInfo i).Properties.len = 10 ∧
    (fileTypeInfo i).Methods.length = 10 :=
  ⟨rfl, rfl, rfl⟩

theorem fileSymbols_loop (i n : Nat) (file : SourceFile) (g : GlobalSymbolTable) :
    forLoop n
        (fun j (acc : SourceFile × GlobalSymbolTable) =>
          (({ acc.1 with Symbols := acc.1.Symbols ++ [fileSymbol i j] } : SourceFile),
            ({ acc.2 with
               symbols := acc.2.symbols.set (fileSymbol i j).Name (fileSymbol i j) } :
              GlobalSymbolTable)))
        (file, g) =
      ({ file with Symbols := file.Symbols ++ (List.range n).map (fileSymbol i) },
        { g with
          symbols := g.symbols.setAll
            ((List.range n).map (fun j => ((fileSymbol i j).Name, fileSymbol i j))) }) := by
  induction n with
  | zero => simp [forLoop_zero, GoMap.setAll_nil]
  | succ n ih =>
    rw [forLoop_succ, ih]
    simp [List.range_succ, GoMap.setAll_append, GoMap.setAll_cons, GoMap.setAll_nil]

theorem createFile_eq (i : Nat) (st : LargeProject × Runtime) :
    createFile i st =
      ({ Files := st.1.Files ++
           [{ Path := "src/file_" ++ fmtD i ++ ".ts"
              Content := List.replicate 10000 0
              AST := some (generateAST 6 3 st.2).1
              Symbols := fileSymbols i
              Size := 10000 }]
         GlobalSymbols :=
           { symbols := st.1.GlobalSymbols.symbols.setAll (fileEntries i)
             types := st.1.GlobalSymbols.types.set (fileTypeInfo i).Name (fileTypeInfo i) }
         Dependencies := st.1.Dependencies },
        (generateAST 6 3 st.2).2) := by
  unfold createFile
  simp only [fileSymbols_loop, List.nil_append, fileSymbols, fileEntries, List.map_map,
    Function.comp_def]

/-- The project after the first `n` iterations of the file loop. -/
theorem createFile_loop (n : Nat) (rt : Runtime) :
    (forLoop n createFile
        ({ Files := []
           GlobalSymbols := { symbols := GoMap.make, types := GoMap.make }
           Dependencies := GoMap.make }, rt)).1.Files.map (fun f => (f.Path, f.Symbols)) =
      (List.range n).map (fun i => ("src/file_" ++ fmtD i ++ ".ts", fileSymbols i)) ∧
    (forLoop n createFile
        ({ Files := []
           GlobalSymbols := { symbols := GoMap.make, types := GoMap.make }
           Dependencies := GoMap.make }, rt)).1.GlobalSymbols.symbols =
      (GoMap.make : GoMap Symbol).setAll (projectEntries n) ∧
    (forLoop n createFile
        ({ Files := []
           GlobalSymbols := { symbols := GoMap.make, types := GoMap.make }
           Dependencies := GoMap.make }, rt)).1.GlobalSymbols.types =
      (GoMap.make : GoMap TypeInfo).setAll (projectTypes n) ∧
    (forLoop n createFile
        ({ Files := []
           GlobalSymbols := { symbols := GoMap.make, types := GoMap.make }
           Dependencies := GoMap.make }, rt)).1.Dependencies = GoMap.make := by
  induction n with
  | zero => simp [forLoop_zero, projectEntries, projectTypes, GoMap.setAll_nil]
  | succ n ih =>
    obtain ⟨h1, h2, h3, h4⟩ := ih
    rw [forLoop_succ, createFile_eq]
    refine ⟨?_, ?_, ?_, ?_⟩
    · simp only [List.map_append, h1, List.range_succ, List.map_cons, List.map_nil]
    · simp only [h2, projectEntries, GoMap.setAll_append]
    · simp only [h3, projectTypes, List.range_succ, List.map_append, List.map_cons,
        List.map_nil, GoMap.setAll_append, GoMap.setAll_cons, GoMap.setAll_nil]
    · exact h4

theorem fileSymbol_name (i j : Nat) :
    (fileSymbol i j).Name = "symbol_" ++ fmtD i ++ "_" ++ fmtD j := rfl

theorem mem_fileEntries (i : Nat) (e : String × Symbol) :
    e ∈ fileEntries i ↔ ∃ j < 50, e = ((fileSymbol i j).Name, fileSymbol i j) := by
  simp only [fileEntries, fileSymbols, List.map_map, List.mem_map, List.mem_range,
    Function.comp]
  constructor
  · rintro ⟨j, hj, rfl⟩; exact ⟨j, hj, rfl⟩
  · rintro ⟨j, hj, rfl⟩; exact ⟨j, hj, rfl⟩

theorem mem_projectEntries (n : Nat) (e : String × Symbol) :
    e ∈ projectEntries n ↔
      ∃ i < n, ∃ j < 50, e = ((fileSymbol i j).Name, fileSymbol i j) := by
  induction n with
  | zero => simp [projectEntries]
  | succ n ih =>
    simp only [projectEntries, List.mem_append, ih, mem_fileEntries]
    constructor
    · rintro (⟨i, hi, j, hj, rfl⟩ | ⟨j, hj, rfl⟩)
      · exact ⟨i, by omega, j, hj, rfl⟩
      · exact ⟨n, by omega, j, hj, rfl⟩
    · rintro ⟨i, hi, j, hj, rfl⟩
      by_cases h : i < n
      · exact Or.inl ⟨i, h, j, hj, rfl⟩
      · have : i = n := by omega
        subst this
        exact Or.inr ⟨j, hj, rfl⟩

theorem length_projectEntries (n : Nat) : (projectEntries n).length = 50 * n := by
  induction n with
  | zero => rfl
  | succ n ih =>
    simp only [projectEntries, List.length_append, ih, fileEntries, fileSymbols,
      List.length_map, List.length_range]
    omega

theorem nodup_fileEntries (i : Nat) : ((fileEntries i).map Prod.fst).Nodup := by
  simp only [fileEntries, fileSymbols, List.map_map]
  apply (List.nodup_range 50).map
  intro a b h
  exact (symbolName_injective i a i b h).2

theorem nodup_projectEntries (n : Nat) : ((projectEntries n).map Prod.fst).Nodup := by
  induction n with
  | zero => simp [projectEntries]
  | succ n ih =>
    simp only [projectEntries, List.map_append]
    refine List.Nodup.append ih (nodup_fileEntries n) ?_
    intro name h1 h2
    obtain ⟨e1, he1, rfl⟩ := List.mem_map.1 h1
    obtain ⟨e2, he2, heq⟩ := List.mem_map.1 h2
    obtain ⟨i, hi, j, _, rfl⟩ := (mem_projectEntries n e1).1 he1
    obtain ⟨j', _, rfl⟩ := (mem_fileEntries n e2).1 he2
    have := (symbolName_injective n j' i j heq).1
    omega

theorem nodup_projectTypes (n : Nat) : ((projectTypes n).map Prod.fst).Nodup := by
  simp only [projectTypes, List.map_map]
  apply (List.nodup_range n).map
  intro a b h
  exact fmtD_after_injective "Type_" a b h

/-- C5: `createLargeProject(fileCount)` returns a project with `fileCount` files in index
order, file `i` with path `src/file_i.ts` and the 50 symbols `symbol_i_j`; the generated
names are pairwise distinct, the shared registry holds `50 * fileCount` symbols, every
symbol of every file resolves through `resolveSymbolWithGlobal` to that symbol, and the
type table holds `fileCount` entries, each with 10 properties and 10 methods. -/
theorem createLargeProject_shape (fileCount : Nat) (rt : Runtime) :
    ∃ (project : LargeProject) (after : Runtime),
      createLargeProject fileCount rt = some (project, after) ∧
      project.Files.length = fileCount ∧
      (∀ i < fileCount, ∃ file : SourceFile,
        project.Files[i]? = some file ∧
        file.Path = "src/file_" ++ fmtD i ++ ".ts" ∧
        file.Symbols.length = 50 ∧
        ∀ j < 50, ∃ symbol : Symbol,
          file.Symbols[j]? = some symbol ∧
          symbol.Name = "symbol_" ++ fmtD i ++ "_" ++ fmtD j ∧
          resolveSymbolWithGlobal symbol.Name project.GlobalSymbols = some symbol) ∧
      (∀ i j i' j' : Nat, (fileSymbol i j).Name = (fileSymbol i' j').Name → i = i' ∧ j = j') ∧
      project.GlobalSymbols.symbols.len = 50 * fileCount ∧
      project.GlobalSymbols.types.len = fileCount ∧
      (∀ (name : String) (typeInfo : TypeInfo),
        project.GlobalSymbols.types.get name = some typeInfo →
          typeInfo.Properties.len = 10 ∧ typeInfo.Methods.length = 10) := by
  have hneg : ¬ ((fileCount : Int) < 0) := by omega
  obtain ⟨hfiles, hsyms, htypes, _⟩ := createFile_loop fileCount rt
  have hrun : createLargeProject fileCount rt =
      some ((forLoop fileCount createFile
          ({ Files := []
             GlobalSymbols := { symbols := GoMap.make, types := GoMap.make }
             Dependencies := GoMap.make }, rt)).1,
        (forLoop fileCount createFile
          ({ Files := []
             GlobalSymbols := { symbols := GoMap.make, types := GoMap.make }
             Dependencies := GoMap.make }, rt)).2) := by
    simp only [createLargeProject, hneg, if_false, Int.toNat_ofNat]
  refine ⟨_, _, hrun, ?_, ?_,
    fun i j i' j' h => symbolName_injective i j i' j' h, ?_, ?_, ?_⟩
  · have := congrArg List.length hfiles
    simpa using this
  · intro i hi
    have hget := congrArg (fun l => l[i]?) hfiles
    simp only [List.getElem?_map, List.getElem?_range hi, Option.map_some'] at hget
    cases hfile : (forLoop fileCount createFile
        ({ Files := []
           GlobalSymbols := { symbols := GoMap.make, types := GoMap.make }
           Dependencies := GoMap.make }, rt)).1.Files[i]? with
    | none => rw [hfile] at hget; simp at hget
    | some file =>
      rw [hfile] at hget
      simp only [Option.map_some', Option.some.injEq, Prod.mk.injEq] at hget
      refine ⟨file, rfl, hget.1, ?_, ?_⟩
      · rw [hget.2]; simp [fileSymbols]
      · intro j hj
        refine ⟨fileSymbol i j, ?_, rfl, ?_⟩
        · rw [hget.2]
          simp [fileSymbols, List.getElem?_range hj]
        · rw [resolveSymbolWithGlobal_eq, hsyms]
          exact GoMap.get_setAll_of_mem _ _ (nodup_projectEntries fileCount)
            ((fileSymbol i j).Name, fileSymbol i j)
            ((mem_projectEntries fileCount _).2 ⟨i, hi, j, hj, rfl⟩)
  · rw [hsyms, GoMap.len_setAll _ GoMap.make (nodup_projectEntries fileCount)
      (fun _ _ => AList.not_mem_empty _), length_projectEntries, GoMap.len_make]
    omega
  · rw [htypes, GoMap.len_setAll _ GoMap.make (nodup_projectTypes fileCount)
      (fun _ _ => AList.not_mem_empty _), GoMap.len_make]
    simp [projectTypes]
  · intro name typeInfo h
    rw [htypes] at h
    rcases GoMap.of_get_setAll _ _ _ _ h with h1 | h1
    · rw [GoMap.get_make] at h1
      exact Option.noConfusion h1
    · simp only [projectTypes, List.mem_map, List.mem_range, Prod.mk.injEq] at h1
      obtain ⟨k, _, _, rfl⟩ := h1
      exact ⟨(fileTypeInfo_shape k).2.1, (fileTypeInfo_shape k).2.2⟩

/-- C10, as the code has it: for `fileCount = 0` the build returns an empty project, with
no file, no symbol and no type entry, and draws nothing from the runtime; for
`fileCount < 0` it stops with the panic of `make` before anything is built. -/
theorem createLargeProject_nonpositive (fileCount : Int) (h : fileCount ≤ 0) (rt : Runtime) :
    (fileCount = 0 →
      createLargeProject fileCount rt =
        some ({ Files := []
                GlobalSymbols := { symbols := GoMap.make, types := GoMap.make }
                Dependencies := GoMap.make }, rt)) ∧
    (fileCount < 0 → createLargeProject fileCount rt = none) ∧
    (∀ (project : LargeProject) (after : Runtime),
      createLargeProject fileCount rt = some (project, after) →
        project.Files = [] ∧ project.GlobalSymbols.symbols.len = 0 ∧
        project.GlobalSymbols.types.len = 0 ∧ after = rt) := by
  have hzero : fileCount.toNat = 0 := by omega
  refine ⟨?_, ?_, ?_⟩
  · intro h0
    subst h0
    rfl
  · intro hneg
    simp [createLargeProject, hneg]
  · intro project after hsome
    by_cases hneg : fileCount < 0
    · simp [createLargeProject, hneg] at hsome
    · simp only [createLargeProject, hneg, if_false, hzero, forLoop_zero, Option.some.injEq,
        Prod.mk.injEq] at hsome
      obtain ⟨rfl, rfl⟩ := hsome
      exact ⟨rfl, rfl, rfl, rfl⟩

/-- An instance of `createLargeProject_nonpositive`: a negative file count panics. -/
theorem createLargeProject_nonpositive_witness :
    createLargeProject (-1) { outcomes := fun _ => 0, drawn := 0, allocated := 0 } = none :=
  (createLargeProject_nonpositive (-1) (by decide)
    { outcomes := fun _ => 0, drawn := 0, allocated := 0 }).2.1 (by decide)

/-- C10 fails as stated: with `fileCount = 0` the build returns a project. -/
theorem createLargeProject_zero_returns :
    createLargeProject 0 { outcomes := fun _ => 0, drawn := 0, allocated := 0 } ≠ none := by
  intro h
  exact Option.noConfusion h

/-! ## Primality test -/

theorem isPrimeLoop_iff (n sqrt : Int) : ∀ (k : Nat) (i : Int), (sqrt + 1 - i).toNat ≤ k →
    (isPrimeLoop n sqrt i = true ↔ ∀ t : Nat, i + 2 * t ≤ sqrt → ¬ (i + 2 * t) ∣ n) := by
  intro k
  induction k with
  | zero =>
    intro i hk
    have hi : ¬ i ≤ sqrt := by omega
    rw [isPrimeLoop]
    simp only [hi, if_false, true_iff]
    intro t ht
    omega
  | succ k ih =>
    intro i hk
    rw [isPrimeLoop]
    by_cases hi : i ≤ sqrt
    · simp only [hi, if_true]
      by_cases hd : n.tmod i = 0
      · simp only [hd, if_true, Bool.false_eq_true, false_iff, not_forall]
        refine ⟨0, by simpa using hi, ?_⟩
        simpa using Int.dvd_iff_tmod_eq_zero.2 hd
      · simp only [hd, if_false]
        rw [ih (i + 2) (by omega)]
        constructor
        · intro h t ht
          cases t with
          | zero =>
            simpa using fun hdvd => hd (Int.dvd_iff_tmod_eq_zero.1 hdvd)
          | succ t =>
            have := h t (by push_cast at ht ⊢; omega)
            have e : i + 2 * ((t + 1 : Nat) : Int) = i + 2 + 2 * (t : Int) := by
              push_cast; ring
            rw [e]
            exact this
        · intro h t ht
          have := h (t + 1) (by push_cast; omega)
          have e : i + 2 * ((t + 1 : Nat) : Int) = i + 2 + 2 * (t : Int) := by
            push_cast; ring
          rw [e] at this
          exact this
    · simp only [hi, if_false, true_iff]
      intro t ht
      omega

theorem isPrime_natCast (N : Nat) : isPrime (N : Int) = true ↔ Nat.Prime N := by
  unfold isPrime
  by_cases h1 : (N : Int) ≤ 1
  · simp only [h1, if_true, Bool.false_eq_true, false_iff]
    intro hp
    have := hp.two_le
    omega
  by_cases h3 : (N : Int) ≤ 3
  · simp only [h1, h3, if_false, if_true, true_iff]
    have : N = 2 ∨ N = 3 := by omega
    rcases this with rfl | rfl <;> norm_num
  simp only [h1, h3, if_false]
  by_cases h2 : (N : Int).tmod 2 = 0
  · simp only [h2, if_true, Bool.false_eq_true, false_iff]
    intro hp
    have hdvd : (2 : Int) ∣ (N : Int) := Int.dvd_iff_tmod_eq_zero.2 h2
    have hdvd' : 2 ∣ N := by exact_mod_cast hdvd
    have := (Nat.prime_dvd_prime_iff_eq Nat.prime_two hp).1 hdvd'
    omega
  · simp only [h2, if_false]
    rw [isPrimeLoop_iff (N : Int) (intSqrt N) _ 3 le_rfl, Nat.prime_def_le_sqrt]
    have hodd : ¬ 2 ∣ N := by
      intro hdvd
      apply h2
      apply Int.dvd_iff_tmod_eq_zero.1
      exact_mod_cast hdvd
    have hsq : intSqrt (N : Int) = (Nat.sqrt N : Int) := by simp [intSqrt]
    rw [hsq]
    constructor
    · intro h
      refine ⟨by omega, ?_⟩
      intro m hm2 hmle hmdvd
      have hmodd : ¬ 2 ∣ m := fun h2m => hodd (dvd_trans h2m hmdvd)
      obtain ⟨t, ht⟩ : ∃ t : Nat, m = 3 + 2 * t := ⟨(m - 3) / 2, by omega⟩
      apply h t
      · have : ((3 + 2 * t : Nat) : Int) ≤ (Nat.sqrt N : Int) := by
          rw [← ht]; exact_mod_cast hmle
        push_cast at this
        exact this
      · have : ((3 + 2 * t : Nat) : Int) ∣ (N : Int) := by
          rw [← ht]; exact_mod_cast hmdvd
        push_cast at this
        exact this
    · rintro ⟨_, h⟩ t ht hdvd
      have hle : 3 + 2 * t ≤ Nat.sqrt N := by exact_mod_cast ht
      have hd : (3 + 2 * t) ∣ N := by exact_mod_cast hdvd
      exact h (3 + 2 * t) (by omega) hle hd

theorem isPrime_eq_prime (n : Int) : isPrime n = true ↔ Nat.Prime n.toNat := by
  by_cases h : 0 ≤ n
  · obtain ⟨N, rfl⟩ := Int.eq_ofNat_of_zero_le h
    simpa using isPrime_natCast N
  · have h1 : n ≤ 1 := by omega
    have h0 : n.toNat = 0 := by omega
    simp [isPrime, h1, h0, Nat.not_prime_zero]

theorem prime_toNat_iff (n : Int) :
    Nat.Prime n.toNat ↔ 2 ≤ n ∧ ∀ d : Int, 1 < d → d < n → ¬ d ∣ n := by
  rw [Nat.prime_def_lt']
  constructor
  · rintro ⟨h2, h⟩
    refine ⟨by omega, ?_⟩
    intro d hd1 hdn hdvd
    obtain ⟨D, rfl⟩ := Int.eq_ofNat_of_zero_le (by omega : 0 ≤ d)
    have hn : n = (n.toNat : Int) := by omega
    rw [hn] at hdvd
    exact h D (by omega) (by omega) (by exact_mod_cast hdvd)
  · rintro ⟨h2, h⟩
    refine ⟨by omega, ?_⟩
    intro m hm2 hmn hdvd
    have hn : n = (n.toNat : Int) := by omega
    apply h (m : Int) (by omega) (by omega)
    rw [hn]
    exact_mod_cast hdvd

/-- C16: with the loop bound taken to be the integer square root of `n`, `isPrime(n)`
returns true exactly when `n` is a prime number, that is `n >= 2` and no `d` with
`1 < d < n` divides `n`; it returns false for every `n <= 1` and every even `n > 2`, and
true for 2 and for 3. -/
theorem isPrime_correct (n : Int) :
    (isPrime n = true ↔ 2 ≤ n ∧ ∀ d : Int, 1 < d → d < n → ¬ d ∣ n) ∧
    (isPrime n = true ↔ Nat.Prime n.toNat) ∧
    (n ≤ 1 → isPrime n = false) ∧
    (2 < n → n % 2 = 0 → isPrime n = false) ∧
    isPrime 2 = true ∧ isPrime 3 = true := by
  refine ⟨(isPrime_eq_prime n).trans (prime_toNat_iff n), isPrime_eq_prime n, ?_, ?_, ?_, ?_⟩
  · intro h
    simp [isPrime, h]
  · intro h2 heven
    have hnp : ¬ (2 ≤ n ∧ ∀ d : Int, 1 < d → d < n → ¬ d ∣ n) := by
      rintro ⟨_, h⟩
      exact h 2 (by decide) h2 (Int.dvd_of_emod_eq_zero heven)
    have := (isPrime_eq_prime n).trans (prime_toNat_iff n)
    cases hp : isPrime n with
    | false => rfl
    | true => exact absurd (this.1 hp) hnp
  · simp [isPrime]
  · simp [isPrime]

/-- An instance of `isPrime_correct`: the even number 4 is rejected. -/
theorem isPrime_correct_witness : isPrime 4 = false :=
  (isPrime_correct 4).2.2.2.1 (by decide) (by decide)

/-! ## The work of one type check -/

theorem scanProperties_spec (l : List (Σ _ : String, String)) :
    ∀ (count : Int), count ≤ 5 →
      (scanProperties l count).1 = count + scanPropertiesSteps l count ∧
      (scanProperties l count).1 ≤ 6 ∧
      ((scanProperties l count).2 = true → (scanProperties l count).1 = 6) ∧
      ((scanProperties l count).2 = false →
        (scanProperties l count).1 ≤ 5 ∧ scanPropertiesSteps l count = l.length) := by
  induction l with
  | nil =>
    intro count hc
    simp only [scanProperties, scanPropertiesSteps, List.length_nil]
    refine ⟨by simp, by omega, by simp, fun _ => ⟨hc, trivial⟩⟩
  | cons x rest ih =>
    intro count hc
    simp only [scanProperties, scanPropertiesSteps]
    by_cases h : count + 1 > 5
    · simp only [h, if_true]
      refine ⟨by simp, by omega, fun _ => by omega, fun hf => by simp at hf⟩
    · simp only [h, if_false]
      obtain ⟨h1, h2, h3, h4⟩ := ih (count + 1) (by omega)
      refine ⟨?_, h2, h3, ?_⟩
      · rw [h1]; push_cast; ring
      · intro hf
        obtain ⟨h5, h6⟩ := h4 hf
        exact ⟨h5, by rw [h6, List.length_cons]; omega⟩

theorem scanProperties_of_many (l : List (Σ _ : String, String)) :
    ∀ (count : Int), 0 ≤ count → count ≤ 5 → (6 - count).toNat ≤ l.length →
      (scanProperties l count).2 = true ∧ scanPropertiesSteps l count = (6 - count).toNat := by
  induction l with
  | nil =>
    intro count h0 hc hlen
    simp only [List.length_nil] at hlen
    omega
  | cons x rest ih =>
    intro count h0 hc hlen
    simp only [scanProperties, scanPropertiesSteps]
    by_cases h : count + 1 > 5
    · simp only [h, if_true, true_and]
      omega
    · simp only [h, if_false]
      simp only [List.length_cons] at hlen
      obtain ⟨h1, h2⟩ := ih (count + 1) (by omega) (by omega) (by omega)
      exact ⟨h1, by rw [h2]; omega⟩

theorem scanTypes_spec (types : List (Σ _ : String, TypeInfo)) :
    ∀ (count : Int), count ≤ 5 →
      scanTypes types count = count + ((scanTypesSteps types count).2 : Int) ∧
      scanTypes types count ≤ 6 ∧
      ((scanTypesSteps types count).1 : Int) ≤
        6 - count + types.countP (fun t => t.2.Properties.entries.isEmpty) := by
  induction types with
  | nil =>
    intro count hc
    simp only [scanTypes, scanTypesSteps, List.countP_nil]
    refine ⟨by simp, by omega, by push_cast; omega⟩
  | cons t rest ih =>
    intro count hc
    obtain ⟨h1, h2, h3, h4⟩ := scanProperties_spec t.2.Properties.entries count hc
    simp only [scanTypes, scanTypesSteps]
    cases hret : (scanProperties t.2.Properties.entries count).2 with
    | true =>
      simp only [if_true]
      refine ⟨h1, h2, ?_⟩
      have : (0 : Int) ≤ (List.countP (fun t => t.2.Properties.entries.isEmpty) (t :: rest) : Nat) :=
        Int.natCast_nonneg _
      push_cast
      omega
    | false =>
      simp only [Bool.false_eq_true, if_false]
      obtain ⟨h5, h6⟩ := h4 hret
      obtain ⟨i1, i2, i3⟩ := ih (scanProperties t.2.Properties.entries count).1 h5
      refine ⟨?_, i2, ?_⟩
      · rw [i1, h1]; push_cast; ring
      · rw [List.countP_cons]
        by_cases hempty : t.2.Properties.entries.isEmpty = true
        · simp only [hempty, if_true]
          have hlen : t.2.Properties.entries.length = 0 := by
            simpa [List.isEmpty_iff] using hempty
          rw [hlen] at h6
          rw [h6] at h1
          push_cast at h1 i3 ⊢
          omega
        · simp only [hempty, if_false]
          have hlen : 0 < t.2.Properties.entries.length := by
            cases hl : t.2.Properties.entries with
            | nil => simp [hl] at hempty
            | cons a b => simp
          rw [h6] at h1
          push_cast at h1 i3 ⊢
          omega

theorem scanTypesSteps_of_bare (types : List (Σ _ : String, TypeInfo))
    (h : ∀ t ∈ types, t.2.Properties.entries = []) (count : Int) :
    scanTypesSteps types count = (types.length, 0) := by
  induction types with
  | nil => rfl
  | cons t rest ih =>
    have ht := h t (List.mem_cons_self _ _)
    have hrest := ih (fun u hu => h u (List.mem_cons_of_mem _ hu))
    simp only [scanTypesSteps, ht, scanProperties, scanPropertiesSteps, Bool.false_eq_true,
      if_false, hrest, List.length_cons, zero_add, Prod.mk.injEq, and_true]
    omega

theorem scanTypesSteps_of_full (types : List (Σ _ : String, TypeInfo))
    (hne : types ≠ []) (h : ∀ t ∈ types, 6 ≤ t.2.Properties.len) :
    scanTypesSteps types 0 = (1, 6) := by
  cases types with
  | nil => exact absurd rfl hne
  | cons t rest =>
    have ht : (6 - (0 : Int)).toNat ≤ t.2.Properties.entries.length := by
      have := h t (List.mem_cons_self _ _)
      simpa [GoMap.len] using this
    obtain ⟨h1, h2⟩ := scanProperties_of_many t.2.Properties.entries 0 le_rfl (by decide) ht
    simp only [scanTypesSteps, h1, if_true, h2]
    rfl

theorem GoMap.of_mem_entries_setAll {V : Type} (l : List (String × V)) (m : GoMap V)
    (e : Σ _ : String, V) (h : e ∈ (m.setAll l).entries) :
    m.get e.1 = some e.2 ∨ (e.1, e.2) ∈ l := by
  apply GoMap.of_get_setAll l m e.1 e.2
  have : e.2 ∈ AList.lookup e.1 (m.setAll l) := AList.mem_lookup_iff.2 (by cases e; exact h)
  exact this

theorem bareTypes_spec (n : Nat) :
    (bareTypes n).entries.length = n ∧
    ∀ t ∈ (bareTypes n).entries, t.2.Properties.entries = [] := by
  constructor
  · have hnd : (((List.range n).map (fun i =>
        (("Type_" ++ fmtD i,
          ({ Name := "Type_" ++ fmtD i, Properties := GoMap.make, Methods := [] } : TypeInfo)) :
          String × TypeInfo))).map Prod.fst).Nodup := by
      rw [List.map_map]
      exact (List.nodup_range n).map (fun a b h => fmtD_after_injective "Type_" a b h)
    have := GoMap.len_setAll _ (GoMap.make : GoMap TypeInfo) hnd
      (fun _ _ => AList.not_mem_empty _)
    simpa [GoMap.len, bareTypes, GoMap.make] using this
  · intro t ht
    rcases GoMap.of_mem_entries_setAll _ _ t ht with h | h
    · rw [GoMap.get_make] at h
      exact Option.noConfusion h
    · simp only [List.mem_map, List.mem_range, Prod.mk.injEq] at h
      obtain ⟨i, _, _, h2⟩ := h
      rw [← h2]
      rfl

theorem createLargeProject_some (fileCount : Nat) (rt : Runtime) :
    ∃ (project : LargeProject) (after : Runtime),
      createLargeProject fileCount rt = some (project, after) := by
  have hneg : ¬ ((fileCount : Int) < 0) := by omega
  exact ⟨_, _, by simp only [createLargeProject, hneg, if_false, Int.toNat_ofNat]; rfl⟩

theorem createLargeProject_types (fileCount : Nat) (rt after : Runtime)
    (project : LargeProject)
    (h : createLargeProject fileCount rt = some (project, after)) :
    project.GlobalSymbols.types.entries.length = fileCount ∧
    ∀ t ∈ project.GlobalSymbols.types.entries, t.2.Properties.len = 10 := by
  have hneg : ¬ ((fileCount : Int) < 0) := by omega
  simp only [createLargeProject, hneg, if_false, Int.toNat_ofNat, Option.some.injEq] at h
  obtain ⟨_, _, htypes, _⟩ := createFile_loop fileCount rt
  rw [h] at htypes
  simp only at htypes
  rw [htypes]
  constructor
  · have := GoMap.len_setAll _ (GoMap.make : GoMap TypeInfo) (nodup_projectTypes fileCount)
      (fun _ _ => AList.not_mem_empty _)
    simpa [GoMap.len, projectTypes, GoMap.make] using this
  · intro t ht
    rcases GoMap.of_mem_entries_setAll _ _ t ht with h1 | h1
    · rw [GoMap.get_make] at h1
      exact Option.noConfusion h1
    · simp only [projectTypes, List.mem_map, List.mem_range, Prod.mk.injEq] at h1
      obtain ⟨k, _, _, h2⟩ := h1
      rw [← h2]
      exact (fileTypeInfo_shape k).2.1

/-- C14, as the code has it: whatever the size of the table and the order of iteration,
one `performTypeCheck` call iterates over at most 6 property entries (it returns when its
counter exceeds 5), as many as its counter says, and over at most 6 type entries besides
those whose property map is empty; so it visits at most 6 type entries when every type
has a property, and on every table built by `createLargeProject` it visits 1 type entry
and 6 property entries. -/
theorem performTypeCheck_work (types : List (Σ _ : String, TypeInfo)) :
    (scanTypesSteps types 0).2 ≤ 6 ∧
    ((scanTypesSteps types 0).2 : Int) = scanTypes types 0 ∧
    (scanTypesSteps types 0).1 ≤
      6 + types.countP (fun t => t.2.Properties.entries.isEmpty) ∧
    ((∀ t ∈ types, t.2.Properties.len ≠ 0) → (scanTypesSteps types 0).1 ≤ 6) ∧
    (∀ (fileCount : Nat) (rt after : Runtime) (project : LargeProject), 0 < fileCount →
      createLargeProject fileCount rt = some (project, after) →
      types.Perm project.GlobalSymbols.types.entries →
      scanTypesSteps types 0 = (1, 6)) ∧
    (∀ (fileCount : Nat) (rt : Runtime), 0 < fileCount →
      ∃ (project : LargeProject) (after : Runtime),
        createLargeProject fileCount rt = some (project, after) ∧
        scanTypesSteps project.GlobalSymbols.types.entries 0 = (1, 6) ∧
        scanTypes project.GlobalSymbols.types.entries 0 = 6) := by
  obtain ⟨h1, h2, h3⟩ := scanTypes_spec types 0 (by decide)
  refine ⟨by omega, by omega, by omega, ?_, ?_, ?_⟩
  · intro hfull
    have hzero : types.countP (fun t => t.2.Properties.entries.isEmpty) = 0 := by
      rw [List.countP_eq_zero]
      intro t ht hempty
      apply hfull t ht
      simpa [GoMap.len, List.isEmpty_iff] using hempty
    rw [hzero] at h3
    omega
  · intro fileCount rt after project hpos hbuilt hperm
    obtain ⟨hlen, hall⟩ := createLargeProject_types fileCount rt after project hbuilt
    apply scanTypesSteps_of_full
    · intro hnil
      have := hperm.length_eq
      rw [hnil, hlen] at this
      simp only [List.length_nil] at this
      omega
    · intro t ht
      rw [hall t (hperm.mem_iff.1 ht)]
      decide
  · intro fileCount rt hpos
    obtain ⟨project, after, hbuilt⟩ := createLargeProject_some fileCount rt
    obtain ⟨hlen, hall⟩ := createLargeProject_types fileCount rt after project hbuilt
    have hsteps : scanTypesSteps project.GlobalSymbols.types.entries 0 = (1, 6) := by
      apply scanTypesSteps_of_full
      · intro hnil
        rw [hnil] at hlen
        simp only [List.length_nil] at hlen
        omega
      · intro t ht
        rw [hall t ht]
        decide
    refine ⟨project, after, hbuilt, hsteps, ?_⟩
    have := (scanTypes_spec project.GlobalSymbols.types.entries 0 (by decide)).1
    rw [hsteps] at this
    simpa using this

/-- An instance of `performTypeCheck_work`: a table of one type with one property. -/
theorem performTypeCheck_work_witness :
    (scanTypesSteps
      [⟨"T", { Name := "T", Properties := (GoMap.make : GoMap String).set "p" "string",
               Methods := [] }⟩] 0).1 ≤ 6 :=
  (performTypeCheck_work _).2.2.2.1 (by
    intro t ht
    rw [List.mem_singleton] at ht
    subst ht
    decide)

/-- C14 fails as stated: no constant bounds the number of entries that one
`performTypeCheck` call iterates over on every type table, for a table of `n` types
without properties makes it pass over all `n` of them. -/
theorem performTypeCheck_unbounded :
    ¬ ∃ bound : Nat, ∀ g : GlobalSymbolTable,
      (scanTypesSteps g.types.entries 0).1 + (scanTypesSteps g.types.entries 0).2 ≤ bound := by
  rintro ⟨bound, h⟩
  have hb := h { symbols := GoMap.make, types := bareTypes (bound + 1) }
  obtain ⟨hlen, hbare⟩ := bareTypes_spec (bound + 1)
  rw [scanTypesSteps_of_bare _ hbare, hlen] at hb
  simp only at hb
  omega

/-- On a table of `n` types without properties the counter of `performTypeCheck` never
advances, so one call iterates over all `n` type entries and over no property entry. -/
theorem performTypeCheck_bare_table (n : Nat) :
    (bareTypes n).len = n ∧
    scanTypesSteps (bareTypes n).entries 0 = (n, 0) ∧
    scanTypes (bareTypes n).entries 0 = 0 := by
  obtain ⟨hlen, hbare⟩ := bareTypes_spec n
  have hsteps := scanTypesSteps_of_bare _ hbare 0
  rw [hlen] at hsteps
  refine ⟨hlen, hsteps, ?_⟩
  have := (scanTypes_spec (bareTypes n).entries 0 (by decide)).1
  rw [hsteps] at this
  simpa using this

/-! ## The shape of a generated tree -/

theorem generateAST_loop (depth breadth : Int) (addr : Nat) (first : Runtime) (m : Nat) :
    forLoop m
        (fun _ (st : List ASTNode × Runtime) =>
          ((st.1 ++ [(generateAST depth breadth st.2).1.setParent (some addr)],
            (generateAST depth breadth st.2).2) : List ASTNode × Runtime))
        ([], first) =
      ((List.range m).map (fun i =>
          (generateAST depth breadth (childRuntime depth breadth first i)).1.setParent
            (some addr)),
        childRuntime depth breadth first m) := by
  induction m with
  | zero => simp [forLoop_zero, childRuntime]
  | succ m ih =>
    rw [forLoop_succ, ih]
    simp [List.range_succ, childRuntime]

theorem generateAST_of_pos (depth breadth : Int) (rt : Runtime) (h : depth > 0) :
    generateAST depth breadth rt =
      (ASTNode.mk rt.allocated (kinds.getD (rt.Intn kinds.length).1 0)
          ("node_" ++ fmtD (rt.Intn kinds.length).2.Int63.1)
          ((List.range breadth.toNat).map (fun i =>
            (generateAST (depth - 1) breadth
              (childRuntime (depth - 1) breadth (nodeRuntime rt) i)).1.setParent
              (some rt.allocated)))
          none,
        childRuntime (depth - 1) breadth (nodeRuntime rt) breadth.toNat) := by
  rw [generateAST]
  simp only [h, dite_true]
  have := generateAST_loop (depth - 1) breadth rt.allocated (nodeRuntime rt) breadth.toNat
  simp only [nodeRuntime] at this ⊢
  rw [show (rt.Intn kinds.length).2.Int63.2.newNode.1 = rt.allocated from rfl, this]

theorem generateAST_of_nonpos (depth breadth : Int) (rt : Runtime) (h : ¬ depth > 0) :
    generateAST depth breadth rt =
      (ASTNode.mk rt.allocated (kinds.getD (rt.Intn kinds.length).1 0)
          ("node_" ++ fmtD (rt.Intn kinds.length).2.Int63.1) [] none,
        nodeRuntime rt) := by
  rw [generateAST]
  simp only [h, dite_false]
  rfl

theorem nodeRuntime_allocated (rt : Runtime) : (nodeRuntime rt).allocated = rt.allocated + 1 :=
  rfl

theorem ASTNode.children_setParent (n : ASTNode) (p : Option Nat) :
    (n.setParent p).Children = n.Children := by
  cases n; rfl

theorem ASTNode.addr_setParent (n : ASTNode) (p : Option Nat) :
    (n.setParent p).Addr = n.Addr := by
  cases n; rfl

theorem ASTNode.parent_setParent (n : ASTNode) (p : Option Nat) :
    (n.setParent p).Parent = p := by
  cases n; rfl

theorem ASTNode.nodes_eq (n : ASTNode) : n.nodes = n :: ASTNode.nodesOfList n.Children := by
  cases n; simp [ASTNode.nodes, ASTNode.Children]

theorem ASTNode.level_zero (n : ASTNode) : n.level 0 = [n] := by
  cases n; simp [ASTNode.level]

theorem ASTNode.level_succ (n : ASTNode) (k : Nat) :
    n.level (k + 1) = ASTNode.levelOfList n.Children k := by
  cases n; simp [ASTNode.level, ASTNode.Children]

theorem ASTNode.mem_levelOfList (cs : List ASTNode) (k : Nat) (n : ASTNode) :
    n ∈ ASTNode.levelOfList cs k ↔ ∃ c ∈ cs, n ∈ c.level k := by
  induction cs with
  | nil => simp [ASTNode.levelOfList]
  | cons c cs ih => simp [ASTNode.levelOfList, ih]

theorem ASTNode.mem_nodesOfList (cs : List ASTNode) (n : ASTNode) :
    n ∈ ASTNode.nodesOfList cs ↔ ∃ c ∈ cs, n ∈ c.nodes := by
  induction cs with
  | nil => simp [ASTNode.nodesOfList]
  | cons c cs ih => simp [ASTNode.nodesOfList, ih]

theorem ASTNode.nodesOfList_append (cs ds : List ASTNode) :
    ASTNode.nodesOfList (cs ++ ds) = ASTNode.nodesOfList cs ++ ASTNode.nodesOfList ds := by
  induction cs with
  | nil => simp [ASTNode.nodesOfList]
  | cons c cs ih => simp [ASTNode.nodesOfList, ih]

/-- A node of a level of a re-parented tree has the children of a node of that level of
the tree. -/
theorem ASTNode.level_setParent (c : ASTNode) (p : Option Nat) (k : Nat) (n : ASTNode)
    (h : n ∈ (c.setParent p).level k) : ∃ n' ∈ c.level k, n.Children = n'.Children := by
  cases k with
  | zero =>
    rw [ASTNode.level_zero, List.mem_singleton] at h
    subst h
    exact ⟨c, by rw [ASTNode.level_zero]; exact List.mem_singleton_self _,
      ASTNode.children_setParent c p⟩
  | succ k =>
    rw [ASTNode.level_succ, ASTNode.children_setParent, ← ASTNode.level_succ] at h
    exact ⟨n, h, rfl⟩

theorem generateAST_levels (breadth : Nat) (d : Nat) : ∀ (depth : Int), depth.toNat = d →
    0 ≤ depth → ∀ (rt : Runtime),
      (∀ k < d, ∀ n ∈ (generateAST depth breadth rt).1.level k, n.Children.length = breadth) ∧
      (∀ n ∈ (generateAST depth breadth rt).1.level d, n.Children = []) := by
  induction d with
  | zero =>
    intro depth hd h0 rt
    rw [generateAST_of_nonpos depth breadth rt (by omega)]
    refine ⟨fun k hk => by omega, ?_⟩
    intro n hn
    rw [ASTNode.level_zero, List.mem_singleton] at hn
    subst hn
    rfl
  | succ d ih =>
    intro depth hd h0 rt
    rw [generateAST_of_pos depth breadth rt (by omega)]
    simp only [Int.toNat_ofNat]
    constructor
    · intro k hk n hn
      cases k with
      | zero =>
        rw [ASTNode.level_zero, List.mem_singleton] at hn
        subst hn
        simp [ASTNode.Children]
      | succ k =>
        rw [ASTNode.level_succ] at hn
        simp only [ASTNode.Children] at hn
        obtain ⟨c, hc, hnc⟩ := (ASTNode.mem_levelOfList _ _ _).1 hn
        obtain ⟨i, _, rfl⟩ := List.mem_map.1 hc
        obtain ⟨n', hn', heq⟩ := ASTNode.level_setParent _ _ _ _ hnc
        rw [heq]
        exact (ih (depth - 1) (by omega) (by omega) _).1 k (by omega) n' hn'
    · intro n hn
      rw [ASTNode.level_succ] at hn
      simp only [ASTNode.Children] at hn
      obtain ⟨c, hc, hnc⟩ := (ASTNode.mem_levelOfList _ _ _).1 hn
      obtain ⟨i, _, rfl⟩ := List.mem_map.1 hc
      obtain ⟨n', hn', heq⟩ := ASTNode.level_setParent _ _ _ _ hnc
      rw [heq]
      exact (ih (depth - 1) (by omega) (by omega) _).2 n' hn'

theorem ASTNode.nodes_setParent (c : ASTNode) (p : Option Nat) :
    (c.setParent p).nodes = c.setParent p :: ASTNode.nodesOfList c.Children := by
  rw [ASTNode.nodes_eq, ASTNode.children_setParent]

theorem ASTNode.self_mem_nodes (c : ASTNode) : c ∈ c.nodes := by
  rw [ASTNode.nodes_eq]; exact List.mem_cons_self _ _

theorem generateAST_parents (breadth : Nat) (d : Nat) : ∀ (depth : Int), depth.toNat = d →
    0 ≤ depth → ∀ (rt : Runtime),
      ∀ n ∈ (generateAST depth breadth rt).1.nodes, ∀ c ∈ n.Children,
        c.Parent = some n.Addr := by
  induction d with
  | zero =>
    intro depth hd h0 rt n hn c hc
    rw [generateAST_of_nonpos depth breadth rt (by omega)] at hn
    simp only [ASTNode.nodes, ASTNode.nodesOfList, List.mem_singleton] at hn
    subst hn
    simp [ASTNode.Children] at hc
  | succ d ih =>
    intro depth hd h0 rt n hn c hc
    rw [generateAST_of_pos depth breadth rt (by omega)] at hn
    rw [ASTNode.nodes_eq] at hn
    simp only [ASTNode.Children, List.mem_cons] at hn
    rcases hn with hn | hn
    · subst hn
      simp only [ASTNode.Children] at hc
      obtain ⟨i, _, rfl⟩ := List.mem_map.1 hc
      rw [ASTNode.parent_setParent]
      rfl
    · obtain ⟨child, hchild, hmem⟩ := (ASTNode.mem_nodesOfList _ _).1 hn
      obtain ⟨i, _, rfl⟩ := List.mem_map.1 hchild
      rw [ASTNode.nodes_setParent, List.mem_cons] at hmem
      have hsub := ih (depth - 1) (by omega) (by omega)
        (childRuntime (depth - 1) breadth (nodeRuntime rt) i)
      rcases hmem with hmem | hmem
      · subst hmem
        rw [ASTNode.children_setParent] at hc
        rw [ASTNode.addr_setParent]
        exact hsub _ (ASTNode.self_mem_nodes _) c hc
      · apply hsub n _ c hc
        rw [ASTNode.nodes_eq]
        exact List.mem_cons_of_mem _ hmem

theorem ASTNode.map_addr_nodes_setParent (c : ASTNode) (p : Option Nat) :
    (c.setParent p).nodes.map ASTNode.Addr = c.nodes.map ASTNode.Addr := by
  rw [ASTNode.nodes_setParent, ASTNode.nodes_eq c, List.map_cons, List.map_cons,
    ASTNode.addr_setParent]

theorem generateAST_addrs (breadth : Nat) (d : Nat) : ∀ (depth : Int), depth.toNat = d →
    0 ≤ depth → ∀ (rt : Runtime),
      (generateAST depth breadth rt).1.nodes.map ASTNode.Addr =
          List.range' rt.allocated (generateAST depth breadth rt).1.nodes.length ∧
      (generateAST depth breadth rt).2.allocated =
          rt.allocated + (generateAST depth breadth rt).1.nodes.length := by
  induction d with
  | zero =>
    intro depth hd h0 rt
    rw [generateAST_of_nonpos depth breadth rt (by omega)]
    simp [ASTNode.nodes, ASTNode.nodesOfList, ASTNode.Addr, nodeRuntime_allocated,
      List.range']
  | succ d ih =>
    intro depth hd h0 rt
    rw [generateAST_of_pos depth breadth rt (by omega)]
    simp only [Int.toNat_ofNat]
    have key : ∀ m : Nat,
        (ASTNode.nodesOfList ((List.range m).map (fun i =>
            (generateAST (depth - 1) breadth
              (childRuntime (depth - 1) breadth (nodeRuntime rt) i)).1.setParent
              (some rt.allocated)))).map ASTNode.Addr =
          List.range' (rt.allocated + 1)
            (ASTNode.nodesOfList ((List.range m).map (fun i =>
              (generateAST (depth - 1) breadth
                (childRuntime (depth - 1) breadth (nodeRuntime rt) i)).1.setParent
                (some rt.allocated)))).length ∧
        (childRuntime (depth - 1) breadth (nodeRuntime rt) m).allocated =
          rt.allocated + 1 +
            (ASTNode.nodesOfList ((List.range m).map (fun i =>
              (generateAST (depth - 1) breadth
                (childRuntime (depth - 1) breadth (nodeRuntime rt) i)).1.setParent
                (some rt.allocated)))).length := by
      intro m
      induction m with
      | zero => simp [ASTNode.nodesOfList, childRuntime, nodeRuntime_allocated]
      | succ m ihm =>
        obtain ⟨h1, h2⟩ := ihm
        obtain ⟨g1, g2⟩ := ih (depth - 1) (by omega) (by omega)
          (childRuntime (depth - 1) breadth (nodeRuntime rt) m)
        have hlen : ((generateAST (depth - 1) breadth
            (childRuntime (depth - 1) breadth (nodeRuntime rt) m)).1.setParent
              (some rt.allocated)).nodes.length =
            (generateAST (depth - 1) breadth
              (childRuntime (depth - 1) breadth (nodeRuntime rt) m)).1.nodes.length := by
          have := congrArg List.length (ASTNode.map_addr_nodes_setParent
            (generateAST (depth - 1) breadth
              (childRuntime (depth - 1) breadth (nodeRuntime rt) m)).1 (some rt.allocated))
          simpa using this
        simp only [List.range_succ, List.map_append, List.map_cons, List.map_nil,
          ASTNode.nodesOfList_append, ASTNode.nodesOfList, List.append_nil, List.length_append,
          ASTNode.map_addr_nodes_setParent, hlen, childRuntime]
        rw [h1, g1, g2, h2]
        constructor
        · rw [List.range'_append_1]
          exact congrArg (fun k => List.range' (rt.allocated + 1) k) (Nat.add_comm _ _)
        · omega
    obtain ⟨k1, k2⟩ := key breadth
    constructor
    · rw [ASTNode.nodes_eq]
      simp only [ASTNode.Children, List.map_cons, List.length_cons, ASTNode.Addr,
        List.range'_succ, k1]
    · rw [k2, ASTNode.nodes_eq]
      simp only [ASTNode.Children, List.length_cons]
      omega

/-- C13: the root returned by `generateAST(depth, breadth)` has no parent; it is a leaf
when `depth = 0` or `breadth = 0`; otherwise it has `breadth` children, in generation
order, each a tree generated for `(depth - 1, breadth)` whose parent back-reference holds
the address of the root. Every node at a level `k < depth` has `breadth` children, every
node at level `depth` is a leaf, the parent back-reference of every child in the tree
holds the address of its parent, and no two nodes of the tree share an address. -/
theorem generateAST_shape (depth breadth : Nat) (rt : Runtime) :
    (generateAST depth breadth rt).1.Parent = none ∧
    (generateAST depth breadth rt).1.Addr = rt.allocated ∧
    (depth = 0 ∨ breadth = 0 → (generateAST depth breadth rt).1.Children = []) ∧
    (0 < depth →
      (generateAST depth breadth rt).1.Children.length = breadth ∧
      (generateAST depth breadth rt).1.Children =
        (List.range breadth).map (fun i =>
          (generateAST ((depth : Int) - 1) breadth
            (childRuntime ((depth : Int) - 1) breadth (nodeRuntime rt) i)).1.setParent
            (some (generateAST depth breadth rt).1.Addr))) ∧
    (∀ k < depth, ∀ n ∈ (generateAST depth breadth rt).1.level k,
      n.Children.length = breadth) ∧
    (∀ n ∈ (generateAST depth breadth rt).1.level depth, n.Children = []) ∧
    (∀ n ∈ (generateAST depth breadth rt).1.nodes, ∀ c ∈ n.Children,
      c.Parent = some n.Addr) ∧
    ((generateAST depth breadth rt).1.nodes.map ASTNode.Addr).Nodup := by
  have hlev := generateAST_levels breadth depth (depth : Int) (by simp) (by simp) rt
  have hpar := generateAST_parents breadth depth (depth : Int) (by simp) (by simp) rt
  have hadr := generateAST_addrs breadth depth (depth : Int) (by simp) (by simp) rt
  refine ⟨?_, ?_, ?_, ?_, hlev.1, hlev.2, hpar, ?_⟩
  · by_cases h : (depth : Int) > 0
    · rw [generateAST_of_pos _ _ _ h]; rfl
    · rw [generateAST_of_nonpos _ _ _ h]; rfl
  · by_cases h : (depth : Int) > 0
    · rw [generateAST_of_pos _ _ _ h]; rfl
    · rw [generateAST_of_nonpos _ _ _ h]; rfl
  · intro h
    by_cases hd : (depth : Int) > 0
    · have hb : breadth = 0 := by omega
      subst hb
      rw [generateAST_of_pos _ _ _ hd]
      simp [ASTNode.Children]
    · rw [generateAST_of_nonpos _ _ _ hd]; rfl
  · intro h
    have hd : (depth : Int) > 0 := by omega
    rw [generateAST_of_pos _ _ _ hd]
    simp [ASTNode.Children, ASTNode.Addr]
  · rw [hadr.1]
    exact List.nodup_range' _ _

/-- An instance of `generateAST_shape`: a tree of depth 2 and breadth 3 has 3 children. -/
theorem generateAST_shape_witness :
    (generateAST 2 3 { outcomes := fun i => i, drawn := 0, allocated := 0 }).1.Children.length
      = 3 :=
  ((generateAST_shape 2 3 { outcomes := fun i => i, drawn := 0, allocated := 0 }).2.2.2.1
    (by decide)).1

/-! ## Thousands separators -/

theorem formatNumberLoop_eq (len : Nat) (l : List Char) :
    ∀ (i : Nat) (result : String), len = i + l.length →
      (formatNumberLoop len l i result).data =
        result.data ++ renderRest (decide (i > 0)) l := by
  induction l with
  | nil => intro i result _; simp [formatNumberLoop, renderRest]
  | cons c rest ih =>
    intro i result hlen
    simp only [List.length_cons] at hlen
    rw [formatNumberLoop, ih (i + 1) _ (by omega)]
    have hsub : len - i = rest.length + 1 := by omega
    simp only [hsub, renderRest, decide_eq_true_eq]
    by_cases hcond : i > 0 ∧ (rest.length + 1) % 3 = 0
    · simp [hcond, String.data_append, String.singleton]
    · simp [hcond, String.data_append, String.singleton]

theorem renderRest_append (l2 : List Char) (h2 : l2.length % 3 = 0) (l1 : List Char) :
    ∀ later : Bool, renderRest later (l1 ++ l2) =
      renderRest later l1 ++ renderRest (later || !l1.isEmpty) l2 := by
  induction l1 with
  | nil => intro later; simp [renderRest]
  | cons c rest ih =>
    intro later
    have hmod : (rest.length + l2.length + 1) % 3 = (rest.length + 1) % 3 := by omega
    simp [renderRest, hmod, ih true]

theorem renderRest_short (l : List Char) (h : l.length < 3) : renderRest true l = l := by
  induction l with
  | nil => rfl
  | cons c rest ih =>
    simp only [List.length_cons] at h
    have hmod : ¬ (rest.length + 1) % 3 = 0 := by omega
    simp [renderRest, hmod, ih (by omega)]

theorem renderRest_three (l : List Char) (h : l.length = 3) : renderRest true l = ',' :: l := by
  match l, h with
  | [a, b, c], _ => simp [renderRest]

theorem renderRest_eq_groupThousands (n : Nat) : ∀ l : List Char, l.length = n →
    renderRest false l = groupThousands l := by
  induction n using Nat.strong_induction_on with
  | _ n ih =>
    intro l hl
    rw [groupThousands]
    by_cases hshort : l.length ≤ 3
    · simp only [hshort, if_true]
      cases l with
      | nil => rfl
      | cons c rest =>
        simp only [List.length_cons] at hshort
        simp [renderRest, renderRest_short rest (by omega)]
    · simp only [hshort, if_false]
      have hsplit : l = l.take (l.length - 3) ++ l.drop (l.length - 3) :=
        (List.take_append_drop _ _).symm
      have hdrop : (l.drop (l.length - 3)).length = 3 := by
        rw [List.length_drop]; omega
      have htake : (l.take (l.length - 3)).length = l.length - 3 := by
        rw [List.length_take]; omega
      have hne : (l.take (l.length - 3)).isEmpty = false := by
        cases ht : l.take (l.length - 3) with
        | nil => rw [ht] at htake; simp only [List.length_nil] at htake; omega
        | cons a b => rfl
      conv_lhs => rw [hsplit]
      rw [renderRest_append _ (by omega), hne, ih _ (by omega) _ rfl,
        show (false || !false) = true from rfl, renderRest_three _ hdrop]

theorem filter_renderRest (l : List Char) (h : ',' ∉ l) :
    ∀ later : Bool, (renderRest later l).filter (fun c => c ≠ ',') = l := by
  induction l with
  | nil => intro later; rfl
  | cons c rest ih =>
    intro later
    have hc : c ≠ ',' := fun hc => h (hc ▸ List.mem_cons_self _ _)
    have hrest := ih (fun hm => h (List.mem_cons_of_mem _ hm)) true
    simp only [renderRest]
    split <;> simp [List.filter_cons, hc] <;> simpa using hrest

theorem digitChar_ne_comma (k : Nat) (hk : k < 10) : Nat.digitChar k ≠ ',' := by
  interval_cases k <;> decide

theorem toDigitsCore_no_comma (fuel : Nat) : ∀ n : Nat,
    ',' ∉ Nat.toDigitsCore 10 fuel n [] := by
  induction fuel with
  | zero => intro n; simp [Nat.toDigitsCore]
  | succ fuel ih =>
    intro n
    have hd := digitChar_ne_comma (n % 10) (Nat.mod_lt _ (by decide))
    simp only [Nat.toDigitsCore]
    split
    · simpa using hd.symm
    · rw [toDigitsCore_append]
      simp only [List.mem_append, List.mem_singleton, not_or]
      exact ⟨ih _, hd.symm⟩

theorem fmtInt_no_comma (n : Int) : ',' ∉ (fmtInt n).data := by
  unfold fmtInt
  split
  · simp only [String.data_append, List.mem_append, not_or]
    exact ⟨by decide, by rw [fmtD_data]; exact toDigitsCore_no_comma _ _⟩
  · rw [fmtD_data]; exact toDigitsCore_no_comma _ _

theorem formatNumber_data (n : Int) :
    (formatNumber n).data = renderRest false (fmtInt n).data := by
  unfold formatNumber
  by_cases hshort : (fmtInt n).length ≤ 3
  · simp only [hshort, if_true]
    have hlen : (fmtInt n).data.length ≤ 3 := hshort
    cases hd : (fmtInt n).data with
    | nil => rfl
    | cons c rest =>
      rw [hd] at hlen
      simp only [List.length_cons] at hlen
      simp [renderRest, renderRest_short rest (by omega)]
  · simp only [hshort, if_false]
    rw [formatNumberLoop_eq _ _ 0 "" (by rw [Nat.zero_add]; rfl)]
    simp

/-- C15, on the code: for `n >= 0`, `formatNumber(n)` is the decimal representation of `n`
with a comma between every two adjacent groups of three digits counted from the right; for
every `n`, removing the commas gives back the decimal representation. On a negative number
whose digits fill whole groups of three, however, a comma follows the minus sign:
`formatNumber(-123)` is `-,123` and `formatNumber(-123456)` is `-,123,456`. -/
theorem formatNumber_separators (n : Int) :
    (0 ≤ n → (formatNumber n).data = groupThousands (fmtD n.toNat).data) ∧
    (formatNumber n).data.filter (fun c => c ≠ ',') = (fmtInt n).data ∧
    formatNumber (-123) = "-,123" ∧
    formatNumber (-123456) = "-,123,456" ∧
    formatNumber 999 = "999" ∧
    formatNumber 1000 = "1,000" ∧
    formatNumber 1000000 = "1,000,000" := by
  refine ⟨?_, ?_, by decide, by decide, by decide, by decide, by decide⟩
  · intro h
    have hfmt : fmtInt n = fmtD n.toNat := by
      have : ¬ n < 0 := by omega
      simp [fmtInt, this]
    rw [formatNumber_data, hfmt]
    exact renderRest_eq_groupThousands _ _ rfl
  · rw [formatNumber_data]
    exact filter_renderRest _ (fmtInt_no_comma n) false

/-- An instance of `formatNumber_separators`: the separators of 1234567. -/
theorem formatNumber_separators_witness :
    (formatNumber 1234567).data = groupThousands (fmtD (1234567 : Int).toNat).data :=
  (formatNumber_separators 1234567).1 (by decide)

/-! ## The concurrent strategies -/

/-- The four ways in which an event changes the state of a concurrent strategy. -/
theorem ProjectRun.step_cases (slots : Nat)
    (work : SourceFile → GlobalSymbolTable → GoMap (List String) →
      SourceFile × GlobalSymbolTable × GoMap (List String))
    (s t : ProjectRun) (e : Event) (h : ProjectRun.step slots work s e = some t) :
    (∃ (i : Nat) (w : FileWorker) (ph : Phase), e = Event.worker i ∧ s.workers[i]? = some w ∧
      ((w.phase = Phase.waiting ∧ ph = Phase.running ∧ s.slotsHeld < slots) ∨
        (w.phase = Phase.counted ∧ ph = Phase.finished)) ∧
      t = { s with workers := s.workers.set i { w with phase := ph } }) ∨
    (∃ (i : Nat) (w : FileWorker), e = Event.worker i ∧ s.workers[i]? = some w ∧
      w.phase = Phase.running ∧
      t = { s with
        workers := s.workers.set i
          { file := (work w.file s.globalSymbols s.dependencies).1, phase := Phase.counted }
        processed := s.processed + 1
        globalSymbols := (work w.file s.globalSymbols s.dependencies).2.1
        dependencies := (work w.file s.globalSymbols s.dependencies).2.2
        calls := s.calls ++ [w.file] }) ∨
    (e = Event.tick ∧ s.stopped = false ∧
      t = { s with samples := s.samples ++ [s.processed] }) ∨
    (e = Event.done ∧ s.allFinished = true ∧ s.stopped = false ∧
      t = { s with stopped := true }) := by
  cases e with
  | worker i =>
    simp only [ProjectRun.step] at h
    cases hw : s.workers[i]? with
    | none => rw [hw] at h; simp at h
    | some w =>
      rw [hw] at h
      cases hp : w.phase with
      | waiting =>
        simp only [hp] at h
        split at h
        · rename_i hslots
          simp only [Option.some.injEq] at h
          exact Or.inl ⟨i, w, Phase.running, rfl, hw, Or.inl ⟨hp, rfl, hslots⟩, h.symm⟩
        · simp at h
      | running =>
        simp only [hp, Option.some.injEq] at h
        exact Or.inr (Or.inl ⟨i, w, rfl, hw, hp, h.symm⟩)
      | counted =>
        simp only [hp, Option.some.injEq] at h
        exact Or.inl ⟨i, w, Phase.finished, rfl, hw, Or.inr ⟨hp, rfl⟩, h.symm⟩
      | finished => simp [hp] at h
  | tick =>
    simp only [ProjectRun.step] at h
    cases hs : s.stopped with
    | true => simp [hs] at h
    | false =>
      simp only [hs, Bool.false_eq_true, if_false, Option.some.injEq] at h
      exact Or.inr (Or.inr (Or.inl ⟨rfl, rfl, h.symm⟩))
  | done =>
    simp only [ProjectRun.step] at h
    split at h
    · rename_i hcond
      simp only [Option.some.injEq] at h
      refine Or.inr (Or.inr (Or.inr ⟨rfl, hcond.1, ?_, h.symm⟩))
      cases hs : s.stopped with
      | true => exact absurd hs hcond.2
      | false => rfl
    · simp at h

theorem FileWorker.set_spec (l : List FileWorker) (i : Nat) (w x : FileWorker)
    (hw : l[i]? = some w) :
    ((l.set i x).map (fun w =>
        if w.phase = Phase.counted ∨ w.phase = Phase.finished then (1 : Int) else 0)).sum +
        (if w.phase = Phase.counted ∨ w.phase = Phase.finished then (1 : Int) else 0) =
      (l.map (fun w =>
        if w.phase = Phase.counted ∨ w.phase = Phase.finished then (1 : Int) else 0)).sum +
        (if x.phase = Phase.counted ∨ x.phase = Phase.finished then (1 : Int) else 0) ∧
    ((l.set i x).map (fun w => w.phase.stepsLeft)).sum + w.phase.stepsLeft =
      (l.map (fun w => w.phase.stepsLeft)).sum + x.phase.stepsLeft :=
  ⟨sum_map_set (fun w : FileWorker =>
      if w.phase = Phase.counted ∨ w.phase = Phase.finished then (1 : Int) else 0) l i w x hw,
    sum_map_set (fun w : FileWorker => w.phase.stepsLeft) l i w x hw⟩

theorem ProjectRun.completed_bounds (s : ProjectRun) :
    0 ≤ s.completed ∧ s.completed ≤ s.workers.length ∧
    (s.allFinished = true → s.completed = s.workers.length) := by
  unfold ProjectRun.completed ProjectRun.allFinished
  induction s.workers with
  | nil => simp
  | cons w ws ih =>
    obtain ⟨h1, h2, h3⟩ := ih
    simp only [List.map_cons, List.sum_cons, List.length_cons, List.all_cons,
      Bool.and_eq_true, decide_eq_true_eq]
    refine ⟨?_, ?_, ?_⟩
    · split <;> omega
    · push_cast; split <;> omega
    · rintro ⟨hw, hall⟩
      rw [h3 hall]
      simp only [hw, or_true, if_true]
      push_cast
      ring

/-- What one event does to the counter, to the goroutines and to the monitor. -/
theorem ProjectRun.step_spec (slots : Nat)
    (work : SourceFile → GlobalSymbolTable → GoMap (List String) →
      SourceFile × GlobalSymbolTable × GoMap (List String))
    (s t : ProjectRun) (e : Event) (h : ProjectRun.step slots work s e = some t) :
    t.processed - t.completed = s.processed - s.completed ∧
    t.workers.length = s.workers.length ∧
    (t.processed = s.processed ∨ t.processed = s.processed + 1) ∧
    (t.processed = s.processed + 1 ↔
      ∃ (i : Nat) (w : FileWorker), e = Event.worker i ∧ s.workers[i]? = some w ∧
        w.phase = Phase.running) ∧
    (t.samples = s.samples ∨ t.samples = s.samples ++ [s.processed]) ∧
    (t.stopped = true → s.stopped = true ∨ s.allFinished = true) ∧
    (s.allFinished = true → t.workers = s.workers) := by
  have e0 : Phase.stepsLeft Phase.waiting = 3 := rfl
  rcases ProjectRun.step_cases slots work s t e h with
    ⟨i, w, ph, rfl, hw, hph, rfl⟩ | ⟨i, w, rfl, hw, hp, rfl⟩ | ⟨rfl, hs, rfl⟩ |
    ⟨rfl, hfin, hs, rfl⟩
  · have hset := (FileWorker.set_spec s.workers i w { w with phase := ph } hw).1
    have hnot : w.phase ≠ Phase.running := by
      rcases hph with ⟨h1, _, _⟩ | ⟨h1, _⟩ <;> rw [h1] <;> decide
    have hnotfin : w.phase ≠ Phase.finished := by
      rcases hph with ⟨h1, _, _⟩ | ⟨h1, _⟩ <;> rw [h1] <;> decide
    refine ⟨?_, by simp, Or.inl rfl, ?_, Or.inl rfl, fun hst => Or.inl hst, ?_⟩
    · simp only [ProjectRun.completed]
      rcases hph with ⟨h1, h2, _⟩ | ⟨h1, h2⟩
      · subst h2
        rw [h1] at hset
        simp only [reduceCtorEq, or_self, if_false, add_zero] at hset
        rw [hset]
      · subst h2
        rw [h1] at hset
        simp only [reduceCtorEq, or_true, true_or, if_true, add_left_inj] at hset
        rw [hset]
    · constructor
      · intro hinc
        simp only at hinc
        omega
      · rintro ⟨j, w', hj, hw', hrun⟩
        simp only [Event.worker.injEq] at hj
        subst hj
        rw [hw] at hw'
        simp only [Option.some.injEq] at hw'
        subst hw'
        exact absurd hrun hnot
    · intro hall
      exfalso
      simp only [ProjectRun.allFinished, List.all_eq_true, decide_eq_true_eq] at hall
      exact hnotfin (hall w (List.mem_iff_getElem?.2 ⟨i, hw⟩))
  · have hset := (FileWorker.set_spec s.workers i w
      { file := (work w.file s.globalSymbols s.dependencies).1, phase := Phase.counted } hw).1
    rw [hp] at hset
    simp only [reduceCtorEq, or_self, if_false, add_zero, true_or, if_true] at hset
    refine ⟨?_, by simp, Or.inr rfl, ?_, Or.inl rfl, fun hst => Or.inl hst, ?_⟩
    · simp only [ProjectRun.completed]
      rw [hset]
      ring
    · exact ⟨fun _ => ⟨i, w, rfl, hw, hp⟩, fun _ => rfl⟩
    · intro hall
      exfalso
      simp only [ProjectRun.allFinished, List.all_eq_true, decide_eq_true_eq] at hall
      have := hall w (List.mem_iff_getElem?.2 ⟨i, hw⟩)
      rw [hp] at this
      exact Phase.noConfusion this
  · refine ⟨rfl, rfl, Or.inl rfl, ?_, Or.inr rfl, ?_, fun _ => rfl⟩
    · constructor
      · intro hinc
        simp only at hinc
        omega
      · rintro ⟨j, w', hj, _⟩
        exact Event.noConfusion hj
    · intro hst
      simp only at hst
      rw [hs] at hst
      exact Bool.noConfusion hst
  · refine ⟨rfl, rfl, Or.inl rfl, ?_, Or.inl rfl, fun _ => Or.inr hfin, fun _ => rfl⟩
    constructor
    · intro hinc
      simp only at hinc
      omega
    · rintro ⟨j, w', hj, _⟩
      exact Event.noConfusion hj

theorem ProjectRun.allFinished_congr (s t : ProjectRun) (h : t.workers = s.workers) :
    t.allFinished = s.allFinished := by
  simp only [ProjectRun.allFinished, h]

/-- The facts about the counter and the monitor that every event keeps. -/
theorem ProjectRun.step_invariant (slots : Nat)
    (work : SourceFile → GlobalSymbolTable → GoMap (List String) →
      SourceFile × GlobalSymbolTable × GoMap (List String))
    (s t : ProjectRun) (e : Event) (h : ProjectRun.step slots work s e = some t)
    (hinv : s.processed = s.completed ∧ (∀ x ∈ s.samples, 0 ≤ x ∧ x ≤ s.processed) ∧
      s.samples.Pairwise (fun a b => a ≤ b) ∧ (s.stopped = true → s.allFinished = true)) :
    (t.processed = t.completed ∧ (∀ x ∈ t.samples, 0 ≤ x ∧ x ≤ t.processed) ∧
      t.samples.Pairwise (fun a b => a ≤ b) ∧ (t.stopped = true → t.allFinished = true)) ∧
    t.workers.length = s.workers.length ∧ s.processed ≤ t.processed := by
  obtain ⟨i1, i2, i3, i4⟩ := hinv
  obtain ⟨h1, h2, h3, _, h5, h6, h7⟩ := ProjectRun.step_spec slots work s t e h
  have hnonneg : 0 ≤ s.processed := by rw [i1]; exact (ProjectRun.completed_bounds s).1
  have hle : s.processed ≤ t.processed := by rcases h3 with h3 | h3 <;> omega
  refine ⟨⟨by omega, ?_, ?_, ?_⟩, h2, hle⟩
  · intro x hx
    rcases h5 with h5 | h5
    · rw [h5] at hx
      have := i2 x hx
      exact ⟨this.1, by omega⟩
    · rw [h5, List.mem_append, List.mem_singleton] at hx
      rcases hx with hx | hx
      · have := i2 x hx
        exact ⟨this.1, by omega⟩
      · subst hx
        exact ⟨hnonneg, hle⟩
  · rcases h5 with h5 | h5
    · rw [h5]; exact i3
    · rw [h5, List.pairwise_append]
      refine ⟨i3, List.pairwise_singleton _ _, ?_⟩
      intro a ha b hb
      rw [List.mem_singleton] at hb
      subst hb
      exact (i2 a ha).2
  · intro hst
    have hfin : s.allFinished = true := by
      rcases h6 hst with h6 | h6
      · exact i4 h6
      · exact h6
    rw [ProjectRun.allFinished_congr s t (h7 hfin)]
    exact hfin

theorem ProjectRun.run_invariant (slots : Nat)
    (work : SourceFile → GlobalSymbolTable → GoMap (List String) →
      SourceFile × GlobalSymbolTable × GoMap (List String))
    (schedule : List Event) : ∀ (s t : ProjectRun),
    ProjectRun.run slots work s schedule = some t →
    (s.processed = s.completed ∧ (∀ x ∈ s.samples, 0 ≤ x ∧ x ≤ s.processed) ∧
      s.samples.Pairwise (fun a b => a ≤ b) ∧ (s.stopped = true → s.allFinished = true)) →
    (t.processed = t.completed ∧ (∀ x ∈ t.samples, 0 ≤ x ∧ x ≤ t.processed) ∧
      t.samples.Pairwise (fun a b => a ≤ b) ∧ (t.stopped = true → t.allFinished = true)) ∧
    t.workers.length = s.workers.length ∧ s.processed ≤ t.processed := by
  induction schedule with
  | nil =>
    intro s t h hinv
    simp only [ProjectRun.run, Option.some.injEq] at h
    subst h
    exact ⟨hinv, rfl, le_rfl⟩
  | cons e rest ih =>
    intro s t h hinv
    simp only [ProjectRun.run] at h
    cases hstep : ProjectRun.step slots work s e with
    | none => simp [hstep] at h
    | some u =>
      simp only [hstep] at h
      obtain ⟨k1, k2, k3⟩ := ProjectRun.step_invariant slots work s u e hstep hinv
      obtain ⟨j1, j2, j3⟩ := ih u t h k1
      exact ⟨j1, j2.trans k2, k3.trans j3⟩

theorem ProjectRun.start_invariant (project : LargeProject) :
    (ProjectRun.start project).processed = (ProjectRun.start project).completed ∧
    (∀ x ∈ (ProjectRun.start project).samples,
      0 ≤ x ∧ x ≤ (ProjectRun.start project).processed) ∧
    (ProjectRun.start project).samples.Pairwise (fun a b => a ≤ b) ∧
    ((ProjectRun.start project).stopped = true →
      (ProjectRun.start project).allFinished = true) := by
  refine ⟨?_, ?_, ?_, ?_⟩
  · simp only [ProjectRun.start, ProjectRun.completed, List.map_map]
    symm
    apply List.sum_eq_zero
    intro x hx
    simp only [List.mem_map, Function.comp] at hx
    obtain ⟨_, _, rfl⟩ := hx
    simp
  · intro x hx
    simp [ProjectRun.start] at hx
  · simp [ProjectRun.start]
  · intro h
    simp [ProjectRun.start] at h

theorem ProjectRun.run_concat (slots : Nat)
    (work : SourceFile → GlobalSymbolTable → GoMap (List String) →
      SourceFile × GlobalSymbolTable × GoMap (List String))
    (a b : List Event) : ∀ s : ProjectRun,
    ProjectRun.run slots work s (a ++ b) =
      (ProjectRun.run slots work s a).bind (fun t => ProjectRun.run slots work t b) := by
  induction a with
  | nil => intro s; rfl
  | cons e rest ih =>
    intro s
    simp only [List.cons_append, ProjectRun.run]
    cases ProjectRun.step slots work s e with
    | none => rfl
    | some u => exact ih u

/-- Every event of a goroutine, and the `done` signal, uses up one of the steps left. -/
theorem ProjectRun.step_stepsLeft (slots : Nat)
    (work : SourceFile → GlobalSymbolTable → GoMap (List String) →
      SourceFile × GlobalSymbolTable × GoMap (List String))
    (s t : ProjectRun) (e : Event) (h : ProjectRun.step slots work s e = some t)
    (hne : e ≠ Event.tick) : t.stepsLeft + 1 = s.stepsLeft := by
  have e0 : Phase.stepsLeft Phase.waiting = 3 := rfl
  have e1 : Phase.stepsLeft Phase.running = 2 := rfl
  have e2 : Phase.stepsLeft Phase.counted = 1 := rfl
  have e3 : Phase.stepsLeft Phase.finished = 0 := rfl
  rcases ProjectRun.step_cases slots work s t e h with
    ⟨i, w, ph, rfl, hw, hph, rfl⟩ | ⟨i, w, rfl, hw, hp, rfl⟩ | ⟨rfl, _, _⟩ |
    ⟨rfl, hfin, hs, rfl⟩
  · have hset := (FileWorker.set_spec s.workers i w { w with phase := ph } hw).2
    simp only [ProjectRun.stepsLeft]
    rcases hph with ⟨h1, h2, _⟩ | ⟨h1, h2⟩
    · subst h2
      rw [h1] at hset
      simp only [e0, e1] at hset
      omega
    · subst h2
      rw [h1] at hset
      simp only [e2, e3] at hset
      omega
  · have hset := (FileWorker.set_spec s.workers i w
      { file := (work w.file s.globalSymbols s.dependencies).1, phase := Phase.counted } hw).2
    simp only [ProjectRun.stepsLeft]
    rw [hp] at hset
    simp only [e1, e2] at hset
    omega
  · exact absurd rfl hne
  · simp only [ProjectRun.stepsLeft, hs, Bool.false_eq_true, if_false, if_true]

/-- While the monitor has not received `done`, a goroutine can move or `done` can be
sent. -/
theorem ProjectRun.some_event_enabled (slots : Nat) (hslots : 0 < slots)
    (work : SourceFile → GlobalSymbolTable → GoMap (List String) →
      SourceFile × GlobalSymbolTable × GoMap (List String))
    (s : ProjectRun) (h : ¬ (s.allFinished = true ∧ s.stopped = true)) :
    ∃ e t, e ≠ Event.tick ∧ ProjectRun.step slots work s e = some t := by
  cases hfin : s.allFinished with
  | true =>
    have hst : s.stopped = false := by
      cases hs : s.stopped with
      | false => rfl
      | true => exact absurd ⟨hfin, hs⟩ h
    exact ⟨Event.done, { s with stopped := true }, by decide, by
      simp [ProjectRun.step, hfin, hst]⟩
  | false =>
    by_cases hbusy : ∃ w ∈ s.workers, w.phase = Phase.running ∨ w.phase = Phase.counted
    · obtain ⟨w, hmem, hph⟩ := hbusy
      obtain ⟨i, hi⟩ := List.mem_iff_getElem?.1 hmem
      refine ⟨Event.worker i, ?_⟩
      simp only [ProjectRun.step, hi]
      rcases hph with hph | hph <;> simp [hph]
    · have hheld : s.slotsHeld = 0 := by
        simp only [ProjectRun.slotsHeld, List.length_eq_zero, List.filter_eq_nil_iff,
          decide_eq_true_eq]
        intro w hw hph
        exact hbusy ⟨w, hw, hph⟩
      have hex : ∃ w ∈ s.workers, w.phase ≠ Phase.finished := by
        by_contra hall
        simp only [not_exists, not_and, not_not] at hall
        have : s.allFinished = true := by
          simp only [ProjectRun.allFinished, List.all_eq_true, decide_eq_true_eq]
          exact hall
        rw [this] at hfin
        exact Bool.noConfusion hfin
      obtain ⟨w, hmem, hne⟩ := hex
      have hwait : w.phase = Phase.waiting := by
        cases hp : w.phase with
        | waiting => rfl
        | running => exact absurd ⟨w, hmem, Or.inl hp⟩ hbusy
        | counted => exact absurd ⟨w, hmem, Or.inr hp⟩ hbusy
        | finished => exact absurd hp hne
      obtain ⟨i, hi⟩ := List.mem_iff_getElem?.1 hmem
      refine ⟨Event.worker i, ?_⟩
      simp only [ProjectRun.step, hi]
      simp [hwait, hheld, hslots]

/-- From every state a concurrent strategy can be run until `done` has been received. -/
theorem ProjectRun.can_reach_done (slots : Nat) (hslots : 0 < slots)
    (work : SourceFile → GlobalSymbolTable → GoMap (List String) →
      SourceFile × GlobalSymbolTable × GoMap (List String))
    (n : Nat) : ∀ s : ProjectRun, s.stepsLeft = n → (s.stopped = true → s.allFinished = true) →
      ∃ rest t, ProjectRun.run slots work s rest = some t ∧ t.stopped = true := by
  induction n with
  | zero =>
    intro s hs hinv
    by_cases hdone : s.allFinished = true ∧ s.stopped = true
    · exact ⟨[], s, rfl, hdone.2⟩
    · obtain ⟨e, t, hne, ht⟩ := ProjectRun.some_event_enabled slots hslots work s hdone
      have := ProjectRun.step_stepsLeft slots work s t e ht hne
      omega
  | succ n ih =>
    intro s hs hinv
    by_cases hdone : s.allFinished = true ∧ s.stopped = true
    · exact ⟨[], s, rfl, hdone.2⟩
    · obtain ⟨e, t, hne, ht⟩ := ProjectRun.some_event_enabled slots hslots work s hdone
      have hsteps := ProjectRun.step_stepsLeft slots work s t e ht hne
      obtain ⟨_, _, _, _, _, h6, h7⟩ := ProjectRun.step_spec slots work s t e ht
      have hinv' : t.stopped = true → t.allFinished = true := by
        intro hst
        have hfin : s.allFinished = true := by
          rcases h6 hst with h6 | h6
          · exact hinv h6
          · exact h6
        rw [ProjectRun.allFinished_congr s t (h7 hfin)]
        exact hfin
      obtain ⟨rest, u, hrun, hu⟩ := ih t (by omega) hinv'
      refine ⟨e :: rest, u, ?_, hu⟩
      simp only [ProjectRun.run, ht]
      exact hrun

theorem FileWorker.files_after_set (l : List FileWorker) (i : Nat) (w x : FileWorker)
    (hw : l[i]? = some w) (hx : x.file = w.file) :
    (l.set i x).map FileWorker.file = l.map FileWorker.file := by
  induction l generalizing i with
  | nil => simp
  | cons y ys ih =>
    cases i with
    | zero =>
      simp only [List.getElem?_cons_zero, Option.some.injEq] at hw
      subst hw
      simp [hx]
    | succ i =>
      simp only [List.getElem?_cons_succ] at hw
      simp [ih i hw]

/-- With work that only reads, an event leaves the files, the registry and the dependency
map as they were. -/
theorem ProjectRun.step_frame (slots : Nat)
    (work : SourceFile → GlobalSymbolTable → GoMap (List String) →
      SourceFile × GlobalSymbolTable × GoMap (List String))
    (hwork : ∀ f g d, work f g d = (f, g, d))
    (s t : ProjectRun) (e : Event) (h : ProjectRun.step slots work s e = some t) :
    t.workers.map FileWorker.file = s.workers.map FileWorker.file ∧
    t.globalSymbols = s.globalSymbols ∧ t.dependencies = s.dependencies := by
  rcases ProjectRun.step_cases slots work s t e h with
    ⟨i, w, ph, rfl, hw, _, rfl⟩ | ⟨i, w, rfl, hw, _, rfl⟩ | ⟨rfl, _, rfl⟩ | ⟨rfl, _, _, rfl⟩
  · exact ⟨FileWorker.files_after_set _ _ w _ hw rfl, rfl, rfl⟩
  · exact ⟨FileWorker.files_after_set _ _ w _ hw (by simp [hwork]), by simp [hwork],
      by simp [hwork]⟩
  · exact ⟨rfl, rfl, rfl⟩
  · exact ⟨rfl, rfl, rfl⟩

theorem ProjectRun.run_frame (slots : Nat)
    (work : SourceFile → GlobalSymbolTable → GoMap (List String) →
      SourceFile × GlobalSymbolTable × GoMap (List String))
    (hwork : ∀ f g d, work f g d = (f, g, d)) (schedule : List Event) :
    ∀ (s t : ProjectRun), ProjectRun.run slots work s schedule = some t →
      t.workers.map FileWorker.file = s.workers.map FileWorker.file ∧
      t.globalSymbols = s.globalSymbols ∧ t.dependencies = s.dependencies := by
  induction schedule with
  | nil =>
    intro s t h
    simp only [ProjectRun.run, Option.some.injEq] at h
    subst h
    exact ⟨rfl, rfl, rfl⟩
  | cons e rest ih =>
    intro s t h
    simp only [ProjectRun.run] at h
    cases hstep : ProjectRun.step slots work s e with
    | none => simp [hstep] at h
    | some u =>
      simp only [hstep] at h
      obtain ⟨a1, a2, a3⟩ := ProjectRun.step_frame slots work hwork s u e hstep
      obtain ⟨b1, b2, b3⟩ := ih u t h
      exact ⟨b1.trans a1, b2.trans a2, b3.trans a3⟩

theorem ProjectRun.phaseLeft_set (s : ProjectRun) (i j : Nat) (w x : FileWorker)
    (hw : s.workers[i]? = some w) (t : ProjectRun) (ht : t.workers = s.workers.set i x) :
    t.phaseLeft j = if i = j then x.phase.stepsLeft else s.phaseLeft j := by
  have hi : i < s.workers.length := (List.getElem?_eq_some_iff.1 hw).1
  simp only [ProjectRun.phaseLeft, ht, List.getElem?_set]
  by_cases hij : i = j
  · subst hij
    simp [hi]
  · simp [hij]

/-- An event of goroutine `j` uses up one of its steps, any other event none of them. -/
theorem ProjectRun.step_phaseLeft (slots : Nat)
    (work : SourceFile → GlobalSymbolTable → GoMap (List String) →
      SourceFile × GlobalSymbolTable × GoMap (List String))
    (s t : ProjectRun) (e : Event) (h : ProjectRun.step slots work s e = some t) (j : Nat) :
    t.phaseLeft j + (if e = Event.worker j then 1 else 0) = s.phaseLeft j := by
  have e0 : Phase.stepsLeft Phase.waiting = 3 := rfl
  have e1 : Phase.stepsLeft Phase.running = 2 := rfl
  have e2 : Phase.stepsLeft Phase.counted = 1 := rfl
  have e3 : Phase.stepsLeft Phase.finished = 0 := rfl
  rcases ProjectRun.step_cases slots work s t e h with
    ⟨i, w, ph, rfl, hw, hph, rfl⟩ | ⟨i, w, rfl, hw, hp, rfl⟩ | ⟨rfl, _, rfl⟩ | ⟨rfl, _, _, rfl⟩
  · rw [ProjectRun.phaseLeft_set s i j w { w with phase := ph } hw _ rfl]
    by_cases hij : i = j
    · subst hij
      have hs : s.phaseLeft i = w.phase.stepsLeft := by simp [ProjectRun.phaseLeft, hw]
      simp only [if_true, hs]
      rcases hph with ⟨h1, h2, _⟩ | ⟨h1, h2⟩
      · rw [h1, h2, e0, e1]
      · rw [h1, h2, e2, e3]
    · have hne : Event.worker i ≠ Event.worker j := fun hc => hij (Event.worker.inj hc)
      simp [hij, hne]
  · rw [ProjectRun.phaseLeft_set s i j w
      { file := (work w.file s.globalSymbols s.dependencies).1, phase := Phase.counted } hw _ rfl]
    by_cases hij : i = j
    · subst hij
      have hs : s.phaseLeft i = w.phase.stepsLeft := by simp [ProjectRun.phaseLeft, hw]
      simp only [if_true, hs]
      rw [hp, e1, e2]
    · have hne : Event.worker i ≠ Event.worker j := fun hc => hij (Event.worker.inj hc)
      simp [hij, hne]
  · simp [ProjectRun.phaseLeft]
  · simp [ProjectRun.phaseLeft]

theorem ProjectRun.run_phaseLeft (slots : Nat)
    (work : SourceFile → GlobalSymbolTable → GoMap (List String) →
      SourceFile × GlobalSymbolTable × GoMap (List String))
    (schedule : List Event) (j : Nat) :
    ∀ (s t : ProjectRun), ProjectRun.run slots work s schedule = some t →
      t.phaseLeft j + schedule.count (Event.worker j) = s.phaseLeft j := by
  induction schedule with
  | nil =>
    intro s t h
    simp only [ProjectRun.run, Option.some.injEq] at h
    subst h
    simp
  | cons e rest ih =>
    intro s t h
    simp only [ProjectRun.run] at h
    cases hstep : ProjectRun.step slots work s e with
    | none => simp [hstep] at h
    | some u =>
      simp only [hstep] at h
      have h1 := ProjectRun.step_phaseLeft slots work s u e hstep j
      have h2 := ih u t h
      rw [List.count_cons]
      simp only [beq_iff_eq]
      omega

theorem ProjectRun.phaseLeft_start (project : LargeProject) (j : Nat)
    (hj : j < project.Files.length) : (ProjectRun.start project).phaseLeft j = 3 := by
  simp [ProjectRun.phaseLeft, ProjectRun.start, List.getElem?_map,
    List.getElem?_eq_getElem hj, Phase.stepsLeft]

theorem ProjectRun.phaseLeft_of_allFinished (s : ProjectRun) (h : s.allFinished = true)
    (j : Nat) : s.phaseLeft j = 0 := by
  simp only [ProjectRun.allFinished, List.all_eq_true, decide_eq_true_eq] at h
  simp only [ProjectRun.phaseLeft]
  cases hw : s.workers[j]? with
  | none => rfl
  | some w =>
    simp only
    rw [h w (List.mem_iff_getElem?.2 ⟨j, hw⟩)]
    rfl

theorem basicWork_eq (f : SourceFile) (g : GlobalSymbolTable) (d : GoMap (List String)) :
    basicWork f g d = (f, g, d) := by
  simp [basicWork, processFile_eq]

theorem processFileWithDependencies_eq (f : SourceFile) (g : GlobalSymbolTable)
    (d : GoMap (List String)) : processFileWithDependencies f g d = (f, g, d) := by
  unfold processFileWithDependencies
  simp only [processFile_eq]
  cases d.get f.Path with
  | none => simp only [checkIncrementalChanges_eq]
  | some dependencies => simp only [foldl_const, checkIncrementalChanges_eq]

theorem processProjectSingleThread_eq (project : LargeProject) (clock : Clock) :
    processProjectSingleThread project clock =
      (clock.readings (clock.taken + 1) - clock.readings clock.taken, project,
        { clock with taken := clock.taken + 2 }, project.Files) := by
  have hfold : ∀ (files : List SourceFile) (acc calls : List SourceFile),
      files.foldl
        (fun (st : List SourceFile × GlobalSymbolTable × List SourceFile) file =>
          (st.1 ++ [file], st.2.1, st.2.2 ++ [file]))
        (acc, project.GlobalSymbols, calls) =
          (acc ++ files, project.GlobalSymbols, calls ++ files) := by
    intro files
    induction files with
    | nil => intro acc calls; simp
    | cons f fs ih =>
      intro acc calls
      simp only [List.foldl_cons]
      rw [ih]
      simp
  simp only [processProjectSingleThread, processFile_eq, hfold, List.nil_append, Clock.now]

theorem ProjectRun.start_workers (project : LargeProject) :
    (ProjectRun.start project).workers.map FileWorker.file = project.Files ∧
    (ProjectRun.start project).workers.length = project.Files.length := by
  simp [ProjectRun.start, Function.comp_def]

/-- What holds when a concurrent strategy has received `done`, for work that only reads. -/
theorem ProjectRun.finished_spec (project : LargeProject) (slots : Nat)
    (work : SourceFile → GlobalSymbolTable → GoMap (List String) →
      SourceFile × GlobalSymbolTable × GoMap (List String))
    (schedule : List Event) (s : ProjectRun)
    (hrun : ProjectRun.run slots work (ProjectRun.start project) schedule = some s)
    (hst : s.stopped = true) :
    s.processed = project.Files.length ∧
    ∀ i < project.Files.length, schedule.count (Event.worker i) = 3 := by
  obtain ⟨⟨i1, _, _, i4⟩, hlen, _⟩ :=
    ProjectRun.run_invariant slots work schedule _ s hrun (ProjectRun.start_invariant project)
  have hfin := i4 hst
  constructor
  · rw [i1, (ProjectRun.completed_bounds s).2.2 hfin, hlen, (ProjectRun.start_workers project).2]
  · intro i hi
    have := ProjectRun.run_phaseLeft slots work schedule i _ s hrun
    rw [ProjectRun.phaseLeft_start project i hi,
      ProjectRun.phaseLeft_of_allFinished s hfin i] at this
    omega

theorem processProjectConcurrent_spec (project : LargeProject) (slots : Nat)
    (work : SourceFile → GlobalSymbolTable → GoMap (List String) →
      SourceFile × GlobalSymbolTable × GoMap (List String))
    (hwork : ∀ f g d, work f g d = (f, g, d))
    (schedule : List Event) (s : ProjectRun)
    (hrun : ProjectRun.run slots work (ProjectRun.start project) schedule = some s)
    (hst : s.stopped = true) :
    s.processed = project.Files.length ∧
    s.workers.map FileWorker.file = project.Files ∧
    s.globalSymbols = project.GlobalSymbols ∧
    s.dependencies = project.Dependencies ∧
    ∀ i < project.Files.length, schedule.count (Event.worker i) = 3 := by
  obtain ⟨h1, h2⟩ := ProjectRun.finished_spec project slots work schedule s hrun hst
  obtain ⟨f1, f2, f3⟩ := ProjectRun.run_frame slots work hwork schedule _ s hrun
  exact ⟨h1, f1.trans (ProjectRun.start_workers project).1, f2, f3, h2⟩

/-- C11 fails as stated: what `processProjectSingleThread` returns tells neither how many
files were processed nor how many nodes were visited, for it returns the same duration on a
project without files and on a project of one file with a one-node tree. -/
theorem strategies_report_no_counts :
    ¬ ∃ (filesProcessed totalNodesVisited : Int → Int),
      ∀ (project : LargeProject) (clock : Clock),
        filesProcessed (processProjectSingleThread project clock).1 = project.Files.length ∧
        totalNodesVisited (processProjectSingleThread project clock).1 =
          (project.Files.map (fun f => visitNodeComplex f.AST)).sum := by
  rintro ⟨filesProcessed, totalNodesVisited, h⟩
  have hA := (h
    { Files := []
      GlobalSymbols := { symbols := GoMap.make, types := GoMap.make }
      Dependencies := GoMap.make }
    { readings := fun i => 1000 * i, taken := 0 }).1
  have hB := (h
    { Files := [{ Path := "src/file_0.ts", Content := [],
                  AST := some (ASTNode.mk 0 5 "node_0" [] none), Symbols := [], Size := 0 }]
      GlobalSymbols := { symbols := GoMap.make, types := GoMap.make }
      Dependencies := GoMap.make }
    { readings := fun i => 1000 * i, taken := 0 }).1
  rw [processProjectSingleThread_eq] at hA hB
  simp only [List.length_nil, List.length_singleton] at hA hB
  rw [hA] at hB
  exact absurd hB (by decide)

/-! ## The calls of the work in a concurrent strategy -/

theorem FileWorker.pending_set_same (l : List FileWorker) (i : Nat) (w x : FileWorker)
    (hw : l[i]? = some w)
    (hp : (x.phase = Phase.waiting ∨ x.phase = Phase.running) ↔
      (w.phase = Phase.waiting ∨ w.phase = Phase.running))
    (hf : x.file = w.file) :
    ((l.set i x).filter (fun w => w.phase = Phase.waiting ∨ w.phase = Phase.running)).map
        FileWorker.file =
      (l.filter (fun w => w.phase = Phase.waiting ∨ w.phase = Phase.running)).map
        FileWorker.file := by
  induction l generalizing i with
  | nil => simp
  | cons y ys ih =>
    cases i with
    | zero =>
      simp only [List.getElem?_cons_zero, Option.some.injEq] at hw
      subst hw
      simp only [List.set_cons_zero, List.filter_cons]
      by_cases hy : y.phase = Phase.waiting ∨ y.phase = Phase.running
      · simp [hy, hp.2 hy, hf]
      · have hx : ¬ (x.phase = Phase.waiting ∨ x.phase = Phase.running) := fun h => hy (hp.1 h)
        simp [hy, hx]
    | succ i =>
      simp only [List.getElem?_cons_succ] at hw
      have h' := ih i hw
      simp only [List.set_cons_succ, List.filter_cons]
      split
      · simp only [List.map_cons, h']
      · exact h'

theorem FileWorker.pending_set_called (l : List FileWorker) (i : Nat) (w x : FileWorker)
    (hw : l[i]? = some w) (hpw : w.phase = Phase.running) (hpx : x.phase = Phase.counted) :
    ((l.filter (fun w => w.phase = Phase.waiting ∨ w.phase = Phase.running)).map
        FileWorker.file).Perm
      (w.file ::
        ((l.set i x).filter (fun w => w.phase = Phase.waiting ∨ w.phase = Phase.running)).map
          FileWorker.file) := by
  induction l generalizing i with
  | nil => simp at hw
  | cons y ys ih =>
    cases i with
    | zero =>
      simp only [List.getElem?_cons_zero, Option.some.injEq] at hw
      subst hw
      simp [List.filter_cons, hpw, hpx]
    | succ i =>
      simp only [List.getElem?_cons_succ] at hw
      simp only [List.set_cons_succ, List.filter_cons]
      split
      · simp only [List.map_cons]
        exact ((ih i hw).cons _).trans (List.Perm.swap _ _ _)
      · exact ih i hw

/-- Every event keeps the files called so far together with the files still to be called:
a file moves from the second list to the first when its goroutine calls the work. -/
theorem ProjectRun.step_calls (slots : Nat)
    (work : SourceFile → GlobalSymbolTable → GoMap (List String) →
      SourceFile × GlobalSymbolTable × GoMap (List String))
    (s t : ProjectRun) (e : Event) (h : ProjectRun.step slots work s e = some t) :
    (t.calls ++ t.pending).Perm (s.calls ++ s.pending) ∧
    (t.calls.length : Int) - t.processed = s.calls.length - s.processed := by
  rcases ProjectRun.step_cases slots work s t e h with
    ⟨i, w, ph, rfl, hw, hph, rfl⟩ | ⟨i, w, rfl, hw, hp, rfl⟩ | ⟨rfl, _, rfl⟩ | ⟨rfl, _, _, rfl⟩
  · refine ⟨?_, rfl⟩
    simp only [ProjectRun.pending]
    rw [FileWorker.pending_set_same s.workers i w { w with phase := ph } hw ?_ rfl]
    rcases hph with ⟨h1, h2, _⟩ | ⟨h1, h2⟩
    · subst h2; simp [h1]
    · subst h2; simp [h1]
  · constructor
    · simp only [ProjectRun.pending, List.append_assoc, List.singleton_append]
      exact List.Perm.append_left _
        (FileWorker.pending_set_called s.workers i w _ hw hp rfl).symm
    · simp only [List.length_append, List.length_singleton]
      push_cast
      ring
  · exact ⟨List.Perm.refl _, rfl⟩
  · exact ⟨List.Perm.refl _, rfl⟩

theorem ProjectRun.run_calls (slots : Nat)
    (work : SourceFile → GlobalSymbolTable → GoMap (List String) →
      SourceFile × GlobalSymbolTable × GoMap (List String))
    (schedule : List Event) :
    ∀ (s t : ProjectRun), ProjectRun.run slots work s schedule = some t →
      (t.calls ++ t.pending).Perm (s.calls ++ s.pending) ∧
      (t.calls.length : Int) - t.processed = s.calls.length - s.processed := by
  induction schedule with
  | nil =>
    intro s t h
    simp only [ProjectRun.run, Option.some.injEq] at h
    subst h
    exact ⟨List.Perm.refl _, rfl⟩
  | cons e rest ih =>
    intro s t h
    simp only [ProjectRun.run] at h
    cases hstep : ProjectRun.step slots work s e with
    | none => simp [hstep] at h
    | some u =>
      simp only [hstep] at h
      obtain ⟨a1, a2⟩ := ProjectRun.step_calls slots work s u e hstep
      obtain ⟨b1, b2⟩ := ih u t h
      exact ⟨b1.trans a1, b2.trans a2⟩

theorem ProjectRun.pending_start (project : LargeProject) :
    (ProjectRun.start project).calls = [] ∧
    (ProjectRun.start project).pending = project.Files := by
  refine ⟨rfl, ?_⟩
  simp only [ProjectRun.pending, ProjectRun.start]
  induction project.Files with
  | nil => rfl
  | cons f fs ih =>
    simp only [List.map_cons, List.filter_cons, true_or, decide_True, if_true]
    rw [ih]

theorem ProjectRun.pending_of_allFinished (s : ProjectRun) (h : s.allFinished = true) :
    s.pending = [] := by
  simp only [ProjectRun.allFinished, List.all_eq_true, decide_eq_true_eq] at h
  simp only [ProjectRun.pending, List.map_eq_nil_iff, List.filter_eq_nil_iff,
    decide_eq_true_eq]
  intro w hw
  rw [h w hw]
  decide

/-- The files called in a run of a concurrent strategy: as many as the counter says, and
once the run is over every file of the project exactly once. -/
theorem ProjectRun.calls_spec (project : LargeProject) (slots : Nat)
    (work : SourceFile → GlobalSymbolTable → GoMap (List String) →
      SourceFile × GlobalSymbolTable × GoMap (List String))
    (schedule : List Event) (s : ProjectRun)
    (hrun : ProjectRun.run slots work (ProjectRun.start project) schedule = some s) :
    (s.calls.length : Int) = s.processed ∧
    (s.calls ++ s.pending).Perm project.Files ∧
    (s.allFinished = true → s.calls.Perm project.Files) := by
  obtain ⟨h1, h2⟩ := ProjectRun.run_calls slots work schedule _ s hrun
  obtain ⟨c0, p0⟩ := ProjectRun.pending_start project
  rw [c0, p0, List.nil_append] at h1
  have hzero : (ProjectRun.start project).processed = 0 := rfl
  rw [c0, hzero] at h2
  simp only [List.length_nil, Nat.cast_zero, sub_zero] at h2
  refine ⟨by omega, h1, ?_⟩
  intro hfin
  rw [ProjectRun.pending_of_allFinished s hfin, List.append_nil] at h1
  exact h1

/-! ## The strategies and their counter -/

/-- From every state reached by a concurrent strategy the run can be continued until `done`
has been received, and then the counter equals the number of files. -/
theorem ProjectRun.reaches_total (project : LargeProject) (slots : Nat) (hslots : 0 < slots)
    (work : SourceFile → GlobalSymbolTable → GoMap (List String) →
      SourceFile × GlobalSymbolTable × GoMap (List String))
    (schedule : List Event) (s : ProjectRun)
    (hrun : ProjectRun.run slots work (ProjectRun.start project) schedule = some s) :
    ∃ (rest : List Event) (t : ProjectRun),
      ProjectRun.run slots work s rest = some t ∧
      ProjectRun.run slots work (ProjectRun.start project) (schedule ++ rest) = some t ∧
      t.stopped = true ∧ t.processed = project.Files.length := by
  obtain ⟨⟨_, _, _, i4⟩, _, _⟩ :=
    ProjectRun.run_invariant slots work schedule _ s hrun (ProjectRun.start_invariant project)
  obtain ⟨rest, t, hrest, hst⟩ := ProjectRun.can_reach_done slots hslots work _ s rfl i4
  have hall : ProjectRun.run slots work (ProjectRun.start project) (schedule ++ rest) =
      some t := by
    rw [ProjectRun.run_concat, hrun]
    exact hrest
  exact ⟨rest, t, hrest, hall, hst,
    (ProjectRun.finished_spec project slots work (schedule ++ rest) t hall hst).1⟩

/-- C12: in a concurrent strategy the counter `processed` starts at 0, is the number of
goroutines that have completed their file, lies between 0 and the number of files, is
raised by an event by exactly one or not at all, by one exactly when a goroutine completes
its file, and never decreases; the values that the monitor reads are non-decreasing and
within the same bounds; once the wait group has been passed and `done` has been received,
the counter equals the number of files, and with at least one slot every run that was
begun does go on to that point. `processProjectConcurrent` is this run with `NumCPU` slots
and `processFile`, `processProjectHighConcurrency` the one with `4 * NumCPU` slots and
`processFileWithDependencies`; both return, with the counter at the number of files. -/
theorem processed_counter_monotone (project : LargeProject) (slots : Nat)
    (work : SourceFile → GlobalSymbolTable → GoMap (List String) →
      SourceFile × GlobalSymbolTable × GoMap (List String))
    (schedule : List Event) (s : ProjectRun)
    (hrun : ProjectRun.run slots work (ProjectRun.start project) schedule = some s) :
    (ProjectRun.start project).processed = 0 ∧
    0 ≤ s.processed ∧ s.processed ≤ project.Files.length ∧
    s.processed = s.completed ∧
    (∀ (e : Event) (t : ProjectRun), ProjectRun.step slots work s e = some t →
      (t.processed = s.processed ∨ t.processed = s.processed + 1) ∧
      (t.processed = s.processed + 1 ↔
        ∃ (i : Nat) (w : FileWorker), e = Event.worker i ∧ s.workers[i]? = some w ∧
          w.phase = Phase.running)) ∧
    (∀ (rest : List Event) (u : ProjectRun), ProjectRun.run slots work s rest = some u →
      s.processed ≤ u.processed) ∧
    s.samples.Pairwise (fun a b => a ≤ b) ∧
    (∀ x ∈ s.samples, 0 ≤ x ∧ x ≤ project.Files.length) ∧
    (s.stopped = true → s.processed = project.Files.length) ∧
    (∀ (numCPU : Nat) (clock : Clock) (r : Int × ProjectRun × Clock),
      processProjectConcurrent project numCPU clock schedule = some r →
        r.2.1.processed = project.Files.length) ∧
    (∀ (numCPU : Nat) (clock : Clock) (r : Int × ProjectRun × Clock),
      processProjectHighConcurrency project numCPU clock schedule = some r →
        r.2.1.processed = project.Files.length) ∧
    (s.calls.length : Int) = s.processed ∧
    (0 < slots → ∃ (rest : List Event) (t : ProjectRun),
      ProjectRun.run slots work s rest = some t ∧ t.stopped = true ∧
      t.processed = project.Files.length) ∧
    (∀ (numCPU : Nat) (clock : Clock), 0 < numCPU →
      ∃ (complete : List Event) (r : Int × ProjectRun × Clock),
        processProjectConcurrent project numCPU clock complete = some r ∧
        r.2.1.processed = project.Files.length) ∧
    (∀ (numCPU : Nat) (clock : Clock), 0 < numCPU →
      ∃ (complete : List Event) (r : Int × ProjectRun × Clock),
        processProjectHighConcurrency project numCPU clock complete = some r ∧
        r.2.1.processed = project.Files.length) := by
  obtain ⟨⟨i1, i2, i3, i4⟩, hlen, _⟩ :=
    ProjectRun.run_invariant slots work schedule _ s hrun (ProjectRun.start_invariant project)
  obtain ⟨b1, b2, _⟩ := ProjectRun.completed_bounds s
  have hn : s.workers.length = project.Files.length :=
    hlen.trans (ProjectRun.start_workers project).2
  have hle : s.processed ≤ project.Files.length := by
    rw [i1, ← hn]; exact b2
  refine ⟨rfl, by omega, hle, i1, ?_, ?_, i3, ?_, ?_, ?_, ?_,
    (ProjectRun.calls_spec project slots work schedule s hrun).1, ?_, ?_, ?_⟩
  · intro e t ht
    obtain ⟨_, _, h3, h4, _⟩ := ProjectRun.step_spec slots work s t e ht
    exact ⟨h3, h4⟩
  · intro rest u hu
    exact (ProjectRun.run_invariant slots work rest s u hu ⟨i1, i2, i3, i4⟩).2.2
  · intro x hx
    have := i2 x hx
    exact ⟨this.1, by omega⟩
  · intro hst
    exact (ProjectRun.finished_spec project slots work schedule s hrun hst).1
  · intro numCPU clock r hr
    unfold processProjectConcurrent at hr
    cases hc : ProjectRun.run numCPU basicWork (ProjectRun.start project) schedule with
    | none => simp [hc] at hr
    | some t =>
      simp only [hc] at hr
      cases hst : t.stopped with
      | false => simp [hst] at hr
      | true =>
        simp only [hst, if_true, Option.some.injEq] at hr
        rw [← hr]
        exact (ProjectRun.finished_spec project numCPU basicWork schedule t hc hst).1
  · intro numCPU clock r hr
    unfold processProjectHighConcurrency at hr
    cases hc : ProjectRun.run (numCPU * 4) processFileWithDependencies
        (ProjectRun.start project) schedule with
    | none => simp [hc] at hr
    | some t =>
      simp only [hc] at hr
      cases hst : t.stopped with
      | false => simp [hst] at hr
      | true =>
        simp only [hst, if_true, Option.some.injEq] at hr
        rw [← hr]
        exact (ProjectRun.finished_spec project (numCPU * 4) processFileWithDependencies
          schedule t hc hst).1
  · intro hslots
    obtain ⟨rest, t, hrest, _, hst, htot⟩ :=
      ProjectRun.reaches_total project slots hslots work schedule s hrun
    exact ⟨rest, t, hrest, hst, htot⟩
  · intro numCPU clock hcpu
    obtain ⟨rest, t, _, hall, hst, htot⟩ :=
      ProjectRun.reaches_total project numCPU hcpu basicWork [] _ rfl
    exact ⟨[] ++ rest, (clock.now.2.now.1 - clock.now.1, t, clock.now.2.now.2), by
      simp only [processProjectConcurrent, hall, hst, if_true], htot⟩
  · intro numCPU clock hcpu
    obtain ⟨rest, t, _, hall, hst, htot⟩ :=
      ProjectRun.reaches_total project (numCPU * 4) (by omega) processFileWithDependencies
        [] _ rfl
    exact ⟨[] ++ rest, (clock.now.2.now.1 - clock.now.1, t, clock.now.2.now.2), by
      simp only [processProjectHighConcurrency, hall, hst, if_true], htot⟩

/-- An instance of `processed_counter_monotone`: a project of two files on one slot, run to
the end with the monitor reading the counter in between; the counter ends at 2. -/
theorem processed_counter_monotone_witness :
    ∃ s : ProjectRun,
      ProjectRun.run 1 basicWork
        (ProjectRun.start
          { Files :=
              [{ Path := "src/file_0.ts", Content := [], AST := none, Symbols := [], Size := 0 },
               { Path := "src/file_1.ts", Content := [], AST := none, Symbols := [], Size := 0 }]
            GlobalSymbols := { symbols := GoMap.make, types := GoMap.make }
            Dependencies := GoMap.make })
        [Event.worker 0, Event.tick, Event.worker 0, Event.tick, Event.worker 0,
          Event.worker 1, Event.worker 1, Event.worker 1, Event.tick, Event.done] = some s ∧
      s.stopped = true ∧ s.samples = [0, 1, 2] ∧ s.processed = 2 :=
  ⟨_, rfl, rfl, rfl,
    (processed_counter_monotone
      { Files :=
          [{ Path := "src/file_0.ts", Content := [], AST := none, Symbols := [], Size := 0 },
           { Path := "src/file_1.ts", Content := [], AST := none, Symbols := [], Size := 0 }]
        GlobalSymbols := { symbols := GoMap.make, types := GoMap.make }
        Dependencies := GoMap.make }
      1 basicWork
      [Event.worker 0, Event.tick, Event.worker 0, Event.tick, Event.worker 0,
        Event.worker 1, Event.worker 1, Event.worker 1, Event.tick, Event.done]
      _ rfl).2.2.2.2.2.2.2.2.1 rfl⟩

theorem processProjectConcurrent_calls (project : LargeProject) (slots : Nat)
    (work : SourceFile → GlobalSymbolTable → GoMap (List String) →
      SourceFile × GlobalSymbolTable × GoMap (List String))
    (schedule : List Event) (s : ProjectRun)
    (hrun : ProjectRun.run slots work (ProjectRun.start project) schedule = some s)
    (hst : s.stopped = true) : s.calls.Perm project.Files := by
  obtain ⟨⟨_, _, _, i4⟩, _, _⟩ :=
    ProjectRun.run_invariant slots work schedule _ s hrun (ProjectRun.start_invariant project)
  exact (ProjectRun.calls_spec project slots work schedule s hrun).2.2 (i4 hst)

/-- C11, as the code has it: each of the three strategies returns the elapsed duration
and nothing else, the difference of two readings of the clock. The serial strategy calls
`processFile` on every file of the project once, in file order, and leaves the project as
it was. In the two concurrent strategies, when the function returns, the counter
`processed` equals the number of files, every goroutine has made its three steps once
(admission, processing of its file, release), the work was called on every file of the
project exactly once, in some order, and the files, the registry and the dependency map
are as they were; with at least one CPU both do run to their return. -/
theorem strategies_return_duration (project : LargeProject) (numCPU : Nat) (clock : Clock) :
    processProjectSingleThread project clock =
      (clock.readings (clock.taken + 1) - clock.readings clock.taken, project,
        { clock with taken := clock.taken + 2 }, project.Files) ∧
    (∀ (schedule : List Event) (r : Int × ProjectRun × Clock),
      processProjectConcurrent project numCPU clock schedule = some r →
        r.1 = clock.readings (clock.taken + 1) - clock.readings clock.taken ∧
        r.2.1.processed = project.Files.length ∧
        r.2.1.workers.map FileWorker.file = project.Files ∧
        r.2.1.globalSymbols = project.GlobalSymbols ∧
        r.2.1.dependencies = project.Dependencies ∧
        ∀ i < project.Files.length, schedule.count (Event.worker i) = 3) ∧
    (∀ (schedule : List Event) (r : Int × ProjectRun × Clock),
      processProjectHighConcurrency project numCPU clock schedule = some r →
        r.1 = clock.readings (clock.taken + 1) - clock.readings clock.taken ∧
        r.2.1.processed = project.Files.length ∧
        r.2.1.workers.map FileWorker.file = project.Files ∧
        r.2.1.globalSymbols = project.GlobalSymbols ∧
        r.2.1.dependencies = project.Dependencies ∧
        ∀ i < project.Files.length, schedule.count (Event.worker i) = 3) ∧
    (0 < numCPU →
      (∃ schedule r, processProjectConcurrent project numCPU clock schedule = some r) ∧
      (∃ schedule r, processProjectHighConcurrency project numCPU clock schedule = some r)) ∧
    (processProjectSingleThread project clock).2.2.2 = project.Files ∧
    (∀ (schedule : List Event) (r : Int × ProjectRun × Clock),
      processProjectConcurrent project numCPU clock schedule = some r →
        r.2.1.calls.Perm project.Files) ∧
    (∀ (schedule : List Event) (r : Int × ProjectRun × Clock),
      processProjectHighConcurrency project numCPU clock schedule = some r →
        r.2.1.calls.Perm project.Files) := by
  have hconc : ∀ (schedule : List Event) (r : Int × ProjectRun × Clock),
      processProjectConcurrent project numCPU clock schedule = some r →
        ProjectRun.run numCPU basicWork (ProjectRun.start project) schedule = some r.2.1 ∧
        r.2.1.stopped = true ∧
        r.1 = clock.readings (clock.taken + 1) - clock.readings clock.taken := by
    intro schedule r hr
    unfold processProjectConcurrent at hr
    cases hc : ProjectRun.run numCPU basicWork (ProjectRun.start project) schedule with
    | none => simp [hc] at hr
    | some t =>
      simp only [hc] at hr
      cases hst : t.stopped with
      | false => simp [hst] at hr
      | true =>
        simp only [hst, if_true, Option.some.injEq] at hr
        rw [← hr]
        exact ⟨rfl, hst, rfl⟩
  have hhigh : ∀ (schedule : List Event) (r : Int × ProjectRun × Clock),
      processProjectHighConcurrency project numCPU clock schedule = some r →
        ProjectRun.run (numCPU * 4) processFileWithDependencies (ProjectRun.start project)
          schedule = some r.2.1 ∧
        r.2.1.stopped = true ∧
        r.1 = clock.readings (clock.taken + 1) - clock.readings clock.taken := by
    intro schedule r hr
    unfold processProjectHighConcurrency at hr
    cases hc : ProjectRun.run (numCPU * 4) processFileWithDependencies
        (ProjectRun.start project) schedule with
    | none => simp [hc] at hr
    | some t =>
      simp only [hc] at hr
      cases hst : t.stopped with
      | false => simp [hst] at hr
      | true =>
        simp only [hst, if_true, Option.some.injEq] at hr
        rw [← hr]
        exact ⟨rfl, hst, rfl⟩
  refine ⟨processProjectSingleThread_eq project clock, ?_, ?_, ?_, ?_, ?_, ?_⟩
  · intro schedule r hr
    obtain ⟨hrun, hst, hdur⟩ := hconc schedule r hr
    exact ⟨hdur, processProjectConcurrent_spec project numCPU basicWork basicWork_eq
      schedule r.2.1 hrun hst⟩
  · intro schedule r hr
    obtain ⟨hrun, hst, hdur⟩ := hhigh schedule r hr
    exact ⟨hdur, processProjectConcurrent_spec project (numCPU * 4)
      processFileWithDependencies processFileWithDependencies_eq schedule r.2.1 hrun hst⟩
  · intro hcpu
    constructor
    · obtain ⟨rest, t, _, hall, hst, _⟩ :=
        ProjectRun.reaches_total project numCPU hcpu basicWork [] _ rfl
      exact ⟨[] ++ rest, (clock.now.2.now.1 - clock.now.1, t, clock.now.2.now.2), by
        simp only [processProjectConcurrent, hall, hst, if_true]⟩
    · obtain ⟨rest, t, _, hall, hst, _⟩ :=
        ProjectRun.reaches_total project (numCPU * 4) (by omega) processFileWithDependencies
          [] _ rfl
      exact ⟨[] ++ rest, (clock.now.2.now.1 - clock.now.1, t, clock.now.2.now.2), by
        simp only [processProjectHighConcurrency, hall, hst, if_true]⟩
  · rw [processProjectSingleThread_eq]
  · intro schedule r hr
    obtain ⟨hrun, hst, _⟩ := hconc schedule r hr
    exact processProjectConcurrent_calls project numCPU basicWork schedule r.2.1 hrun hst
  · intro schedule r hr
    obtain ⟨hrun, hst, _⟩ := hhigh schedule r hr
    exact processProjectConcurrent_calls project (numCPU * 4) processFileWithDependencies
      schedule r.2.1 hrun hst

/-- An instance of `strategies_return_duration`: on one CPU the bounded strategy runs to
its return on a project of one file; it returns the 1000 ns between the two readings of the
clock, and its counter stands at 1. -/
theorem strategies_return_duration_witness :
    ∃ r : Int × ProjectRun × Clock,
      processProjectConcurrent
        { Files := [{ Path := "src/file_0.ts", Content := [], AST := none, Symbols := [],
                      Size := 0 }]
          GlobalSymbols := { symbols := GoMap.make, types := GoMap.make }
          Dependencies := GoMap.make }
        1 { readings := fun i => 1000 * i, taken := 0 }
        [Event.worker 0, Event.worker 0, Event.worker 0, Event.done] = some r ∧
      r.1 = 1000 ∧ r.2.1.processed = 1 :=
  ⟨_, rfl,
    ((strategies_return_duration
      { Files := [{ Path := "src/file_0.ts", Content := [], AST := none, Symbols := [],
                    Size := 0 }]
        GlobalSymbols := { symbols := GoMap.make, types := GoMap.make }
        Dependencies := GoMap.make }
      1 { readings := fun i => 1000 * i, taken := 0 }).2.1
        [Event.worker 0, Event.worker 0, Event.worker 0, Event.done] _ rfl).1,
    ((strategies_return_duration
      { Files := [{ Path := "src/file_0.ts", Content := [], AST := none, Symbols := [],
                    Size := 0 }]
        GlobalSymbols := { symbols := GoMap.make, types := GoMap.make }
        Dependencies := GoMap.make }
      1 { readings := fun i => 1000 * i, taken := 0 }).2.1
        [Event.worker 0, Event.worker 0, Event.worker 0, Event.done] _ rfl).2.1⟩

end TechShare
